import Mathlib

/-!
Verification development for the HPDDM Krylov-solver core
(src/include/CG.hpp, src/include/iterative.hpp, src/src/SuiteSparse.hpp).

Modelling conventions:
* Machine scalars (C++ `double` / `underlying_type<K>`) are embedded as exact
  rationals; `std::real` is the identity (the real-scalar instantiation) and
  `Wrapper<K>::conj` is the identity.  Division is the totalized rational
  division (q / 0 = 0).
* Local vectors are `List ℚ`; a block of `mu` right-hand-side columns is a
  `List (List ℚ)` of the `mu` columns.  A rank running with `excluded = true`
  owns no local degrees of freedom (`n = 0` in the source), which is embedded
  as the block whose columns are all empty.
* Distributed operators (`A.GMV`) and preconditioners (`A.apply`) are embedded
  as matrices over ℚ acting on the local data; in this single-rank embedding
  `MPI_Allreduce` over a sum is the identity on the local contribution.
  Communication *patterns* are embedded separately as explicit traces.
* The dense factorization kernels that the spec declares external
  (LAPACK `ppsv`/`posv`, the `QR` helper of the iterative-method toolbox)
  are parameters of the model returning `Option` results: `none` embeds a
  nonzero `info` failure code.
-/

namespace HPDDM

/-- Local vector of rational scalars. -/
abbrev Vec : Type := List ℚ

/-- Block of `mu` local columns. -/
abbrev Cols : Type := List Vec

/-- Dense matrix stored as its list of rows. -/
abbrev Mat : Type := List Vec

/-- Dot product of two local vectors (`Blas<K>::dot`, real case). -/
def dotQ (a b : Vec) : ℚ := (List.zipWith (fun u w => u * w) a b).sum

/-- The axpy kernel `y := a*x + y` (`Blas<K>::axpy`). -/
def axpyQ (a : ℚ) (xs ys : Vec) : Vec := List.zipWith (fun u w => a * u + w) xs ys

/-- The axpby kernel `y := a*x + b*y` (`Blas<K>::axpby`). -/
def axpbyQ (a : ℚ) (xs : Vec) (b : ℚ) (ys : Vec) : Vec :=
  List.zipWith (fun u w => a * u + b * w) xs ys

/-- Pointwise difference of two vectors. -/
def vsub (a b : Vec) : Vec := List.zipWith (fun u w => u - w) a b

/-- Pointwise (diagonal) scaling `Wrapper<K>::diag` with weighting vector `d`. -/
def hadamard (d v : Vec) : Vec := List.zipWith (fun u w => u * w) d v

/-- Matrix-vector product, rows dotted against the vector. -/
def matVec (A : Mat) (v : Vec) : Vec := A.map (fun row => dotQ row v)

/-- Columnwise application of an operator to a block (`A.GMV(in, out, mu)`). -/
def opCols (A : Mat) (P : Cols) : Cols := P.map (matVec A)

/-- Columnwise diagonal scaling of a block (`Wrapper<K>::diag(n, d, in, out, mu)`). -/
def diagCols (d : Vec) (P : Cols) : Cols := P.map (hadamard d)

/-- Columnwise difference of two blocks. -/
def colsSub (P Q : Cols) : Cols := List.zipWith vsub P Q

/-- Columnwise dot products of matching columns of two blocks. -/
def colsDot (P Q : Cols) : Vec := List.zipWith dotQ P Q

/-- Three-argument zipWith, used for columnwise kernels with per-column scalars. -/
def zipWith3 (f : α → β → γ → δ) : List α → List β → List γ → List δ
  | a :: as, b :: bs, c :: cs => f a b c :: zipWith3 f as bs cs
  | _, _, _ => []

/-- Four-argument zipWith. -/
def zipWith4 (f : α → β → γ → δ → ε) : List α → List β → List γ → List δ → List ε
  | a :: as, b :: bs, c :: cs, d :: ds => f a b c d :: zipWith4 f as bs cs ds
  | _, _, _, _ => []

/-- Columnwise axpy with one scalar per column: column `nu` of the result is
`c[nu] * P[nu] + Q[nu]` (one `Blas<K>::axpy`/`gemv` accumulation per column). -/
def colsAxpy (c : Vec) (P Q : Cols) : Cols := zipWith3 axpyQ c P Q

/-- A vector is (extensionally) zero. -/
def isZero (v : Vec) : Prop := ∀ q ∈ v, q = 0

/-- Every column of a block is zero. -/
def isZeroC (P : Cols) : Prop := ∀ v ∈ P, isZero v

instance (v : Vec) : Decidable (isZero v) := by unfold isZero; infer_instance

instance (P : Cols) : Decidable (isZeroC P) := by unfold isZeroC; infer_instance

/-- The block each of whose `mu` columns is the empty local vector: the local
data of a rank with `n = 0` degrees of freedom (an excluded rank). -/
def emptyCols (mu : ℕ) : Cols := List.replicate mu []

/-! ## Configuration

Modelled from the spec: the global option lookup (`Option::get()`, keyed by
`prefix + name`) is not part of the sources here; it is embedded as a record
of the already-looked-up values the CG/BCG/PCG entry points read through
`opt.any_of`, `opt.val` and `options<N>`.  An absent key is `none`. -/
structure Opts where
  /-- value stored for `prefix + "schwarz_method"`, if any -/
  schwarzMethod : Option ℤ
  /-- value stored for `prefix + "schwarz_coarse_correction"`, if any -/
  schwarzCoarse : Option ℤ
  /-- relative tolerance `tol` -/
  tol : ℚ
  /-- maximum iteration count `it` (`m[0]` in BCG) -/
  it : ℕ
  /-- `id[0]`: verbosity -/
  verbosity : ℤ
  /-- `id[1]`: Gram-Schmidt / variant selector of `options<N>` -/
  variantGS : ℕ
  /-- value of `prefix + "variant"` read by BCG -/
  variant : ℕ
  /-- value of `prefix + "enlarge_krylov_subspace"` (`m[1]` in BCG) -/
  enlarge : ℕ
deriving DecidableEq

/-- Modelled from the spec: `opt.any_of(key, list)` — the lookup finds the key
and its value belongs to the list. -/
def anyOf (v : Option ℤ) (s : List ℤ) : Bool :=
  match v with
  | some k => decide (k ∈ s)
  | none => false

/-- The configuration test of CG.hpp:38 and CG.hpp:154 deciding the silent
redirection of CG/BCG to GMRES. -/
def bypassToGMRES (o : Opts) : Bool :=
  anyOf o.schwarzMethod [0, 1, 4] || anyOf o.schwarzCoarse [0]

/-- Result surface of one solver invocation: the returned iteration count and
the final contents of the caller's solution block `x`; `r` is the residual
block the method held when it exited (internal state, exposed by the model). -/
structure KOut where
  count : ℕ
  x : Cols
  r : Cols
deriving DecidableEq

/-- Signature of the externally declared GMRES entry point
(`IterativeMethod::GMRES`, declared in iterative.hpp:315, defined outside the
sources here): from the right-hand sides and the initial guess to a result. -/
abbrev GmresK : Type := Cols → Cols → KOut

/-! ## CG (CG.hpp:31-145)

State of the CG iteration.  The flat scratch allocation of the source
(`res`, `dir`, `z`, `r`, `p` and the direction/`z` history slices stored at
`p + i*dim` and `p + (it+i)*dim`, the denominators at `dir + (it+i)*mu`) is
embedded as named fields.  `conv` embeds `hasConverged`: `none` is the
`-it` sentinel, `some k` records convergence at iteration `k`.  `steps`
is ghost instrumentation counting executions of the loop body. -/
structure CGState where
  x : Cols
  r : Cols
  p : Cols
  z : Cols
  /-- contents of the `trash` buffer at the loop head (`diag`-scaled block) -/
  trash : Cols
  /-- squared initial residual norms (`res` of CG.hpp:66 holds their roots) -/
  resSq : Vec
  /-- stored direction blocks `p + (1+k)*dim`, `k`-th entry from iteration `k+1` -/
  histP : List Cols
  /-- stored `z = A p` blocks `p + (1+it+k)*dim` (recycling variant only) -/
  histZ : List Cols
  /-- stored denominators `dir + (it+1+k)*mu` -/
  histDen : List Vec
  /-- `hasConverged`: `none` embeds the `-it` sentinel -/
  conv : List (Option ℕ)
  /-- the loop counter `i` -/
  i : ℕ
  /-- ghost count of loop-body executions -/
  steps : ℕ
deriving DecidableEq

/-- Modelled from the spec: `checkConvergence<2>` compares, for each still
unconverged column, the current relative residual against the tolerance and
records the iteration index.  Embedded on squared norms: the source compares
`sqrt(cur) ≤ tol * sqrt(init)`, equivalently `cur ≤ tol^2 * init` for
nonnegative data. -/
def markConverged (tol : ℚ) (i : ℕ) (conv : List (Option ℕ)) (curSq initSq : Vec) :
    List (Option ℕ) :=
  zipWith3
    (fun c cur ini =>
      match c with
      | some k => some k
      | none => if cur ≤ tol ^ 2 * ini then some i else none)
    conv curSq initSq

/-- Initial CG state (CG.hpp:42-66): `z = A x`, `r = b - z`, `p = M r`
(`A.apply`), `trash = d ∘ p`, and the initial squared norms
`⟨d∘p, p⟩` reduced over the communicator. -/
def cgInit (A M : Mat) (d : Vec) (b x : Cols) : CGState :=
  let z := opCols A x
  let r := colsSub b z
  let p := opCols M r
  let trash := diagCols d p
  let resSq := colsDot trash p
  { x := x, r := r, p := p, z := z, trash := trash, resSq := resSq,
    histP := [], histZ := [], histDen := [],
    conv := List.replicate p.length none, i := 0, steps := 0 }

/-- One execution of the CG loop body (CG.hpp:69-136).  Returns the new state
and whether the `--i; break` exit of CG.hpp:133-136 was taken. -/
def cgBody (o : Opts) (A M : Mat) (d : Vec) (st : CGState) : CGState × Bool :=
  -- CG.hpp:70-71: numerators ⟨r, trash⟩ (trash = d∘(M r) from the previous pass)
  let num := colsDot st.r st.trash
  -- CG.hpp:72-84 (recycling variant, i > 0): deflate against the stored z's,
  -- rebuild p from z plus the history combination
  let p1 :=
    if o.variantGS = 2 ∧ 0 < st.i then
      let coefs := List.zipWith
        (fun Hz den => zipWith3 (fun t hz dv => -(dotQ t hz) / dv) st.trash Hz den)
        st.histZ st.histDen
      (List.zipWith (fun c Hp => (c, Hp)) coefs st.histP).foldl
        (fun acc ch => colsAxpy ch.1 ch.2 acc) st.z
    else st.p
  -- CG.hpp:86-87: z := A p
  let z1 := opCols A p1
  -- CG.hpp:88-102 (i > 0): A-orthogonalize p against the stored directions
  -- and recompute z := A p
  let (p2, z2) :=
    if 0 < st.i then
      let trash1 := diagCols d z1
      let coefs := List.zipWith
        (fun Hp den => zipWith3 (fun t hp dv => -(dotQ t hp) / dv) trash1 Hp den)
        st.histP st.histDen
      let p' := (List.zipWith (fun c Hp => (c, Hp)) coefs st.histP).foldl
        (fun acc ch => colsAxpy ch.1 ch.2 acc) p1
      (p', opCols A p')
    else (p1, z1)
  -- CG.hpp:104-107: denominators ⟨A p, d∘p⟩, reduced together with num
  let trash2 := diagCols d p2
  let den := colsDot z2 trash2
  -- CG.hpp:108: ++i
  let i1 := st.i + 1
  -- CG.hpp:109-112: store the denominators, the direction block and (recycling
  -- variant) the z block into the history slices
  let histDen1 := st.histDen ++ [den]
  let histP1 := st.histP ++ [p2]
  let histZ1 := if o.variantGS = 2 then st.histZ ++ [z2] else st.histZ
  -- CG.hpp:113-120: step update of x and r for the still unconverged columns
  let alphas := List.zipWith (fun u w => u / w) num den
  let x1 := zipWith4 (fun c a pc xc => if c = none then axpyQ a pc xc else xc)
    st.conv alphas p2 st.x
  let r1 := zipWith4 (fun c a zc rc => if c = none then axpyQ (-a) zc rc else rc)
    st.conv alphas z2 st.r
  -- CG.hpp:121-122: z := M r, trash := d∘z
  let z3 := opCols M r1
  let trash3 := diagCols d z3
  -- CG.hpp:123-127: beta and the new squared residual norms ⟨z, d∘z⟩
  let betas := zipWith3 (fun rc tc nu => dotQ rc tc / nu) r1 trash3 num
  let normSq := colsDot z3 trash3
  -- CG.hpp:128-130 (standard variant): p := z + beta * p
  let p3 :=
    if o.variantGS ≠ 2 then zipWith3 (fun zc bc pc => axpbyQ 1 zc bc pc) z3 betas p2
    else p2
  -- CG.hpp:131-132: convergence marking on the (squared) norms
  let conv1 := markConverged o.tol i1 st.conv normSq st.resSq
  -- CG.hpp:133-136: if every column converged, --i and break
  let brk := conv1.all (fun c => c.isSome)
  ({ st with x := x1, r := r1, p := p3, z := z3, trash := trash3,
             histP := histP1, histZ := histZ1, histDen := histDen1,
             conv := conv1, i := if brk then i1 - 1 else i1,
             steps := st.steps + 1 }, brk)

/-- The `while(i < it)` loop of CG.hpp:69-137, by fuel; the flag records an
early exit through CG.hpp:133-136. -/
def cgLoop (o : Opts) (A M : Mat) (d : Vec) : ℕ → CGState → CGState × Bool
  | 0, st => (st, false)
  | fuel + 1, st =>
    let (st', brk) := cgBody o A M d st
    if brk then (st', true) else cgLoop o A M d fuel st'

/-- The CG iteration proper (everything of CG.hpp:42-144 after the option
block), on the localized data of the rank. -/
def cgRun (o : Opts) (A M : Mat) (d : Vec) (b x : Cols) : CGState × Bool :=
  cgLoop o A M d o.it (cgInit A M d b x)

/-- `IterativeMethod::CG` (CG.hpp:31-145).  `excluded` localizes the data to
the empty block (`n = excluded ? 0 : A.getDof()`); the configuration test of
CG.hpp:38-39 silently redirects to GMRES.  The returned count is
`std::min(i, it)` (CG.hpp:144). -/
def CG (o : Opts) (A M : Mat) (d : Vec) (excluded : Bool) (gmres : GmresK)
    (mu : ℕ) (b x : Cols) : KOut :=
  if bypassToGMRES o then gmres b x
  else
    -- `n = excluded ? 0 : A.getDof()` (CG.hpp:42): an excluded rank owns no
    -- local rows, so its local data, operator, preconditioner and scaling
    -- are all empty
    let Al := if excluded then [] else A
    let Ml := if excluded then [] else M
    let dl := if excluded then [] else d
    let bl := if excluded then emptyCols mu else b
    let xl := if excluded then emptyCols mu else x
    let (st, _) := cgRun o Al Ml dl bl xl
    { count := min st.i o.it, x := st.x, r := st.r }

/-! ## BCG (CG.hpp:147-291)

Small dense `mu × mu` matrices are stored column-major as their list of
columns, mirroring the LAPACK layout of the `rho`/`rhs`/`gamma` buffers. -/

/-- Dense `mu × mu` matrix, column-major. -/
abbrev SqMat : Type := List Vec

/-- Column `j` of a small dense matrix. -/
def sqCol (M : SqMat) (j : ℕ) : Vec := M.getD j []

/-- Entry `(i, j)` of a small dense matrix (0 outside the stored data). -/
def sqGet (M : SqMat) (i j : ℕ) : ℚ := (sqCol M j).getD i 0

/-- The zero `mu × mu` matrix (`std::fill_n(rho, ..., K())` on excluded ranks). -/
def zeroSq (mu : ℕ) : SqMat := List.replicate mu (List.replicate mu 0)

/-- Block Gram matrix: entry `(i, j)` is `⟨P_i, Q_j⟩` (the `gemmt`/`transc`
rank-`mu` products of CG.hpp:179, 216, 237). -/
def gramT (P Q : Cols) : SqMat := Q.map (fun qj => P.map (fun pi => dotQ pi qj))

/-- Keep the upper triangle and mirror it onto the lower triangle, as the
packed-storage round trips of CG.hpp:180-190 and CG.hpp:259-263 do (`conj`
is the identity on real scalars). -/
def symU (mu : ℕ) (G : SqMat) : SqMat :=
  (List.range mu).map (fun j =>
    (List.range mu).map (fun i => if i ≤ j then sqGet G i j else sqGet G j i))

/-- Forward substitution for one column of `trsm("L", "U", transc, "N")`
(CG.hpp:212): solves `U^T y = b` using the upper triangle of `U`. -/
def trsolveCol (mu : ℕ) (U : SqMat) (b : Vec) : Vec :=
  (List.range mu).foldl
    (fun ys i =>
      ys ++ [(b.getD i 0 -
        ((List.range i).map (fun k => sqGet U k i * ys.getD k 0)).sum) / sqGet U i i])
    []

/-- `trsm("L", "U", transc, "N", ...)`: columnwise triangular solve. -/
def trsolveUT (mu : ℕ) (U B : SqMat) : SqMat := B.map (trsolveCol mu U)

/-- `trmm("L", "U", "N", "N", ...)` (CG.hpp:273): multiply by the upper
triangle of `U` from the left. -/
def triMulU (mu : ℕ) (U B : SqMat) : SqMat :=
  B.map (fun col =>
    (List.range mu).map (fun i =>
      ((List.range mu).map (fun k => if i ≤ k then sqGet U i k * col.getD k 0 else 0)).sum))

/-- `gemm` accumulation `T := T + s * (Σ_k X(k, nu) P_k)` per column `nu`
(CG.hpp:231-232, 275). -/
def colsAddMul (s : ℚ) (P : Cols) (X : SqMat) (T : Cols) : Cols :=
  List.zipWith (fun xcol tcol =>
    (P.zip xcol).foldl (fun acc pc => axpyQ (s * pc.2) pc.1 acc) tcol) X T

/-- The dense factorization kernels the spec scopes out as an external,
trusted numerical library: the symmetric-positive-definite solvers
`Lapack<K>::ppsv` / `Lapack<K>::posv` (on the mirrored full storage; `none`
embeds a nonzero `info`) and the `QR` re-orthogonalization helper of
CG.hpp:192/277 (given the scaling `d` and the direction block, it returns the
orthonormalized block and the triangular factor `gamma`, or `none` on a
nonzero `info`). -/
structure DenseK where
  ppsv : SqMat → SqMat → Option SqMat
  posv : SqMat → SqMat → Option SqMat
  qr : Vec → Cols → Option (Cols × SqMat)

/-- State of the BCG outer iteration (workspace slices of CG.hpp:163-169). -/
structure BCGState where
  x : Cols
  r : Cols
  p : Cols
  z : Cols
  /-- `rho` (first `mu*mu` scalars of the `rho` slice) -/
  rho : SqMat
  /-- `rho + mu*mu`, the block-step right-hand side/solution buffer -/
  rho2 : SqMat
  /-- the `gamma` factor of the latest QR re-orthogonalization -/
  gamma : SqMat
  /-- squared column norms from CG.hpp:198-207 (the source keeps their roots) -/
  normSq : Vec
  i : ℕ
  /-- ghost count of loop-body executions -/
  steps : ℕ
deriving DecidableEq

/-- Modelled from the spec: `checkBlockConvergence<3>` checks convergence of
the coupled block jointly, comparing the current (squared) residual quantities
against `tol^2` times the initial (squared) norms and returning how many
right-hand sides are converged. -/
def checkBlockCount (tol : ℚ) (normSq vals : Vec) : ℕ :=
  (List.zipWith (fun v nsq => decide (v ≤ tol ^ 2 * nsq)) vals normSq).count true

/-- The squared-norm data of CG.hpp:198-207: per-column prefix norms of
`gamma` when `enlarge ≤ 1`, one norm of the column-sum prefix otherwise. -/
def bcgNormSq (mu m1 : ℕ) (gamma : SqMat) : Vec :=
  if m1 ≤ 1 then
    (List.range mu).map (fun nu =>
      ((List.range (nu + 1)).map (fun k => sqGet gamma k nu ^ 2)).sum)
  else
    let comb := (List.range m1).map (fun k =>
      ((List.range m1).map (fun nu => if k ≤ nu then sqGet gamma k nu else 0)).sum)
    [(comb.map (fun q => q ^ 2)).sum]

/-- The convergence quantities of CG.hpp:240-253: per-column `⟨z_nu, (d∘z)_nu⟩`
when `enlarge ≤ 1`, a single dot of the column sums otherwise. -/
def bcgVals (m1 : ℕ) (z trash : Cols) : Vec :=
  if m1 ≤ 1 then colsDot z trash
  else
    let tsum := ((trash.take m1).tail).foldl (fun acc c => axpyQ 1 c acc) (trash.headD [])
    let zsum := ((z.take m1).tail).foldl (fun acc c => axpyQ 1 c acc) (z.headD [])
    [dotQ tsum zsum]

/-- Result of one pass through the BCG loop body. -/
inductive BStep where
  /-- a dense solve or the QR re-orthogonalization reported a nonzero `info`;
  carries the contents of `x` and `r` at that point -/
  | fail (x r : Cols)
  /-- every right-hand side converged: the `break` of CG.hpp:256 -/
  | conv (st : BCGState)
  /-- fall through to the next iteration -/
  | next (st : BCGState)
deriving DecidableEq

/-- Outcome of the BCG loop. -/
inductive BRes where
  | out (count : ℕ) (st : BCGState) (conv : Bool)
  | fb (x r : Cols)
deriving DecidableEq

/-- One pass through the `while(i <= m[0])` body of CG.hpp:209-285. -/
def bcgBody (k : DenseK) (o : Opts) (A M : Mat) (d : Vec) (excluded : Bool)
    (mu : ℕ) (st : BCGState) : BStep :=
  -- CG.hpp:210-213: z := A p, rho2 := gamma^{-H} rho2
  let z1 := if excluded then st.z else opCols A st.p
  let rho2a := if excluded then st.rho2 else trsolveUT mu st.gamma st.rho2
  -- CG.hpp:214-222: rhs := p^H (d∘z), packed upper, reduced
  let trash1 := diagCols d z1
  let rhs := if excluded then zeroSq mu else symU mu (gramT st.p trash1)
  -- CG.hpp:223-229: dense symmetric-positive-definite block solve
  match k.ppsv rhs rho2a with
  | none => .fail st.x st.r
  | some sol =>
    -- CG.hpp:230-233: x += p * sol, r -= z * sol
    let x1 := if excluded then st.x else colsAddMul 1 st.p sol st.x
    let r1 := if excluded then st.r else colsAddMul (-1) z1 sol st.r
    -- CG.hpp:234-235: z := M r, trash := d∘z
    let z2 := opCols M r1
    let trash2 := diagCols d z2
    -- CG.hpp:236-254: new Gram data and convergence quantities
    let rhs2 := if excluded then zeroSq mu else symU mu (gramT r1 trash2)
    let vals := if excluded then List.replicate (mu / max o.enlarge 1) 0
      else bcgVals (max o.enlarge 1) z2 trash2
    let st1 : BCGState :=
      { st with x := x1, r := r1, z := z2, rho2 := rho2a, steps := st.steps + 1 }
    -- CG.hpp:255-256: joint convergence check and break
    if mu = checkBlockCount o.tol st.normSq vals then .conv st1
    else
      -- CG.hpp:258: ++i
      let i1 := st.i + 1
      -- CG.hpp:259-264: mirror rhs to full storage, save it into rho2
      let rho2b := rhs2
      -- CG.hpp:265-271: dense solve rho * Y = rhs
      match k.posv st.rho rhs2 with
      | none => .fail x1 r1
      | some Y =>
        -- CG.hpp:272-276: Y := gamma * Y, p := p + p_old * Y
        let Y2 := triMulU mu st.gamma Y
        let p1 := if excluded then st.p else colsAddMul 1 st.p Y2 st.p
        -- CG.hpp:277-283: QR re-orthogonalization of the direction block
        match k.qr d p1 with
        | none => .fail x1 r1
        | some pg =>
          -- CG.hpp:284: rho := saved Gram
          .next { st1 with p := pg.1, gamma := pg.2, rho := rho2b, rho2 := rho2b,
                           i := i1 }

/-- The BCG loop, by fuel (`fuel = m[0] - i + 1` pending passes). -/
def bcgLoop (k : DenseK) (o : Opts) (A M : Mat) (d : Vec) (excluded : Bool)
    (mu : ℕ) : ℕ → BCGState → BRes
  | 0, st => .out (min st.i o.it) st false
  | fuel + 1, st =>
    match bcgBody k o A M d excluded mu st with
    | .fail x r => .fb x r
    | .conv st' => .out (min st'.i o.it) st' true
    | .next st' => bcgLoop k o A M d excluded mu fuel st'

/-- Setup and loop of BCG (CG.hpp:161-285) on the localized data, ending in
either a completed iteration or a fallback demand. -/
def bcgCore (k : DenseK) (o : Opts) (A M : Mat) (d : Vec) (excluded : Bool)
    (mu : ℕ) (b x : Cols) : BRes :=
  -- CG.hpp:161: `n = excluded ? 0 : A.getDof()` — localized data and operator
  let Al := if excluded then [] else A
  let Ml := if excluded then [] else M
  let dl := if excluded then [] else d
  let bl := if excluded then emptyCols mu else b
  let xl := if excluded then emptyCols mu else x
  -- CG.hpp:171-191: initial residual, preconditioned block, Gram matrix
  let z := opCols Al xl
  let r := colsSub bl z
  let p := opCols Ml r
  let trash := diagCols dl p
  let rho := if excluded then zeroSq mu else symU mu (gramT r trash)
  -- CG.hpp:192-197: initial QR of the direction block
  match k.qr dl p with
  | none => .fb xl r
  | some pg =>
    bcgLoop k o Al Ml dl excluded mu o.it
      { x := xl, r := r, p := pg.1, z := z, rho := rho, rho2 := rho,
        gamma := pg.2, normSq := bcgNormSq mu (max o.enlarge 1) pg.2,
        i := 1, steps := 0 }

/-- Mirror of `bcgCore`/`bcgLoop` recording whether any dense solve or QR
factorization reported a nonzero `info` during the run. -/
def bcgFailLoop (k : DenseK) (o : Opts) (A M : Mat) (d : Vec) (excluded : Bool)
    (mu : ℕ) : ℕ → BCGState → Bool
  | 0, _ => false
  | fuel + 1, st =>
    match bcgBody k o A M d excluded mu st with
    | .fail _ _ => true
    | .conv _ => false
    | .next st' => bcgFailLoop k o A M d excluded mu fuel st'

/-- Whether the BCG run hits a numerical breakdown (nonzero `info` from
`ppsv`, `posv` or `QR`) at any point. -/
def bcgFails (k : DenseK) (o : Opts) (A M : Mat) (d : Vec) (excluded : Bool)
    (mu : ℕ) (b x : Cols) : Bool :=
  let Al := if excluded then [] else A
  let Ml := if excluded then [] else M
  let dl := if excluded then [] else d
  let bl := if excluded then emptyCols mu else b
  let xl := if excluded then emptyCols mu else x
  let z := opCols Al xl
  let r := colsSub bl z
  let p := opCols Ml r
  let trash := diagCols dl p
  let rho := if excluded then zeroSq mu else symU mu (gramT r trash)
  match k.qr dl p with
  | none => true
  | some pg =>
    bcgFailLoop k o Al Ml dl excluded mu o.it
      { x := xl, r := r, p := pg.1, z := z, rho := rho, rho2 := rho,
        gamma := pg.2, normSq := bcgNormSq mu (max o.enlarge 1) pg.2,
        i := 1, steps := 0 }

/-- `IterativeMethod::BCG` (CG.hpp:147-291): the GMRES bypass of CG.hpp:154,
the `variant == 2` redirection to CG of CG.hpp:157, the block iteration, and
the fallback `return CG<excluded>(A, b, x, mu, comm)` on breakdown
(CG.hpp:196, 228, 270, 282), with `x` holding its in-place contents at the
point of breakdown. -/
def BCG (k : DenseK) (o : Opts) (A M : Mat) (d : Vec) (excluded : Bool)
    (gmres : GmresK) (mu : ℕ) (b x : Cols) : KOut :=
  if bypassToGMRES o then gmres b x
  else if o.variant = 2 then CG o A M d excluded gmres mu b x
  else
    match bcgCore k o A M d excluded mu b x with
    | .fb xc _ => CG o A M d excluded gmres mu b xc
    | .out c st _ => { count := c, x := st.x, r := st.r }

/-! ## PCG (CG.hpp:293-398)

The contiguous-storage instantiation (`ptr_type = K*`).  The operator's
callback surface (constraint projections `project<'N'>`/`project<'T'>`,
`apply`, `precond`, the scaling vector, and `computeSolution`) is the §6
operator contract: the callbacks are parameters of the model.  The initial
residual `storage[0]` produced by `A.start` is likewise a parameter.
`computeDot` is modelled from the spec as the (distributed) dot product of
its arguments. -/

/-- Operator callbacks consumed by PCG (§6 operator contract). -/
structure PCGOp where
  /-- `project<excluded, 'N'>` -/
  projN : Vec → Vec
  /-- `project<excluded, 'T'>` -/
  projT : Vec → Vec
  /-- `apply` (the operator `F`) -/
  F : Vec → Vec
  /-- `precond` (the preconditioner `M`) -/
  M : Vec → Vec
  /-- the scaling vector `m = A.getScaling()` -/
  scal : Vec
  /-- `computeSolution(f, x)` -/
  sol : Vec → Vec → Vec

/-- State of the PCG iteration.  `zs` is the growing `z` vector list (entry
`k < i-1` holds `F p_{k+1}`, later scaled in place by CG.hpp:382; the last
entry is the current preconditioned residual), `ps` the direction list,
`aHist` the stored denominators `alpha[k]`, `resLog` the squared residual
norms per iteration (ghost), `log` the verbosity-guarded diagnostic records
of CG.hpp:373-374, `steps` a ghost body-execution count. -/
structure PCGState where
  x : Vec
  r : Vec
  zs : List Vec
  ps : List Vec
  aHist : List ℚ
  resLog : List ℚ
  log : List (ℕ × ℚ × ℚ × ℚ)
  i : ℕ
  steps : ℕ
deriving DecidableEq

/-- One pass through the `while(i <= it)` body of CG.hpp:328-384.  The
residual test `resRel / resInit <= tol` of CG.hpp:375 is embedded on squared
norms as `relSq / initSq ≤ tol^2` (the source compares the square roots).
Returns the new state and whether the `break` was taken. -/
def pcgBody (op : PCGOp) (tol : ℚ) (verbosity : ℤ) (resInitSq : ℚ)
    (excluded : Bool) (st : PCGState) : PCGState × Bool :=
  let zLast := (st.zs.getLast?).getD []
  -- CG.hpp:330 / 364: p_i = P z_i
  let pC0 := op.projN zLast
  -- new state together with the vector the `zCurr` pointer designates when
  -- CG.hpp:371 measures the residual
  let br :=
    if excluded then
      -- CG.hpp:363-369: identity contributions, projections only
      ({ st with r := op.projT st.r, ps := st.ps.dropLast ++ [pC0] }, zLast)
    else
      -- CG.hpp:331-337: deflate against every stored direction
      let hist := st.zs.dropLast
      let dots := hist.map (fun zk => dotQ zk pC0)
      let pC := (zipWith3 (fun dk ak pk => (dk, ak, pk)) dots st.aHist
          (st.ps.dropLast)).foldl
        (fun acc t => axpyQ (-(t.1 / t.2.1)) t.2.2 acc) pC0
      -- CG.hpp:338: z_i = F p_i (overwrites the last z slot)
      let zF := op.F pC
      -- CG.hpp:340-350: step scalars from two reduced dots
      let scratch := hadamard op.scal pC
      let aNew := dotQ zF scratch
      let aCur := dotQ st.r scratch
      let astep := aCur / aNew
      -- CG.hpp:351-358: update x, r and re-project the residual
      let x1 := axpyQ astep pC st.x
      let r1 := op.projT (axpyQ (-astep) zF st.r)
      -- CG.hpp:360-361: append and precondition the new residual
      let zN := op.M r1
      ({ st with x := x1, r := r1,
                 zs := st.zs.dropLast ++ [zF, zN],
                 ps := st.ps.dropLast ++ [pC],
                 aHist := st.aHist ++ [aNew] }, zN)
  let st1 := br.1
  -- CG.hpp:371-372: squared residual norm of the current z (computeDot)
  let relSq := dotQ br.2 br.2
  -- CG.hpp:373-374: verbosity-guarded diagnostic record
  let log1 := st1.log ++ (if 2 < verbosity then [(st.i, relSq, resInitSq, tol)] else [])
  let resLog1 := st1.resLog ++ [relSq]
  -- CG.hpp:375-378: convergence test
  if relSq / resInitSq ≤ tol ^ 2 then
    ({ st1 with log := log1, resLog := resLog1, steps := st.steps + 1 }, true)
  else
    -- CG.hpp:379-383: new direction slot, in-place scaling of z[i-2]
    let i1 := st.i + 1
    let st2 :=
      if excluded then st1
      else
        { st1 with ps := st1.ps ++ [[]],
                   zs := st1.zs.set (i1 - 2) (hadamard op.scal (st1.zs.getD (i1 - 2) [])) }
    ({ st2 with log := log1, resLog := resLog1, i := i1, steps := st.steps + 1 }, false)

/-- The PCG loop by fuel. -/
def pcgLoop (op : PCGOp) (tol : ℚ) (verbosity : ℤ) (resInitSq : ℚ)
    (excluded : Bool) : ℕ → PCGState → PCGState
  | 0, st => st
  | fuel + 1, st =>
    let (st', brk) := pcgBody op tol verbosity resInitSq excluded st
    if brk then st' else pcgLoop op tol verbosity resInitSq excluded fuel st'

/-- Setup and loop of `IterativeMethod::PCG` (CG.hpp:293-384): `r0` is the
initial residual `storage[0]` produced by `A.start` (modelled from the spec:
scoped setup owned by the operator), `z_0 = M r_0`, `resInit = ‖z_0‖`. -/
def pcgRun (op : PCGOp) (o : Opts) (excluded : Bool) (r0 x0 : Vec) : PCGState :=
  let z0 := if excluded then [] else op.M r0
  let resInitSq := dotQ z0 z0
  pcgLoop op o.tol o.verbosity resInitSq excluded o.it
    { x := x0, r := r0, zs := [z0], ps := [[]], aHist := [], resLog := [],
      log := [], i := 1, steps := 0 }

/-- Result surface of PCG: returned count, final solution (after
`computeSolution`), final residual, and the run's numerical intermediates. -/
structure PCGRes where
  count : ℕ
  x : Vec
  r : Vec
  resLog : List ℚ
  aHist : List ℚ
  log : List (ℕ × ℚ × ℚ × ℚ)
deriving DecidableEq

/-- `IterativeMethod::PCG` (CG.hpp:293-398): run the iteration, reconstruct
the solution through `computeSolution`, return `std::min(i, it)`. -/
def PCG (op : PCGOp) (o : Opts) (excluded : Bool) (f : Vec) (r0 x0 : Vec) : PCGRes :=
  let st := pcgRun op o excluded r0 x0
  { count := min st.i o.it, x := op.sol f st.x, r := st.r,
    resLog := st.resLog, aHist := st.aHist, log := st.log }

/-- PCG result with the verbosity-guarded diagnostic records erased: every
numerical output of the run. -/
def pcgStrip (res : PCGRes) : PCGRes := { res with log := [] }

/-- PCG loop state with the diagnostic records erased. -/
def pcgStripSt (st : PCGState) : PCGState := { st with log := [] }

/-! ## Arnoldi (iterative.hpp:178-249)

The GMRES workspace is embedded at the source's own flat layout: a basis
slot `v[j]` is a total map from flat index (`nu * n + t` for column `nu`)
to scalar, a Hessenberg column `H[j]` a total map from its flat index
(`k * mu + nu`), likewise `s` and `sn`.  `std::sqrt` is an external scalar
kernel and is a parameter `sqrtK` (no theorem below depends on its values).
Each step also emits the trace of its `MPI_Allreduce` calls. -/

/-- Flat scalar array. -/
abbrev FArr : Type := ℕ → ℚ

/-- Sum of the first `len` values of `f`. -/
def sumR (f : ℕ → ℚ) (len : ℕ) : ℚ := ((List.range len).map f).sum

/-- Dot product of segments `[off, off+len)` of two flat arrays. -/
def dotSeg (u w : FArr) (off len : ℕ) : ℚ :=
  sumR (fun t => u (off + t) * w (off + t)) len

/-- Write the region `[lo, lo+len)` of a flat array through `g`. -/
def updR (lo len : ℕ) (g : ℕ → ℚ) (f : FArr) : FArr :=
  fun j => if lo ≤ j ∧ j < lo + len then g j else f j

/-- Replace slot `k` of an indexed family of flat arrays. -/
def upd1 (A : ℕ → FArr) (k : ℕ) (w : FArr) : ℕ → FArr :=
  fun j => if j = k then w else A j

/-- MPI datatype of a reduction: `Wrapper<K>::mpi_type()` or
`Wrapper<K>::mpi_underlying_type()`. -/
inductive DType where
  | scalarT
  | underT
deriving DecidableEq

/-- One `MPI_Allreduce(MPI_IN_PLACE, buf, len, dtype, MPI_SUM, comm)` call:
its element count, datatype, and the local summands contributed. -/
structure Red where
  len : ℕ
  dt : DType
  contrib : List ℚ
deriving DecidableEq

/-- Element count and datatype of a reduction (what the collective matches
across ranks). -/
def redShape (r : Red) : ℕ × DType := (r.len, r.dt)

/-- State touched by one Arnoldi step. -/
structure ArnSt where
  /-- Hessenberg columns `H[k]` -/
  H : ℕ → FArr
  /-- Krylov basis slots `v[k]` -/
  v : ℕ → FArr
  /-- least-squares right-hand side `s` -/
  s : FArr
  /-- Givens sines `sn` -/
  sn : FArr

/-- One Givens rotation of step `k` folded into the working column `c`
(iterative.hpp:233-239, `conj` is the identity). -/
def applyRot (H : ℕ → FArr) (sn : FArr) (mu k : ℕ) (c : FArr) : FArr :=
  fun j =>
    if k * mu ≤ j ∧ j < (k + 1) * mu then
      H k (j + mu) * c j + sn j * c (j + mu)
    else if (k + 1) * mu ≤ j ∧ j < (k + 2) * mu then
      -(sn (j - mu)) * c (j - mu) + H k j * c j
    else c j

/-- Fold the first `k` stored rotations into the working column. -/
def gfold (H : ℕ → FArr) (sn : FArr) (mu : ℕ) : ℕ → FArr → FArr
  | 0, c => c
  | k + 1, c => applyRot H sn mu k (gfold H sn mu k c)

/-- The classical Gram-Schmidt sweep of iterative.hpp:201-209: one reduced
block of `mu` dots per previous basis vector, each immediately removed from
the working vector.  The accumulator carries the Hessenberg column under
construction, the working copy of `v[i+1]`, and the reduction trace. -/
def cgsFold (vv : ℕ → FArr) (mu n : ℕ) (L : List ℕ)
    (acc : FArr × FArr × List Red) : FArr × FArr × List Red :=
  L.foldl
    (fun acc kk =>
      let hk : ℕ → ℚ := fun nu => dotSeg (vv kk) acc.2.1 (nu * n) n
      let hc := updR (kk * mu) mu (fun j => hk (j - kk * mu)) acc.1
      let vw : FArr := fun t =>
        if t < mu * n then acc.2.1 t - hk (t / n) * vv kk t else acc.2.1 t
      (hc, vw, acc.2.2 ++
        [{ len := mu, dt := DType.scalarT, contrib := (List.range mu).map hk }]))
    acc

/-- One iteration of `IterativeMethod::Arnoldi` (iterative.hpp:178-249,
`save == nullptr` instantiation), returning the new state and the ordered
trace of its `MPI_Allreduce` calls.  The temporary negated copies the source
parks at `H[i] + (i+1)*mu` during classical Gram-Schmidt (iterative.hpp:206)
are folded into the axpy; that slot's final value (iterative.hpp:226) is
unchanged. -/
def arnoldiStep (excluded : Bool) (gs : ℕ) (variant : Char) (m i mu n : ℕ)
    (gmv prec : FArr → FArr) (sqrtK : ℚ → ℚ) (st : ArnSt) : ArnSt × List Red :=
  -- iterative.hpp:179-188: operator and preconditioner placement
  let w0 := if variant = 'L' then prec (gmv (st.v i)) else gmv (prec (st.v i))
  let v0 := if variant = 'F' then upd1 st.v (i + m + 1) (prec (st.v i)) else st.v
  let orth :=
    if excluded then
      -- iterative.hpp:189-198: no local work, identity contributions
      let hcE := updR 0 (mu * (i + 1)) (fun _ => 0) (st.H i)
      let tr1 : List Red :=
        if gs = 1 then
          (List.range (i + 1)).map (fun _ =>
            { len := mu, dt := DType.scalarT, contrib := List.replicate mu 0 })
        else [{ len := mu * (i + 1), dt := DType.scalarT,
                contrib := List.replicate (mu * (i + 1)) 0 }]
      let sn1 := updR (i * mu) mu (fun _ => 0) st.sn
      let tr2 := tr1 ++ [{ len := mu, dt := DType.underT,
                           contrib := List.replicate mu 0 }]
      let hc := updR ((i + 1) * mu) mu
        (fun j => sqrtK (sn1 (i * mu + (j - (i + 1) * mu)))) hcE
      (hc, sn1, st.v, tr2)
    else
      -- iterative.hpp:201-221: classical / batched Gram-Schmidt
      let gsRes :=
        if gs = 1 then
          cgsFold st.v mu n (List.range (i + 1)) (st.H i, w0, ([] : List Red))
        else
          let hvals : ℕ → ℚ := fun j => dotSeg (st.v (j / mu)) w0 ((j % mu) * n) n
          let hc := updR 0 ((i + 1) * mu) hvals (st.H i)
          let vw : FArr :=
            if gs = 0 then
              fun t =>
                if t < mu * n then
                  w0 t - sumR (fun kk => hc (kk * mu + t / n) * st.v kk t) (i + 1)
                else w0 t
            else
              fun t =>
                if t < mu * n then w0 t - hc (i * mu + t / n) * st.v i t else w0 t
          (hc, vw, [{ len := (i + 1) * mu, dt := DType.scalarT,
                      contrib := (List.range ((i + 1) * mu)).map hvals }])
      -- iterative.hpp:222-228: norm of the new vector, normalization
      let hc1 := gsRes.1
      let vw := gsRes.2.1
      let snv : ℕ → ℚ := fun nu => dotSeg vw vw (nu * n) n
      let sn1 := updR (i * mu) mu (fun j => snv (j - i * mu)) st.sn
      let tr := gsRes.2.2 ++
        [{ len := mu, dt := DType.underT, contrib := (List.range mu).map snv }]
      let hc2 := updR ((i + 1) * mu) mu
        (fun j => sqrtK (sn1 (i * mu + (j - (i + 1) * mu)))) hc1
      let vwN : FArr :=
        if i < m - 1 then
          fun t => if t < mu * n then vw t / hc2 ((i + 1) * mu + t / n) else vw t
        else vw
      (hc2, sn1, upd1 v0 (i + 1) vwN, tr)
  -- iterative.hpp:233-239: fold the stored rotations into the new column
  let hc3 := gfold st.H st.sn mu i orth.1
  -- iterative.hpp:240-248: new Givens rotation and least-squares update
  let delta : ℕ → ℚ := fun nu =>
    sqrtK (hc3 (i * mu + nu) ^ 2 + hc3 ((i + 1) * mu + nu) ^ 2)
  let snNew : ℕ → ℚ := fun nu => hc3 ((i + 1) * mu + nu) / delta nu
  let hc4 : FArr := fun j =>
    if i * mu ≤ j ∧ j < (i + 1) * mu then delta (j - i * mu)
    else if (i + 1) * mu ≤ j ∧ j < (i + 2) * mu then hc3 (j - mu) / delta (j - (i + 1) * mu)
    else hc3 j
  let sn2 := updR (i * mu) mu (fun j => snNew (j - i * mu)) orth.2.1
  let s1 : FArr := fun j =>
    if (i + 1) * mu ≤ j ∧ j < (i + 2) * mu then
      -(snNew (j - (i + 1) * mu)) * st.s (j - mu)
    else if i * mu ≤ j ∧ j < (i + 1) * mu then
      st.s j * (hc3 j / delta (j - i * mu))
    else st.s j
  ({ H := upd1 st.H i hc4, v := orth.2.2.1, s := s1, sn := sn2 }, orth.2.2.2)

/-! ## Block Arnoldi (iterative.hpp:253-298)

Rectangular working blocks are maps `(row, col) ↦ scalar`.  The dense LAPACK
kernels (`potrf`, `geqrf`, `mqr` and the triangular `trsm` of
iterative.hpp:292) are the external kernel library and are parameters. -/

/-- Dense kernels used by one Block-Arnoldi step. -/
structure BlockK where
  /-- `Lapack<K>::potrf("U", mu, ...)`: Cholesky of the diagonal block -/
  potrf : (ℕ → ℕ → ℚ) → (ℕ → ℕ → ℚ)
  /-- block part of `Lapack<K>::geqrf` -/
  geqrfB : (ℕ → ℕ → ℚ) → (ℕ → ℕ → ℚ)
  /-- reflector scalars of `Lapack<K>::geqrf` -/
  geqrfT : (ℕ → ℕ → ℚ) → (ℕ → ℚ)
  /-- `Lapack<K>::mqr("L", transc, ...)`: apply stored reflectors to a block -/
  mqr : (ℕ → ℕ → ℚ) → (ℕ → ℚ) → (ℕ → ℕ → ℚ) → (ℕ → ℕ → ℚ)
  /-- `Blas<K>::trsm("R", "U", "N", "N", ...)` against the new `R` factor -/
  trsmR : (ℕ → ℕ → ℚ) → FArr → FArr

/-- State touched by one Block-Arnoldi step: block-Hessenberg columns `H[k]`
(flat index `row + col*ldh`), reflector scalars `tau`, least-squares block
`s` (flat index `row + col*ldh`), and the basis slots. -/
structure BArnSt where
  H : ℕ → FArr
  tau : FArr
  s : FArr
  v : ℕ → FArr

/-- One iteration of `IterativeMethod::BlockArnoldi` (iterative.hpp:253-298,
`save == nullptr` instantiation).  `ldh = mu*(m+1)`; the `info` output of the
`potrf` call at iterative.hpp:287 is ignored by the source. -/
def blockArnoldiStep (gs : ℕ) (variant : Char) (m i mu n : ℕ)
    (gmv prec : FArr → FArr) (k : BlockK) (st : BArnSt) : BArnSt :=
  let ldh := mu * (m + 1)
  let N := 2 * mu
  -- iterative.hpp:254-263: operator and preconditioner placement
  let w0 := if variant = 'L' then prec (gmv (st.v i)) else gmv (prec (st.v i))
  let v0 := if variant = 'F' then upd1 st.v (i + m + 1) (prec (st.v i)) else st.v
  -- iterative.hpp:265-279: block Gram-Schmidt
  let gsRes :=
    if gs = 1 then
      (List.range (i + 1)).foldl
        (fun acc kk =>
          let Ax : ℕ → ℕ → ℚ := fun r c =>
            sumR (fun t => st.v kk (r * n + t) * acc.2 (c * n + t)) n
          let vw : FArr := fun t =>
            if t < mu * n then
              acc.2 t - sumR (fun q => st.v kk (q * n + t % n) * Ax q (t / n)) mu
            else acc.2 t
          let hc : FArr := fun j =>
            if j % ldh < (kk + 1) * mu ∧ kk * mu ≤ j % ldh ∧ j / ldh < mu then
              Ax (j % ldh - kk * mu) (j / ldh)
            else acc.1 j
          (hc, vw))
        (st.H i, w0)
    else
      let tmp := mu * (i + 1)
      let Ax : ℕ → ℕ → ℚ := fun r c =>
        sumR (fun t => st.v (r / mu) ((r % mu) * n + t) * w0 (c * n + t)) n
      let vw : FArr := fun t =>
        if t < mu * n then
          w0 t - sumR (fun q => st.v (q / mu) ((q % mu) * n + t % n) * Ax q (t / n)) tmp
        else w0 t
      let hc : FArr := fun j =>
        if j % ldh < tmp ∧ j / ldh < mu then Ax (j % ldh) (j / ldh) else st.H i j
      (hc, vw)
  -- iterative.hpp:280-285: Gram matrix of the new block, upper triangle
  let G : ℕ → ℕ → ℚ := fun r c =>
    sumR (fun t => gsRes.2 (r * n + t) * gsRes.2 (c * n + t)) n
  let hc2 : FArr := fun j =>
    if (i + 1) * mu ≤ j % ldh ∧ j % ldh < (i + 1) * mu + j / ldh + 1 ∧ j / ldh < mu then
      G (j % ldh - (i + 1) * mu) (j / ldh)
    else gsRes.1 j
  -- iterative.hpp:287: Cholesky of the diagonal block (info ignored)
  let fact := k.potrf (fun r c => hc2 ((i + 1) * mu + r + c * ldh))
  let hc3 : FArr := fun j =>
    if (i + 1) * mu ≤ j % ldh ∧ j % ldh < (i + 2) * mu ∧ j / ldh < mu ∧
        j % ldh - (i + 1) * mu ≤ j / ldh then
      fact (j % ldh - (i + 1) * mu) (j / ldh)
    else hc2 j
  -- iterative.hpp:291-292: normalize the new block against the R factor
  let vN := if i < m - 1 then
    k.trsmR (fun r c => hc3 ((i + 1) * mu + r + c * ldh)) gsRes.2 else gsRes.2
  -- iterative.hpp:294-295: fold the previous reflectors into the new column
  let hcF := (List.range i).foldl
    (fun hc leading =>
      let newC := k.mqr (fun r c => st.H leading (leading * mu + r + c * ldh))
        (fun t => st.tau (leading * N + t))
        (fun r c => hc (leading * mu + r + c * ldh))
      fun j =>
        if leading * mu ≤ j % ldh ∧ j % ldh < leading * mu + N ∧ j / ldh < mu then
          newC (j % ldh - leading * mu) (j / ldh)
        else hc j)
    hc3
  -- iterative.hpp:296: QR of the new diagonal 2mu x mu block
  let blk : ℕ → ℕ → ℚ := fun r c => hcF (i * mu + r + c * ldh)
  let newB := k.geqrfB blk
  let taus := k.geqrfT blk
  let hcN : FArr := fun j =>
    if i * mu ≤ j % ldh ∧ j % ldh < i * mu + N ∧ j / ldh < mu then
      newB (j % ldh - i * mu) (j / ldh)
    else hcF j
  let tau1 := updR (i * N) mu (fun j => taus (j - i * N)) st.tau
  -- iterative.hpp:297: apply the new reflectors to the right-hand side block
  let sNew := k.mqr (fun r c => hcN (i * mu + r + c * ldh))
    (fun t => tau1 (i * N + t)) (fun r c => st.s (i * mu + r + c * ldh))
  let s1 : FArr := fun j =>
    if i * mu ≤ j % ldh ∧ j % ldh < i * mu + N ∧ j / ldh < mu then
      sNew (j % ldh - i * mu) (j / ldh)
    else st.s j
  { H := upd1 st.H i hcN, tau := tau1, s := s1, v := upd1 v0 (i + 1) vN }

/-! ## Communication traces of the CG and PCG loop bodies -/

/-- The ordered `MPI_Allreduce` calls of one CG loop-body pass
(CG.hpp:76, 93, 107, 127) with their local contributions, recomputed from
the same state data `cgBody` consumes.  The element counts are the source's
`i*mu` and `2*mu` expressions. -/
def cgBodyTrace (o : Opts) (A M : Mat) (d : Vec) (mu : ℕ) (st : CGState) :
    List Red :=
  let num := colsDot st.r st.trash
  let tr1 :=
    if o.variantGS = 2 ∧ 0 < st.i then
      let coefs := List.zipWith
        (fun Hz den => zipWith3 (fun t hz dv => -(dotQ t hz) / dv) st.trash Hz den)
        st.histZ st.histDen
      [{ len := st.i * mu, dt := DType.underT, contrib := coefs.flatten }]
    else []
  let p1 :=
    if o.variantGS = 2 ∧ 0 < st.i then
      let coefs := List.zipWith
        (fun Hz den => zipWith3 (fun t hz dv => -(dotQ t hz) / dv) st.trash Hz den)
        st.histZ st.histDen
      (List.zipWith (fun c Hp => (c, Hp)) coefs st.histP).foldl
        (fun acc ch => colsAxpy ch.1 ch.2 acc) st.z
    else st.p
  let z1 := opCols A p1
  let tr2 :=
    if 0 < st.i then
      let trash1 := diagCols d z1
      let coefs := List.zipWith
        (fun Hp den => zipWith3 (fun t hp dv => -(dotQ t hp) / dv) trash1 Hp den)
        st.histP st.histDen
      [{ len := st.i * mu, dt := DType.underT, contrib := coefs.flatten }]
    else []
  let (p2, z2) :=
    if 0 < st.i then
      let trash1 := diagCols d z1
      let coefs := List.zipWith
        (fun Hp den => zipWith3 (fun t hp dv => -(dotQ t hp) / dv) trash1 Hp den)
        st.histP st.histDen
      let p' := (List.zipWith (fun c Hp => (c, Hp)) coefs st.histP).foldl
        (fun acc ch => colsAxpy ch.1 ch.2 acc) p1
      (p', opCols A p')
    else (p1, z1)
  let trash2 := diagCols d p2
  let den := colsDot z2 trash2
  let alphas := List.zipWith (fun u w => u / w) num den
  let x1 := zipWith4 (fun c a pc xc => if c = none then axpyQ a pc xc else xc)
    st.conv alphas p2 st.x
  let r1 := zipWith4 (fun c a zc rc => if c = none then axpyQ (-a) zc rc else rc)
    st.conv alphas z2 st.r
  let z3 := opCols M r1
  let trash3 := diagCols d z3
  let betas := zipWith3 (fun rc tc nu => dotQ rc tc / nu) r1 trash3 num
  let normSq := colsDot z3 trash3
  let _ := x1
  tr1 ++ tr2 ++
    [{ len := 2 * mu, dt := DType.underT, contrib := num ++ den },
     { len := 2 * mu, dt := DType.underT, contrib := normSq ++ betas }]

/-- The single `MPI_Allreduce` of the CG setup (CG.hpp:65). -/
def cgInitTrace (A M : Mat) (d : Vec) (mu : ℕ) (b x : Cols) : List Red :=
  let st := cgInit A M d b x
  [{ len := mu, dt := DType.underT, contrib := colsDot st.trash st.p }]

/-- The ordered `MPI_Allreduce` calls of one PCG loop-body pass.  The
non-excluded rank reduces the `i-1` deflation dots (CG.hpp:333) and the two
step scalars (CG.hpp:350); the excluded rank zero-fills the same buffers and
issues the same reductions (CG.hpp:365-368). -/
def pcgBodyTrace (op : PCGOp) (excluded : Bool) (st : PCGState) : List Red :=
  if excluded then
    [{ len := st.i - 1, dt := DType.scalarT, contrib := List.replicate (st.i - 1) 0 },
     { len := 2, dt := DType.scalarT, contrib := [0, 0] }]
  else
    let zLast := (st.zs.getLast?).getD []
    let pC0 := op.projN zLast
    let hist := st.zs.dropLast
    let dots := hist.map (fun zk => dotQ zk pC0)
    let pC := (zipWith3 (fun dk ak pk => (dk, ak, pk)) dots st.aHist
        (st.ps.dropLast)).foldl
      (fun acc t => axpyQ (-(t.1 / t.2.1)) t.2.2 acc) pC0
    let zF := op.F pC
    let scratch := hadamard op.scal pC
    [{ len := st.i - 1, dt := DType.scalarT, contrib := dots },
     { len := 2, dt := DType.scalarT, contrib := [dotQ zF scratch, dotQ st.r scratch] }]

/-! ## SuiteSparseSub (SuiteSparse.hpp:254-439)

`K` ranges over `double` and `std::complex<double>` (the two `stsprs`
instantiations); the flag `real` embeds `!is_same<K, complex<double>>`.
Entry values are embedded as rationals (the real instantiation; the
complex instantiation runs the identical control flow). -/

/-- Sparse matrix in the `MatrixCSR` format consumed by `numfact`. -/
structure MatCSR where
  /-- `_n` (columns) -/
  n : ℕ
  /-- `_m` (rows) -/
  m : ℕ
  /-- `_sym`: symmetric storage -/
  sym : Bool
  ia : List ℕ
  ja : List ℕ
  a : List ℚ
deriving DecidableEq

/-- The empty sparse matrix. -/
def emptyCSR : MatCSR := { n := 0, m := 0, sym := false, ia := [], ja := [], a := [] }

/-- The `HPDDM_EPS` dropping threshold of SuiteSparse.hpp:351.  The macro is
defined outside the sources here; the boundary behaviour proved below is
independent of its exact positive value. -/
def HPDDM_EPS : ℚ := 1 / 1000000000000

/-- Append one `(column, value)` pair to row `idx` of the row-list workspace
(`v[idx].emplace_back`). -/
def pushAt (v : List (List (ℕ × ℚ))) (idx : ℕ) (e : ℕ × ℚ) :
    List (List (ℕ × ℚ)) :=
  v.set idx (v.getD idx [] ++ [e])

/-- The symmetric-to-full expansion pass of SuiteSparse.hpp:344-359: for each
row, every entry but the last is an off-diagonal mirrored to both sides when
its magnitude exceeds `eps` (`std::abs(A->_a[j]) > HPDDM_EPS`), and the last
entry is kept unconditionally as the diagonal `(i, a)`. -/
def expandRows (eps : ℚ) (A : MatCSR) : List (List (ℕ × ℚ)) :=
  (List.range A.n).foldl
    (fun v i =>
      let start := A.ia.getD i 0
      let stop := A.ia.getD (i + 1) 0
      let offs := (List.range (stop - 1 - start)).map
        (fun t => (A.ja.getD (start + t) 0, A.a.getD (start + t) 0))
      let v1 := offs.foldl
        (fun w e => if eps < |e.2| then pushAt (pushAt w i e) e.1 (i, e.2) else w) v
      pushAt v1 i (i, A.a.getD (stop - 1) 0))
    (List.replicate A.n [])

/-- Insertion into a row sorted by column index (`std::sort` by `first`,
SuiteSparse.hpp:367). -/
def insPair (e : ℕ × ℚ) : List (ℕ × ℚ) → List (ℕ × ℚ)
  | [] => [e]
  | f :: fs => if e.1 < f.1 then e :: f :: fs else f :: insPair e fs

/-- Sort one row by column index. -/
def sortRow (l : List (ℕ × ℚ)) : List (ℕ × ℚ) := l.foldr insPair []

/-- Rebuild the CSR arrays from the sorted rows (SuiteSparse.hpp:360-375). -/
def expand (eps : ℚ) (A : MatCSR) : MatCSR :=
  let rows := (expandRows eps A).map sortRow
  { n := A.n, m := A.m, sym := false,
    ia := rows.foldl (fun acc r => acc ++ [((acc.getLast?).getD 0) + r.length]) [0],
    ja := (rows.map (fun r => r.map Prod.fst)).flatten,
    a := (rows.map (fun r => r.map Prod.snd)).flatten }

/-- Expansion following the CLAIM's words instead of the source: only entries
of magnitude strictly below `eps` are dropped (an entry with `|a| = eps` is
kept and mirrored). -/
def expandRowsClaim (eps : ℚ) (A : MatCSR) : List (List (ℕ × ℚ)) :=
  (List.range A.n).foldl
    (fun v i =>
      let start := A.ia.getD i 0
      let stop := A.ia.getD (i + 1) 0
      let offs := (List.range (stop - 1 - start)).map
        (fun t => (A.ja.getD (start + t) 0, A.a.getD (start + t) 0))
      let v1 := offs.foldl
        (fun w e => if eps ≤ |e.2| then pushAt (pushAt w i e) e.1 (i, e.2) else w) v
      pushAt v1 i (i, A.a.getD (stop - 1) 0))
    (List.replicate A.n [])

/-- CSR rebuild over the claim-worded expansion. -/
def expandClaim (eps : ℚ) (A : MatCSR) : MatCSR :=
  let rows := (expandRowsClaim eps A).map sortRow
  { n := A.n, m := A.m, sym := false,
    ia := rows.foldl (fun acc r => acc ++ [((acc.getLast?).getD 0) + r.length]) [0],
    ja := (rows.map (fun r => r.map Prod.fst)).flatten,
    a := (rows.map (fun r => r.map Prod.snd)).flatten }

/-- State of a `SuiteSparseSub` object: `c` embeds the CHOLMOD common/factor
handle `_c` (recording the matrix it factorized), `W` the UMFPACK workspace
`_W` together with its numeric factorization (recording the matrix handed to
`umfpack_numeric`).  `none` embeds a null pointer. -/
structure SubState where
  c : Option MatCSR
  W : Option MatCSR
deriving DecidableEq

/-- A fresh `SuiteSparseSub()` (both members value-initialized to null). -/
def freshSub : SubState := { c := none, W := none }

/-- `SuiteSparseSub::numfact` (SuiteSparse.hpp:289-388): a no-op unless both
`_c` and `_W` are null; CHOLMOD exactly when the matrix is flagged symmetric
and the scalar type is real `double`; otherwise UMFPACK on the matrix,
expanded to full storage first when it is in symmetric storage. -/
def numfact (real : Bool) (st : SubState) (A : MatCSR) : SubState :=
  if st.c = none ∧ st.W = none then
    if A.sym ∧ real then { c := some A, W := none }
    else { c := none, W := some (if A.sym then expand HPDDM_EPS A else A) }
  else st

/-- `SuiteSparseSub::solve` (SuiteSparse.hpp:389-404): dispatch on `_c` to
the backend chosen by `numfact`; the backends (`cholmod_solve2` and
`umfpack_wsolve`) are external collaborators and are parameters. -/
def solveSub (cholK umfK : MatCSR → Vec → Vec) (st : SubState) (x : Vec) : Vec :=
  match st.c with
  | some F => cholK F x
  | none => umfK ((st.W).getD emptyCSR) x

/-! ## Concrete sample data used by witnesses and counterexamples -/

/-- The residual quantity `resRel^2` one PCG body pass measures
(CG.hpp:371-372), recomputed from the same state data `pcgBody` consumes. -/
def pcgRelSq (op : PCGOp) (excluded : Bool) (st : PCGState) : ℚ :=
  if excluded then
    let zLast := (st.zs.getLast?).getD []
    dotQ zLast zLast
  else
    let zLast := (st.zs.getLast?).getD []
    let pC0 := op.projN zLast
    let hist := st.zs.dropLast
    let dots := hist.map (fun zk => dotQ zk pC0)
    let pC := (zipWith3 (fun dk ak pk => (dk, ak, pk)) dots st.aHist
        (st.ps.dropLast)).foldl
      (fun acc t => axpyQ (-(t.1 / t.2.1)) t.2.2 acc) pC0
    let zF := op.F pC
    let scratch := hadamard op.scal pC
    let aNew := dotQ zF scratch
    let aCur := dotQ st.r scratch
    let astep := aCur / aNew
    let zN := op.M (op.projT (axpyQ (-astep) zF st.r))
    dotQ zN zN

/-- The squared initial residual norm `resInit^2` of CG.hpp:315-317. -/
def pcgResInitSq (op : PCGOp) (excluded : Bool) (r0 : Vec) : ℚ :=
  let z0 := if excluded then [] else op.M r0
  dotQ z0 z0

/-- A baseline configuration: no bypass, `it = 3`, `tol = 1`. -/
def oPlain : Opts where
  schwarzMethod := none
  schwarzCoarse := none
  tol := 1
  it := 3
  verbosity := 0
  variantGS := 0
  variant := 0
  enlarge := 1

/-- A configuration whose `schwarz_method` value forces the GMRES bypass. -/
def oBypass : Opts := { oPlain with schwarzMethod := some 0 }

/-- A placeholder GMRES implementation (GMRES is declared, not defined, in
the sources here): it only marks its output. -/
def gmresStub : GmresK := fun b x => { count := 42, x := x, r := b }

/-- Dense kernels that always report failure. -/
def kNone : DenseK where
  ppsv := fun _ _ => none
  posv := fun _ _ => none
  qr := fun _ _ => none

/-- Dense kernels whose QR reports a nonzero `info` exactly on a
rank-deficient (all-zero) direction block. -/
def kDetect : DenseK where
  ppsv := fun _ b => some b
  posv := fun _ b => some b
  qr := fun _ p => if isZeroC p then none else some (p, [[1]])

/-- Identity-operator PCG callbacks on one unknown. -/
def idOp : PCGOp where
  projN := id
  projT := id
  F := id
  M := id
  scal := [1]
  sol := fun _ x => x

/-- A 2×2 matrix in symmetric storage whose single off-diagonal entry has
magnitude exactly `HPDDM_EPS` (row 0: the off-diagonal then the diagonal
last, as `numfact` assumes). -/
def sampleSym : MatCSR where
  n := 2
  m := 2
  sym := true
  ia := [0, 2, 3]
  ja := [1, 0]
  a := [1 / 1000000000000, 4, 3]

/-- All-zero Arnoldi state. -/
def stArn : ArnSt where
  H := fun _ _ => 0
  v := fun _ _ => 0
  s := fun _ => 0
  sn := fun _ => 0

/-- All-zero Block-Arnoldi state. -/
def stBArn : BArnSt where
  H := fun _ _ => 0
  tau := fun _ => 0
  s := fun _ => 0
  v := fun _ _ => 0

/-- Trivial dense kernels for a Block-Arnoldi step. -/
def kBlock : BlockK where
  potrf := fun B => B
  geqrfB := fun B => B
  geqrfT := fun _ _ => 0
  mqr := fun _ _ C => C
  trsmR := fun _ v => v

/-- The returned count of a completed BCG loop outcome (0 on a fallback). -/
def bresCount : BRes → ℕ
  | .out c _ _ => c
  | .fb _ _ => 0

/-- The ghost body-execution count of a completed BCG loop outcome. -/
def bresSteps : BRes → ℕ
  | .out _ st _ => st.steps
  | .fb _ _ => 0

/-- Whether the BCG loop completed (rather than demanding the CG fallback). -/
def isOut : BRes → Bool
  | .out _ _ _ => true
  | .fb _ _ => false

/-! ## IEEE special values (refinement for the zero right-hand-side analysis)

The embedding above idealizes `double` as an exact rational with totalized
division.  The zero right-hand-side behaviour of the solvers turns on the
one point where that idealization is unsound: IEEE-754 evaluates `0.0/0.0`
(and the other invalid operations) to NaN, NaN propagates through every
arithmetic operation, and every ordered comparison with a NaN operand is
false.  `FD` refines the scalar model with exactly these special values:
the finite arithmetic stays the exact-rational idealization used throughout
this development, extended with NaN and the two infinities following the
IEEE-754 rules (signed zeros are not tracked: a zero result is the single
zero, and a division of a nonzero finite by zero takes its sign from the
dividend).  The solver embeddings below (`cgBodyF`, `bcgBodyF`, `pcgBodyF`,
…) are the same line-by-line transcriptions of CG.hpp as their rational
counterparts above, over `FD` iteration state; the operator data (`A`, `M`,
`d`, the scaling vector) stay rational, as the §6 operator contract supplies
ordinary finite values. -/

/-- An IEEE-754 scalar: a finite value (idealized as an exact rational), an
infinity, or NaN. -/
inductive FD where
  | fin (q : ℚ)
  | pinf
  | ninf
  | nan
deriving DecidableEq

/-- IEEE addition: finite values add exactly; opposite infinities and NaN
operands give NaN. -/
def fadd : FD → FD → FD
  | .fin a, .fin b => .fin (a + b)
  | .fin _, .pinf => .pinf
  | .pinf, .fin _ => .pinf
  | .fin _, .ninf => .ninf
  | .ninf, .fin _ => .ninf
  | .pinf, .pinf => .pinf
  | .ninf, .ninf => .ninf
  | _, _ => .nan

/-- IEEE negation. -/
def fneg : FD → FD
  | .fin a => .fin (-a)
  | .pinf => .ninf
  | .ninf => .pinf
  | .nan => .nan

/-- IEEE subtraction. -/
def fsub (a b : FD) : FD := fadd a (fneg b)

/-- IEEE multiplication: `0 * ±∞` and NaN operands give NaN. -/
def fmul : FD → FD → FD
  | .fin a, .fin b => .fin (a * b)
  | .fin a, .pinf => if a = 0 then .nan else if 0 < a then .pinf else .ninf
  | .pinf, .fin a => if a = 0 then .nan else if 0 < a then .pinf else .ninf
  | .fin a, .ninf => if a = 0 then .nan else if 0 < a then .ninf else .pinf
  | .ninf, .fin a => if a = 0 then .nan else if 0 < a then .ninf else .pinf
  | .pinf, .pinf => .pinf
  | .ninf, .ninf => .pinf
  | .pinf, .ninf => .ninf
  | .ninf, .pinf => .ninf
  | _, _ => .nan

/-- IEEE division: `0/0`, `±∞/±∞` and NaN operands give NaN; a nonzero
finite over zero gives an infinity signed by the dividend (signed zeros are
not tracked); a finite over an infinity gives zero. -/
def fdiv : FD → FD → FD
  | .fin a, .fin b =>
    if b = 0 then (if a = 0 then .nan else if 0 < a then .pinf else .ninf)
    else .fin (a / b)
  | .fin _, .pinf => .fin 0
  | .fin _, .ninf => .fin 0
  | .pinf, .fin b => if 0 ≤ b then .pinf else .ninf
  | .ninf, .fin b => if 0 ≤ b then .ninf else .pinf
  | _, _ => .nan

/-- IEEE ordered comparison `<=`: false whenever an operand is NaN. -/
def fle : FD → FD → Bool
  | .nan, _ => false
  | _, .nan => false
  | .fin a, .fin b => decide (a ≤ b)
  | _, .pinf => true
  | .ninf, _ => true
  | .pinf, _ => false
  | .fin _, .ninf => false

/-- `FD` vector. -/
abbrev VecF : Type := List FD

/-- `FD` block of `mu` columns. -/
abbrev ColsF : Type := List VecF

/-- Sum of a list of scalars, accumulated from `0.0` as the BLAS loops do. -/
def sumF (l : List FD) : FD := l.foldl fadd (.fin 0)

/-- Dot product over `FD`. -/
def dotF (a b : VecF) : FD := sumF (List.zipWith fmul a b)

/-- The axpy kernel over `FD`. -/
def axpyF (a : FD) (xs ys : VecF) : VecF :=
  List.zipWith (fun u w => fadd (fmul a u) w) xs ys

/-- The axpby kernel over `FD`. -/
def axpbyF (a : FD) (xs : VecF) (b : FD) (ys : VecF) : VecF :=
  List.zipWith (fun u w => fadd (fmul a u) (fmul b w)) xs ys

/-- Pointwise difference over `FD`. -/
def vsubF (a b : VecF) : VecF := List.zipWith fsub a b

/-- Operator application with rational operator rows on an `FD` vector. -/
def matVecF (A : Mat) (v : VecF) : VecF :=
  A.map (fun row => dotF (row.map FD.fin) v)

/-- Columnwise operator application over `FD`. -/
def opColsF (A : Mat) (P : ColsF) : ColsF := P.map (matVecF A)

/-- Diagonal scaling of an `FD` vector by the rational weighting `d`. -/
def hadamardF (d : Vec) (v : VecF) : VecF :=
  List.zipWith (fun u w => fmul (FD.fin u) w) d v

/-- Columnwise diagonal scaling over `FD`. -/
def diagColsF (d : Vec) (P : ColsF) : ColsF := P.map (hadamardF d)

/-- Columnwise difference over `FD`. -/
def colsSubF (P Q : ColsF) : ColsF := List.zipWith vsubF P Q

/-- Columnwise dot products over `FD`. -/
def colsDotF (P Q : ColsF) : VecF := List.zipWith dotF P Q

/-- Columnwise axpy with one `FD` scalar per column. -/
def colsAxpyF (c : VecF) (P Q : ColsF) : ColsF := zipWith3 axpyF c P Q

/-- The empty local block of an excluded rank, over `FD`. -/
def emptyColsF (mu : ℕ) : ColsF := List.replicate mu []

/-- Result surface of one solver invocation over `FD`. -/
structure KOutF where
  count : ℕ
  x : ColsF
  r : ColsF
deriving DecidableEq

/-- Modelled from the spec: the GMRES entry point over `FD`, a parameter. -/
abbrev GmresKF : Type := ColsF → ColsF → KOutF

/-- CG iteration state over `FD` (same layout as `CGState`). -/
structure CGStateF where
  x : ColsF
  r : ColsF
  p : ColsF
  z : ColsF
  trash : ColsF
  resSq : VecF
  histP : List ColsF
  histZ : List ColsF
  histDen : List VecF
  conv : List (Option ℕ)
  i : ℕ
  steps : ℕ
deriving DecidableEq

/-- Modelled from the spec: `checkConvergence<2>` over `FD`, embedded on
squared norms as `markConverged` is; on finite nonnegative data the squared
comparison agrees with the source's square-root comparison, and a NaN stays
NaN through `std::sqrt`, so both comparisons are false. -/
def markConvergedF (tol : ℚ) (i : ℕ) (conv : List (Option ℕ))
    (curSq initSq : VecF) : List (Option ℕ) :=
  zipWith3
    (fun c cur ini =>
      match c with
      | some k => some k
      | none => if fle cur (fmul (.fin (tol ^ 2)) ini) then some i else none)
    conv curSq initSq

/-- Initial CG state (CG.hpp:42-66) over `FD`. -/
def cgInitF (A M : Mat) (d : Vec) (b x : ColsF) : CGStateF :=
  let z := opColsF A x
  let r := colsSubF b z
  let p := opColsF M r
  let trash := diagColsF d p
  let resSq := colsDotF trash p
  { x := x, r := r, p := p, z := z, trash := trash, resSq := resSq,
    histP := [], histZ := [], histDen := [],
    conv := List.replicate p.length none, i := 0, steps := 0 }

/-- One execution of the CG loop body (CG.hpp:69-136) over `FD`. -/
def cgBodyF (o : Opts) (A M : Mat) (d : Vec) (st : CGStateF) :
    CGStateF × Bool :=
  let num := colsDotF st.r st.trash
  let p1 :=
    if o.variantGS = 2 ∧ 0 < st.i then
      let coefs := List.zipWith
        (fun Hz den => zipWith3 (fun t hz dv => fdiv (fneg (dotF t hz)) dv)
          st.trash Hz den)
        st.histZ st.histDen
      (List.zipWith (fun c Hp => (c, Hp)) coefs st.histP).foldl
        (fun acc ch => colsAxpyF ch.1 ch.2 acc) st.z
    else st.p
  let z1 := opColsF A p1
  let (p2, z2) :=
    if 0 < st.i then
      let trash1 := diagColsF d z1
      let coefs := List.zipWith
        (fun Hp den => zipWith3 (fun t hp dv => fdiv (fneg (dotF t hp)) dv)
          trash1 Hp den)
        st.histP st.histDen
      let p' := (List.zipWith (fun c Hp => (c, Hp)) coefs st.histP).foldl
        (fun acc ch => colsAxpyF ch.1 ch.2 acc) p1
      (p', opColsF A p')
    else (p1, z1)
  let trash2 := diagColsF d p2
  let den := colsDotF z2 trash2
  let i1 := st.i + 1
  let histDen1 := st.histDen ++ [den]
  let histP1 := st.histP ++ [p2]
  let histZ1 := if o.variantGS = 2 then st.histZ ++ [z2] else st.histZ
  let alphas := List.zipWith fdiv num den
  let x1 := zipWith4 (fun c a pc xc => if c = none then axpyF a pc xc else xc)
    st.conv alphas p2 st.x
  let r1 := zipWith4
    (fun c a zc rc => if c = none then axpyF (fneg a) zc rc else rc)
    st.conv alphas z2 st.r
  let z3 := opColsF M r1
  let trash3 := diagColsF d z3
  let betas := zipWith3 (fun rc tc nu => fdiv (dotF rc tc) nu) r1 trash3 num
  let normSq := colsDotF z3 trash3
  let p3 :=
    if o.variantGS ≠ 2 then
      zipWith3 (fun zc bc pc => axpbyF (.fin 1) zc bc pc) z3 betas p2
    else p2
  let conv1 := markConvergedF o.tol i1 st.conv normSq st.resSq
  let brk := conv1.all (fun c => c.isSome)
  ({ st with x := x1, r := r1, p := p3, z := z3, trash := trash3,
             histP := histP1, histZ := histZ1, histDen := histDen1,
             conv := conv1, i := if brk then i1 - 1 else i1,
             steps := st.steps + 1 }, brk)

/-- The `while(i < it)` loop of CG.hpp:69-137 over `FD`, by fuel. -/
def cgLoopF (o : Opts) (A M : Mat) (d : Vec) : ℕ → CGStateF → CGStateF × Bool
  | 0, st => (st, false)
  | fuel + 1, st =>
    let (st', brk) := cgBodyF o A M d st
    if brk then (st', true) else cgLoopF o A M d fuel st'

/-- The CG iteration proper over `FD` on the localized data. -/
def cgRunF (o : Opts) (A M : Mat) (d : Vec) (b x : ColsF) : CGStateF × Bool :=
  cgLoopF o A M d o.it (cgInitF A M d b x)

/-- `IterativeMethod::CG` (CG.hpp:31-145) over `FD`. -/
def CGF (o : Opts) (A M : Mat) (d : Vec) (excluded : Bool) (gmres : GmresKF)
    (mu : ℕ) (b x : ColsF) : KOutF :=
  if bypassToGMRES o then gmres b x
  else
    let Al := if excluded then [] else A
    let Ml := if excluded then [] else M
    let dl := if excluded then [] else d
    let bl := if excluded then emptyColsF mu else b
    let xl := if excluded then emptyColsF mu else x
    let (st, _) := cgRunF o Al Ml dl bl xl
    { count := min st.i o.it, x := st.x, r := st.r }

/-- Dense `mu × mu` matrix over `FD`, column-major. -/
abbrev SqMatF : Type := List VecF

/-- Column `j` of a small dense `FD` matrix. -/
def sqColF (M : SqMatF) (j : ℕ) : VecF := M.getD j []

/-- Entry `(i, j)` of a small dense `FD` matrix (`0.0` outside the data). -/
def sqGetF (M : SqMatF) (i j : ℕ) : FD := (sqColF M j).getD i (.fin 0)

/-- The zero `mu × mu` matrix over `FD`. -/
def zeroSqF (mu : ℕ) : SqMatF :=
  List.replicate mu (List.replicate mu (FD.fin 0))

/-- Block Gram matrix over `FD` (CG.hpp:179, 216, 237). -/
def gramTF (P Q : ColsF) : SqMatF :=
  Q.map (fun qj => P.map (fun pi => dotF pi qj))

/-- Mirror the upper triangle onto the lower, over `FD` (CG.hpp:180-190,
259-263). -/
def symUF (mu : ℕ) (G : SqMatF) : SqMatF :=
  (List.range mu).map (fun j =>
    (List.range mu).map (fun i =>
      if i ≤ j then sqGetF G i j else sqGetF G j i))

/-- Forward substitution for one column of `trsm("L", "U", transc, "N")`
(CG.hpp:212) over `FD`. -/
def trsolveColF (mu : ℕ) (U : SqMatF) (b : VecF) : VecF :=
  (List.range mu).foldl
    (fun ys i =>
      ys ++ [fdiv
        (fsub (b.getD i (.fin 0))
          (sumF ((List.range i).map
            (fun k => fmul (sqGetF U k i) (ys.getD k (.fin 0))))))
        (sqGetF U i i)])
    []

/-- `trsm("L", "U", transc, "N", ...)` over `FD`: columnwise solve. -/
def trsolveUTF (mu : ℕ) (U B : SqMatF) : SqMatF := B.map (trsolveColF mu U)

/-- `trmm("L", "U", "N", "N", ...)` (CG.hpp:273) over `FD`. -/
def triMulUF (mu : ℕ) (U B : SqMatF) : SqMatF :=
  B.map (fun col =>
    (List.range mu).map (fun i =>
      sumF ((List.range mu).map
        (fun k => if i ≤ k then fmul (sqGetF U i k) (col.getD k (.fin 0))
                  else .fin 0))))

/-- `gemm` accumulation per column (CG.hpp:231-232, 275) over `FD`. -/
def colsAddMulF (s : FD) (P : ColsF) (X : SqMatF) (T : ColsF) : ColsF :=
  List.zipWith (fun xcol tcol =>
    (P.zip xcol).foldl (fun acc pc => axpyF (fmul s pc.2) pc.1 acc) tcol) X T

/-- The dense factorization kernels over `FD` (external trusted library;
`none` embeds a nonzero `info`). -/
structure DenseKF where
  ppsv : SqMatF → SqMatF → Option SqMatF
  posv : SqMatF → SqMatF → Option SqMatF
  qr : Vec → ColsF → Option (ColsF × SqMatF)

/-- State of the BCG outer iteration over `FD`. -/
structure BCGStateF where
  x : ColsF
  r : ColsF
  p : ColsF
  z : ColsF
  rho : SqMatF
  rho2 : SqMatF
  gamma : SqMatF
  normSq : VecF
  i : ℕ
  steps : ℕ
deriving DecidableEq

/-- Modelled from the spec: `checkBlockConvergence<3>` over `FD`; a NaN
residual quantity fails the comparison. -/
def checkBlockCountF (tol : ℚ) (normSq vals : VecF) : ℕ :=
  (List.zipWith (fun v nsq => fle v (fmul (.fin (tol ^ 2)) nsq)) vals
    normSq).count true

/-- The squared-norm data of CG.hpp:198-207 over `FD`. -/
def bcgNormSqF (mu m1 : ℕ) (gamma : SqMatF) : VecF :=
  if m1 ≤ 1 then
    (List.range mu).map (fun nu =>
      sumF ((List.range (nu + 1)).map
        (fun k => fmul (sqGetF gamma k nu) (sqGetF gamma k nu))))
  else
    let comb := (List.range m1).map (fun k =>
      sumF ((List.range m1).map
        (fun nu => if k ≤ nu then sqGetF gamma k nu else .fin 0)))
    [sumF (comb.map (fun q => fmul q q))]

/-- The convergence quantities of CG.hpp:240-253 over `FD`. -/
def bcgValsF (m1 : ℕ) (z trash : ColsF) : VecF :=
  if m1 ≤ 1 then colsDotF z trash
  else
    let tsum := ((trash.take m1).tail).foldl
      (fun acc c => axpyF (.fin 1) c acc) (trash.headD [])
    let zsum := ((z.take m1).tail).foldl
      (fun acc c => axpyF (.fin 1) c acc) (z.headD [])
    [dotF tsum zsum]

/-- Result of one pass through the BCG loop body over `FD`. -/
inductive BStepF where
  | fail (x r : ColsF)
  | conv (st : BCGStateF)
  | next (st : BCGStateF)
deriving DecidableEq

/-- Outcome of the BCG loop over `FD`. -/
inductive BResF where
  | out (count : ℕ) (st : BCGStateF) (conv : Bool)
  | fb (x r : ColsF)
deriving DecidableEq

/-- One pass through the `while(i <= m[0])` body of CG.hpp:209-285 over
`FD`. -/
def bcgBodyF (k : DenseKF) (o : Opts) (A M : Mat) (d : Vec) (excluded : Bool)
    (mu : ℕ) (st : BCGStateF) : BStepF :=
  let z1 := if excluded then st.z else opColsF A st.p
  let rho2a := if excluded then st.rho2 else trsolveUTF mu st.gamma st.rho2
  let trash1 := diagColsF d z1
  let rhs := if excluded then zeroSqF mu else symUF mu (gramTF st.p trash1)
  match k.ppsv rhs rho2a with
  | none => .fail st.x st.r
  | some sol =>
    let x1 := if excluded then st.x else colsAddMulF (.fin 1) st.p sol st.x
    let r1 := if excluded then st.r else colsAddMulF (.fin (-1)) z1 sol st.r
    let z2 := opColsF M r1
    let trash2 := diagColsF d z2
    let rhs2 := if excluded then zeroSqF mu else symUF mu (gramTF r1 trash2)
    let vals := if excluded then
        List.replicate (mu / max o.enlarge 1) (FD.fin 0)
      else bcgValsF (max o.enlarge 1) z2 trash2
    let st1 : BCGStateF :=
      { st with x := x1, r := r1, z := z2, rho2 := rho2a,
                steps := st.steps + 1 }
    if mu = checkBlockCountF o.tol st.normSq vals then .conv st1
    else
      let i1 := st.i + 1
      let rho2b := rhs2
      match k.posv st.rho rhs2 with
      | none => .fail x1 r1
      | some Y =>
        let Y2 := triMulUF mu st.gamma Y
        let p1 := if excluded then st.p else colsAddMulF (.fin 1) st.p Y2 st.p
        match k.qr d p1 with
        | none => .fail x1 r1
        | some pg =>
          .next { st1 with p := pg.1, gamma := pg.2, rho := rho2b,
                           rho2 := rho2b, i := i1 }

/-- The BCG loop over `FD`, by fuel. -/
def bcgLoopF (k : DenseKF) (o : Opts) (A M : Mat) (d : Vec) (excluded : Bool)
    (mu : ℕ) : ℕ → BCGStateF → BResF
  | 0, st => .out (min st.i o.it) st false
  | fuel + 1, st =>
    match bcgBodyF k o A M d excluded mu st with
    | .fail x r => .fb x r
    | .conv st' => .out (min st'.i o.it) st' true
    | .next st' => bcgLoopF k o A M d excluded mu fuel st'

/-- Setup and loop of BCG (CG.hpp:161-285) over `FD`. -/
def bcgCoreF (k : DenseKF) (o : Opts) (A M : Mat) (d : Vec) (excluded : Bool)
    (mu : ℕ) (b x : ColsF) : BResF :=
  let Al := if excluded then [] else A
  let Ml := if excluded then [] else M
  let dl := if excluded then [] else d
  let bl := if excluded then emptyColsF mu else b
  let xl := if excluded then emptyColsF mu else x
  let z := opColsF Al xl
  let r := colsSubF bl z
  let p := opColsF Ml r
  let trash := diagColsF dl p
  let rho := if excluded then zeroSqF mu else symUF mu (gramTF r trash)
  match k.qr dl p with
  | none => .fb xl r
  | some pg =>
    bcgLoopF k o Al Ml dl excluded mu o.it
      { x := xl, r := r, p := pg.1, z := z, rho := rho, rho2 := rho,
        gamma := pg.2, normSq := bcgNormSqF mu (max o.enlarge 1) pg.2,
        i := 1, steps := 0 }

/-- `IterativeMethod::BCG` (CG.hpp:147-291) over `FD`. -/
def BCGF (k : DenseKF) (o : Opts) (A M : Mat) (d : Vec) (excluded : Bool)
    (gmres : GmresKF) (mu : ℕ) (b x : ColsF) : KOutF :=
  if bypassToGMRES o then gmres b x
  else if o.variant = 2 then CGF o A M d excluded gmres mu b x
  else
    match bcgCoreF k o A M d excluded mu b x with
    | .fb xc _ => CGF o A M d excluded gmres mu b xc
    | .out c st _ => { count := c, x := st.x, r := st.r }

/-- Operator callbacks consumed by PCG over `FD` (§6 operator contract);
the scaling vector stays rational operator data. -/
structure PCGOpF where
  projN : VecF → VecF
  projT : VecF → VecF
  F : VecF → VecF
  M : VecF → VecF
  scal : Vec
  sol : VecF → VecF → VecF

/-- State of the PCG iteration over `FD` (same layout as `PCGState`). -/
structure PCGStateF where
  x : VecF
  r : VecF
  zs : List VecF
  ps : List VecF
  aHist : List FD
  resLog : List FD
  log : List (ℕ × FD × FD × ℚ)
  i : ℕ
  steps : ℕ
deriving DecidableEq

/-- One pass through the `while(i <= it)` body of CG.hpp:328-384 over `FD`;
the residual test of CG.hpp:375 is embedded on squared norms, and a NaN
ratio fails it. -/
def pcgBodyF (op : PCGOpF) (tol : ℚ) (verbosity : ℤ) (resInitSq : FD)
    (excluded : Bool) (st : PCGStateF) : PCGStateF × Bool :=
  let zLast := (st.zs.getLast?).getD []
  let pC0 := op.projN zLast
  let br :=
    if excluded then
      ({ st with r := op.projT st.r, ps := st.ps.dropLast ++ [pC0] }, zLast)
    else
      let hist := st.zs.dropLast
      let dots := hist.map (fun zk => dotF zk pC0)
      let pC := (zipWith3 (fun dk ak pk => (dk, ak, pk)) dots st.aHist
          (st.ps.dropLast)).foldl
        (fun acc t => axpyF (fneg (fdiv t.1 t.2.1)) t.2.2 acc) pC0
      let zF := op.F pC
      let scratch := hadamardF op.scal pC
      let aNew := dotF zF scratch
      let aCur := dotF st.r scratch
      let astep := fdiv aCur aNew
      let x1 := axpyF astep pC st.x
      let r1 := op.projT (axpyF (fneg astep) zF st.r)
      let zN := op.M r1
      ({ st with x := x1, r := r1,
                 zs := st.zs.dropLast ++ [zF, zN],
                 ps := st.ps.dropLast ++ [pC],
                 aHist := st.aHist ++ [aNew] }, zN)
  let st1 := br.1
  let relSq := dotF br.2 br.2
  let log1 := st1.log ++
    (if 2 < verbosity then [(st.i, relSq, resInitSq, tol)] else [])
  let resLog1 := st1.resLog ++ [relSq]
  if fle (fdiv relSq resInitSq) (.fin (tol ^ 2)) then
    ({ st1 with log := log1, resLog := resLog1, steps := st.steps + 1 }, true)
  else
    let i1 := st.i + 1
    let st2 :=
      if excluded then st1
      else
        { st1 with ps := st1.ps ++ [[]],
                   zs := st1.zs.set (i1 - 2)
                     (hadamardF op.scal (st1.zs.getD (i1 - 2) [])) }
    ({ st2 with log := log1, resLog := resLog1, i := i1,
                steps := st.steps + 1 }, false)

/-- The PCG loop over `FD`, by fuel. -/
def pcgLoopF (op : PCGOpF) (tol : ℚ) (verbosity : ℤ) (resInitSq : FD)
    (excluded : Bool) : ℕ → PCGStateF → PCGStateF
  | 0, st => st
  | fuel + 1, st =>
    let (st', brk) := pcgBodyF op tol verbosity resInitSq excluded st
    if brk then st' else pcgLoopF op tol verbosity resInitSq excluded fuel st'

/-- Setup and loop of `IterativeMethod::PCG` (CG.hpp:293-384) over `FD`. -/
def pcgRunF (op : PCGOpF) (o : Opts) (excluded : Bool) (r0 x0 : VecF) :
    PCGStateF :=
  let z0 := if excluded then [] else op.M r0
  let resInitSq := dotF z0 z0
  pcgLoopF op o.tol o.verbosity resInitSq excluded o.it
    { x := x0, r := r0, zs := [z0], ps := [[]], aHist := [], resLog := [],
      log := [], i := 1, steps := 0 }

/-- Result surface of PCG over `FD`. -/
structure PCGResF where
  count : ℕ
  x : VecF
  r : VecF
  resLog : List FD
  aHist : List FD
  log : List (ℕ × FD × FD × ℚ)
deriving DecidableEq

/-- `IterativeMethod::PCG` (CG.hpp:293-398) over `FD`. -/
def PCGF (op : PCGOpF) (o : Opts) (excluded : Bool) (f r0 x0 : VecF) :
    PCGResF :=
  let st := pcgRunF op o excluded r0 x0
  { count := min st.i o.it, x := op.sol f st.x, r := st.r,
    resLog := st.resLog, aHist := st.aHist, log := st.log }

/-- Every entry is the finite zero and the vector is nonempty: the image of
an all-zero double array of positive length. -/
def allZ (v : VecF) : Prop := v ≠ [] ∧ ∀ q ∈ v, q = FD.fin 0

/-- Every column is nonempty and all-zero. -/
def allZC (P : ColsF) : Prop := P ≠ [] ∧ ∀ v ∈ P, allZ v

/-- Every entry is NaN and the vector is nonempty. -/
def allNan (v : VecF) : Prop := v ≠ [] ∧ ∀ q ∈ v, q = FD.nan

/-- Every column is nonempty and all-NaN. -/
def allNanC (P : ColsF) : Prop := P ≠ [] ∧ ∀ v ∈ P, allNan v

/-- A nonempty block of nonempty columns. -/
def neColsF (P : ColsF) : Prop := P ≠ [] ∧ ∀ v ∈ P, v ≠ []

instance (v : VecF) : Decidable (allZ v) := by unfold allZ; infer_instance

instance (P : ColsF) : Decidable (allZC P) := by
  unfold allZC allZ; infer_instance

instance (v : VecF) : Decidable (allNan v) := by unfold allNan; infer_instance

instance (P : ColsF) : Decidable (allNanC P) := by
  unfold allNanC allNan; infer_instance

instance (P : ColsF) : Decidable (neColsF P) := by
  unfold neColsF; infer_instance

/-- Dense kernels over `FD` that always report failure. -/
def kNoneF : DenseKF where
  ppsv := fun _ _ => none
  posv := fun _ _ => none
  qr := fun _ _ => none

/-- A GMRES stub over `FD`. -/
def gmresStubF : GmresKF := fun b x => { count := 42, x := x, r := b }

/-- Identity-operator PCG callbacks over `FD` on one unknown. -/
def idOpF : PCGOpF where
  projN := id
  projT := id
  F := id
  M := id
  scal := [1]
  sol := fun _ x => x

/-- The NaN-poisoned CG loop invariant: solution and residual blocks are
all-NaN, every other block is shaped (nonempty columns), the per-column
convergence flags are all unset, and the history slices hold shaped blocks. -/
def cgNanInv (st : CGStateF) : Prop :=
  allNanC st.x ∧ allNanC st.r ∧ neColsF st.p ∧ neColsF st.z ∧
  neColsF st.trash ∧ st.resSq ≠ [] ∧ st.conv ≠ [] ∧
  (∀ c ∈ st.conv, c = none) ∧ (∀ P ∈ st.histP, neColsF P) ∧
  (∀ P ∈ st.histZ, neColsF P) ∧ (∀ w ∈ st.histDen, w ≠ [])

/-- The NaN-poisoned PCG loop invariant: solution, residual and the current
preconditioned residual are all-NaN, the stored directions are nonempty, and
the `z` list is in step with the iteration counter. -/
def pcgNanInv (st : PCGStateF) : Prop :=
  allNan st.x ∧ allNan st.r ∧ st.zs ≠ [] ∧
  allNan ((st.zs.getLast?).getD []) ∧ (∀ p ∈ st.ps.dropLast, p ≠ []) ∧
  st.zs.length = st.i ∧ 1 ≤ st.i

/-! # Helper lemmas -/

theorem dotQ_zero_right {b : Vec} (hb : isZero b) (a : Vec) : dotQ a b = 0 := by
  induction a generalizing b with
  | nil => simp [dotQ]
  | cons q qs ih =>
    cases b with
    | nil => simp [dotQ]
    | cons w ws =>
      have hw : w = 0 := hb w (by simp)
      have hws : isZero ws := fun q hq => hb q (by simp [hq])
      have := ih hws
      simp [dotQ, List.zipWith] at this ⊢
      simp [hw, this]

theorem dotQ_zero_left {a : Vec} (ha : isZero a) (b : Vec) : dotQ a b = 0 := by
  induction a generalizing b with
  | nil => simp [dotQ]
  | cons q qs ih =>
    cases b with
    | nil => simp [dotQ]
    | cons w ws =>
      have hq : q = 0 := ha q (by simp)
      have hqs : isZero qs := fun u hu => ha u (by simp [hu])
      have := ih hqs ws
      simp [dotQ, List.zipWith] at this ⊢
      simp [hq, this]

theorem dotQ_nil_left (b : Vec) : dotQ [] b = 0 := rfl

theorem dotQ_nil_right (a : Vec) : dotQ a [] = 0 := by cases a <;> rfl

theorem isZero_nil : isZero [] := by intro q hq; cases hq

theorem isZero_zipWith {f : ℚ → ℚ → ℚ} {a b : Vec}
    (h : ∀ u ∈ a, ∀ w ∈ b, f u w = 0) : isZero (List.zipWith f a b) := by
  intro q hq
  induction a generalizing b with
  | nil => cases hq
  | cons u us ih =>
    cases b with
    | nil => cases hq
    | cons w ws =>
      simp [List.zipWith] at hq
      rcases hq with hq | hq
      · exact hq ▸ h u (by simp) w (by simp)
      · exact ih (fun u' hu' w' hw' => h u' (by simp [hu']) w' (by simp [hw'])) hq

theorem isZero_axpyQ {a : ℚ} {xs ys : Vec} (hx : isZero xs) (hy : isZero ys) :
    isZero (axpyQ a xs ys) := by
  apply isZero_zipWith
  intro u hu w hw
  rw [hx u hu, hy w hw]; ring

theorem isZero_axpyQ_right {a : ℚ} (xs : Vec) {ys : Vec} (hx : isZero xs)
    (hy : isZero ys) : isZero (axpyQ a xs ys) := isZero_axpyQ hx hy

theorem isZero_hadamard {d v : Vec} (hv : isZero v) : isZero (hadamard d v) := by
  apply isZero_zipWith
  intro u _ w hw
  rw [hv w hw]; ring

theorem isZero_vsub {a b : Vec} (ha : isZero a) (hb : isZero b) :
    isZero (vsub a b) := by
  apply isZero_zipWith
  intro u hu w hw
  rw [ha u hu, hb w hw]; ring

theorem isZero_matVec {A : Mat} {v : Vec} (hv : isZero v) : isZero (matVec A v) := by
  intro q hq
  simp [matVec] at hq
  obtain ⟨row, _, hrow⟩ := hq
  rw [← hrow]; exact dotQ_zero_right hv row

theorem isZeroC_opCols {A : Mat} {P : Cols} (hP : isZeroC P) :
    isZeroC (opCols A P) := by
  intro v hv
  simp [opCols] at hv
  obtain ⟨c, hc, hcv⟩ := hv
  exact hcv ▸ isZero_matVec (hP c hc)

theorem isZeroC_diagCols {d : Vec} {P : Cols} (hP : isZeroC P) :
    isZeroC (diagCols d P) := by
  intro v hv
  simp [diagCols] at hv
  obtain ⟨c, hc, hcv⟩ := hv
  exact hcv ▸ isZero_hadamard (hP c hc)

theorem isZeroC_colsSub {P Q : Cols} (hP : isZeroC P) (hQ : isZeroC Q) :
    isZeroC (colsSub P Q) := by
  intro v hv
  induction P generalizing Q with
  | nil => cases hv
  | cons c cs ih =>
    cases Q with
    | nil => cases hv
    | cons w ws =>
      simp [colsSub, List.zipWith] at hv
      rcases hv with hv | hv
      · exact hv ▸ isZero_vsub (hP c (by simp)) (hQ w (by simp))
      · exact ih (fun u hu => hP u (by simp [hu]))
          (fun u hu => hQ u (by simp [hu])) hv

theorem isZeroC_emptyCols (mu : ℕ) : isZeroC (emptyCols mu) := by
  intro v hv
  rw [List.eq_of_mem_replicate hv]
  exact isZero_nil

theorem mem_zipWith3 {f : α → β → γ → δ} {as : List α} {bs : List β}
    {cs : List γ} {q : δ} (hq : q ∈ zipWith3 f as bs cs) :
    ∃ a ∈ as, ∃ b ∈ bs, ∃ c ∈ cs, q = f a b c := by
  induction as generalizing bs cs with
  | nil => cases hq
  | cons a as' ih =>
    cases bs with
    | nil => cases hq
    | cons b bs' =>
      cases cs with
      | nil => cases hq
      | cons c cs' =>
        simp [zipWith3] at hq
        rcases hq with hq | hq
        · exact ⟨a, by simp, b, by simp, c, by simp, hq⟩
        · obtain ⟨a', ha', b', hb', c', hc', h⟩ := ih hq
          exact ⟨a', by simp [ha'], b', by simp [hb'], c', by simp [hc'], h⟩

theorem mem_zipWith4 {f : α → β → γ → δ → ε} {as : List α} {bs : List β}
    {cs : List γ} {ds : List δ} {q : ε} (hq : q ∈ zipWith4 f as bs cs ds) :
    ∃ a ∈ as, ∃ b ∈ bs, ∃ c ∈ cs, ∃ d ∈ ds, q = f a b c d := by
  induction as generalizing bs cs ds with
  | nil => cases hq
  | cons a as' ih =>
    cases bs with
    | nil => cases hq
    | cons b bs' =>
      cases cs with
      | nil => cases hq
      | cons c cs' =>
        cases ds with
        | nil => cases hq
        | cons d ds' =>
          simp [zipWith4] at hq
          rcases hq with hq | hq
          · exact ⟨a, by simp, b, by simp, c, by simp, d, by simp, hq⟩
          · obtain ⟨a', ha', b', hb', c', hc', d', hd', h⟩ := ih hq
            exact ⟨a', by simp [ha'], b', by simp [hb'], c', by simp [hc'],
              d', by simp [hd'], h⟩

theorem mem_zipWithQ {f : α → β → γ} {as : List α} {bs : List β} {q : γ}
    (hq : q ∈ List.zipWith f as bs) : ∃ a ∈ as, ∃ b ∈ bs, q = f a b := by
  induction as generalizing bs with
  | nil => cases hq
  | cons a as' ih =>
    cases bs with
    | nil => cases hq
    | cons b bs' =>
      simp [List.zipWith] at hq
      rcases hq with hq | hq
      · exact ⟨a, by simp, b, by simp, hq⟩
      · obtain ⟨a', ha', b', hb', h⟩ := ih hq
        exact ⟨a', by simp [ha'], b', by simp [hb'], h⟩

theorem isZero_colsDot {P Q : Cols} (hP : isZeroC P) : isZero (colsDot P Q) := by
  unfold colsDot
  intro q hq
  obtain ⟨a, ha, b, _, h⟩ := mem_zipWithQ hq
  exact h ▸ dotQ_zero_left (hP a ha) b

theorem updR_below {lo len : ℕ} {g : ℕ → ℚ} {f : FArr} {j : ℕ} (hj : j < lo) :
    updR lo len g f j = f j := by
  unfold updR
  rw [if_neg]
  omega

theorem upd1_ne {A : ℕ → FArr} {i k : ℕ} {w : FArr} (hk : k ≠ i) :
    upd1 A i w k = A k := by
  unfold upd1
  rw [if_neg hk]

/-! # Claim theorems -/

/-- Claim C2: whenever the configuration lookup finds `schwarz_method` in
{0, 1, 4} or `schwarz_coarse_correction` equal to 0, both CG and BCG perform
no iteration of their own and return exactly the value of
`GMRES<excluded>(A, b, x, mu, comm)`, leaving `x` as GMRES leaves it. -/
theorem cg_bcg_bypass_to_gmres (o : Opts) (k : DenseK) (A M : Mat) (d : Vec)
    (excluded : Bool) (g : GmresK) (mu : ℕ) (b x : Cols)
    (h : bypassToGMRES o = true) :
    CG o A M d excluded g mu b x = g b x ∧
    BCG k o A M d excluded g mu b x = g b x := by
  constructor
  · unfold CG; rw [if_pos h]
  · unfold BCG; rw [if_pos h]

/-- Witness for C2 at a concrete bypassing configuration. -/
theorem cg_bcg_bypass_to_gmres_witness :
    bypassToGMRES oBypass = true ∧
    CG oBypass [[2]] [[1]] [1] false gmresStub 1 [[1]] [[0]] =
      gmresStub [[1]] [[0]] ∧
    BCG kNone oBypass [[2]] [[1]] [1] false gmresStub 1 [[1]] [[0]] =
      gmresStub [[1]] [[0]] := by
  refine ⟨by decide, ?_, ?_⟩
  · exact (cg_bcg_bypass_to_gmres oBypass kNone [[2]] [[1]] [1] false gmresStub 1
      [[1]] [[0]] (by decide)).1
  · exact (cg_bcg_bypass_to_gmres oBypass kNone [[2]] [[1]] [1] false gmresStub 1
      [[1]] [[0]] (by decide)).2

/-- Claim C10: a second call to `SuiteSparseSub::numfact` on an object whose
`_c` or `_W` member is already non-null is a no-op, whatever matrix is
passed: the state is returned unchanged. -/
theorem numfact_idempotent (st : SubState) (A : MatCSR) (real : Bool)
    (h : st.c ≠ none ∨ st.W ≠ none) : numfact real st A = st := by
  unfold numfact
  rw [if_neg]
  tauto

/-- Witness for C10: factor once (CHOLMOD path), then call `numfact` again
with a different matrix and scalar flag; the state is unchanged. -/
theorem numfact_idempotent_witness :
    ((numfact true freshSub sampleSym).c ≠ none ∨
      (numfact true freshSub sampleSym).W ≠ none) ∧
    numfact false (numfact true freshSub sampleSym) emptyCSR =
      numfact true freshSub sampleSym := by
  refine ⟨by decide, numfact_idempotent _ _ _ (by decide)⟩

/-- Counterexample for C8: on a symmetric matrix whose off-diagonal entry has
magnitude exactly `HPDDM_EPS`, the UMFPACK path factors the source's
expansion (which drops that entry, `std::abs(a) > HPDDM_EPS` being false),
not the claim's "drop only below the threshold" expansion. -/
theorem numfact_expand_boundary_cex :
    (numfact false freshSub sampleSym).W ≠
      some (expandClaim HPDDM_EPS sampleSym) ∧
    (numfact false freshSub sampleSym).W = some (expand HPDDM_EPS sampleSym) := by
  constructor
  · with_unfolding_all decide
  · with_unfolding_all decide

/-- Claim C8 (amended): `SuiteSparseSub::numfact` takes the CHOLMOD Cholesky
path exactly when the matrix is flagged symmetric and the scalar type is real
`double`; otherwise it builds the UMFPACK factorization of the matrix, first
expanded to full storage when symmetric-stored — dropping off-diagonal
entries of magnitude at or below `HPDDM_EPS` — and every subsequent `solve`
dispatches to whichever backend was stored, invisibly to the caller. -/
theorem numfact_dispatch (real : Bool) (A : MatCSR) :
    ((numfact real freshSub A).c = if A.sym ∧ real then some A else none) ∧
    ((numfact real freshSub A).W =
      if A.sym ∧ real then none
      else some (if A.sym then expand HPDDM_EPS A else A)) ∧
    (∀ (cholK umfK : MatCSR → Vec → Vec) (x : Vec),
      solveSub cholK umfK (numfact real freshSub A) x =
        if A.sym ∧ real then cholK A x
        else umfK (if A.sym then expand HPDDM_EPS A else A) x) := by
  unfold numfact freshSub solveSub
  by_cases h : A.sym = true ∧ real = true
  · simp [h]
  · simp [h]

theorem pcgBody_strip {op : PCGOp} {tol : ℚ} {v v' : ℤ} {R : ℚ} {e : Bool}
    {st st' : PCGState} (h : pcgStripSt st = pcgStripSt st') :
    (pcgBody op tol v R e st).2 = (pcgBody op tol v' R e st').2 ∧
    pcgStripSt (pcgBody op tol v R e st).1 = pcgStripSt (pcgBody op tol v' R e st').1 := by
  cases st with
  | mk x r zs ps aHist resLog log i steps =>
    cases st' with
    | mk x' r' zs' ps' aHist' resLog' log' i' steps' =>
      simp [pcgStripSt, PCGState.mk.injEq] at h
      obtain ⟨hx, hr, hzs, hps, ha, hres, hi, hsteps⟩ := h
      subst hx; subst hr; subst hzs; subst hps; subst ha; subst hres
      subst hi; subst hsteps
      constructor
      · simp only [pcgBody]
        split_ifs <;> rfl
      · simp only [pcgBody]
        split_ifs <;> simp [pcgStripSt]

theorem pcgLoop_strip {op : PCGOp} {tol : ℚ} {v v' : ℤ} {R : ℚ} {e : Bool} :
    ∀ (fuel : ℕ) {st st' : PCGState}, pcgStripSt st = pcgStripSt st' →
    pcgStripSt (pcgLoop op tol v R e fuel st) =
      pcgStripSt (pcgLoop op tol v' R e fuel st') := by
  intro fuel
  induction fuel with
  | zero => intro st st' h; exact h
  | succ n ih =>
    intro st st' h
    obtain ⟨hb, hs⟩ := @pcgBody_strip op tol v v' R e st st' h
    simp only [pcgLoop]
    rw [hb]
    by_cases hcond : (pcgBody op tol v' R e st').2 = true
    · rw [hcond]; simp only [if_true]; exact hs
    · have : (pcgBody op tol v' R e st').2 = false := by
        cases hb2 : (pcgBody op tol v' R e st').2
        · rfl
        · exact absurd hb2 hcond
      rw [this]; simp only [Bool.false_eq_true, if_false]; exact ih hs

/-- Claim C9: two PCG runs identical except for the configured verbosity
level agree on the returned iteration count, the final solution, the final
residual, and every numerical intermediate (the per-iteration residual norms
and stored denominators); verbosity controls only the diagnostic records. -/
theorem pcg_verbosity_observational (op : PCGOp) (o : Opts) (excluded : Bool)
    (f r0 x0 : Vec) (v1 v2 : ℤ) :
    pcgStrip (PCG op { o with verbosity := v1 } excluded f r0 x0) =
      pcgStrip (PCG op { o with verbosity := v2 } excluded f r0 x0) := by
  have h := @pcgLoop_strip op o.tol v1 v2
    (dotQ (if excluded then [] else op.M r0) (if excluded then [] else op.M r0))
    excluded o.it
    { x := x0, r := r0, zs := [if excluded then [] else op.M r0],
      ps := [[]], aHist := [], resLog := [], log := [], i := 1, steps := 0 }
    { x := x0, r := r0, zs := [if excluded then [] else op.M r0],
      ps := [[]], aHist := [], resLog := [], log := [], i := 1, steps := 0 }
    rfl
  simp only [PCG, pcgRun, pcgStrip]
  have hfields : ∀ {α : Type} (g : PCGState → α), (∀ st, g (pcgStripSt st) = g st) →
      g (pcgLoop op o.tol v1
        (dotQ (if excluded then [] else op.M r0) (if excluded then [] else op.M r0))
        excluded o.it
        { x := x0, r := r0, zs := [if excluded then [] else op.M r0],
          ps := [[]], aHist := [], resLog := [], log := [], i := 1, steps := 0 }) =
      g (pcgLoop op o.tol v2
        (dotQ (if excluded then [] else op.M r0) (if excluded then [] else op.M r0))
        excluded o.it
        { x := x0, r := r0, zs := [if excluded then [] else op.M r0],
          ps := [[]], aHist := [], resLog := [], log := [], i := 1, steps := 0 }) := by
    intro α g hg
    rw [← hg, h, hg]
  simp only [PCGRes.mk.injEq]
  refine ⟨?_, ?_, ?_, ?_, ?_, trivial⟩
  · exact congrArg (fun t => min t _) (hfields (fun st => st.i) (fun st => rfl))
  · exact congrArg (fun t => op.sol f t) (hfields (fun st => st.x) (fun st => rfl))
  · exact hfields (fun st => st.r) (fun st => rfl)
  · exact hfields (fun st => st.resLog) (fun st => rfl)
  · exact hfields (fun st => st.aHist) (fun st => rfl)

theorem foldl_trace_shape {β : Type} (g : β → ℕ → β) (t : β → List Red)
    (sh : ℕ × DType)
    (hg : ∀ b k, (t (g b k)).map redShape = (t b).map redShape ++ [sh]) :
    ∀ (L : List ℕ) (b : β),
      (t (L.foldl g b)).map redShape =
        (t b).map redShape ++ L.map (fun _ => sh) := by
  intro L
  induction L with
  | nil => intro b; simp
  | cons k ks ih =>
    intro b
    simp only [List.foldl_cons, List.map_cons]
    rw [ih (g b k), hg b k, List.append_assoc]
    rfl

theorem hadamard_nil (v : Vec) : hadamard [] v = [] := rfl

theorem mem_diagCols_nil {P : Cols} {t : Vec} (ht : t ∈ diagCols [] P) : t = [] := by
  simp [diagCols] at ht
  obtain ⟨c, _, hc⟩ := ht
  rw [← hc, hadamard_nil]

theorem matVec_nil (v : Vec) : matVec [] v = [] := rfl

theorem opCols_nil (P : Cols) : opCols [] P = List.replicate P.length [] := by
  induction P with
  | nil => rfl
  | cons c cs ih =>
    simp only [opCols, List.map_cons, List.length_cons, List.replicate_succ]
    rw [matVec_nil]
    simp only [List.cons.injEq, true_and]
    exact ih

theorem cgsFold_shape (vv : ℕ → FArr) (mu n : ℕ) :
    ∀ (L : List ℕ) (acc : FArr × FArr × List Red),
      ((cgsFold vv mu n L acc).2.2).map redShape =
        (acc.2.2).map redShape ++ L.map (fun _ => ((mu : ℕ), DType.scalarT)) := by
  intro L
  induction L with
  | nil => intro acc; simp [cgsFold]
  | cons k ks ih =>
    intro acc
    simp only [cgsFold, List.foldl_cons] at ih ⊢
    rw [ih]
    simp [redShape, List.append_assoc]

theorem arnoldiStep_trace_excl (gs : ℕ) (variant : Char) (m i mu n : ℕ)
    (gmv prec : FArr → FArr) (sq : ℚ → ℚ) (st : ArnSt) :
    (arnoldiStep true gs variant m i mu n gmv prec sq st).2 =
      (if gs = 1 then
        (List.range (i + 1)).map (fun _ =>
          { len := mu, dt := DType.scalarT, contrib := List.replicate mu 0 })
      else [{ len := mu * (i + 1), dt := DType.scalarT,
              contrib := List.replicate (mu * (i + 1)) 0 }]) ++
      [{ len := mu, dt := DType.underT, contrib := List.replicate mu 0 }] := rfl

theorem arnoldiStep_shape_nonexcl (gs : ℕ) (variant : Char) (m i mu n : ℕ)
    (gmv prec : FArr → FArr) (sq : ℚ → ℚ) (st : ArnSt) :
    ((arnoldiStep false gs variant m i mu n gmv prec sq st).2).map redShape =
      (if gs = 1 then (List.range (i + 1)).map (fun _ => ((mu : ℕ), DType.scalarT))
       else [((i + 1) * mu, DType.scalarT)]) ++ [((mu : ℕ), DType.underT)] := by
  by_cases hgs : gs = 1
  · simp only [arnoldiStep, hgs, if_true, Bool.false_eq_true, if_false]
    rw [List.map_append, cgsFold_shape]
    simp [redShape]
  · simp only [arnoldiStep, hgs, if_false, Bool.false_eq_true]
    simp [redShape, hgs]

theorem cgBodyTrace_shape (o : Opts) (A M A' M' : Mat) (d d' : Vec) (mu : ℕ)
    (st st' : CGState) (h : st.i = st'.i) :
    (cgBodyTrace o A M d mu st).map redShape =
      (cgBodyTrace o A' M' d' mu st').map redShape := by
  by_cases hv : o.variantGS = 2 <;> by_cases hi : 0 < st.i <;>
    simp [cgBodyTrace, redShape, h, hv, hi, h ▸ hi]

theorem cgBodyTrace_zero (o : Opts) (mu : ℕ) (st : CGState)
    (htr : ∀ t ∈ st.trash, t = []) :
    ∀ red ∈ cgBodyTrace o [] [] [] mu st, isZero red.contrib := by
  have z1 : ∀ (Hs : List Cols) (Ds : List Vec) (T : Cols), (∀ t ∈ T, t = []) →
      isZero ((List.zipWith
        (fun Hz den => zipWith3 (fun t hz dv => -(dotQ t hz) / dv) T Hz den)
        Hs Ds).flatten) := by
    intro Hs Ds T hT q hq
    simp only [List.mem_flatten] at hq
    obtain ⟨l, hl, hql⟩ := hq
    obtain ⟨Hz, _, den, _, hlz⟩ := mem_zipWithQ hl
    rw [hlz] at hql
    obtain ⟨t, ht, _, _, _, _, hq'⟩ := mem_zipWith3 hql
    rw [hq', hT t ht, dotQ_nil_left]
    simp
  have z3 : ∀ (P Q : Cols), (∀ t ∈ Q, t = []) → isZero (colsDot P Q) := by
    intro P Q hQ q hq
    obtain ⟨a, _, b, hb, hab⟩ := mem_zipWithQ hq
    rw [hab, hQ b hb, dotQ_nil_right]
  have z4 : ∀ (R T : Cols) (N : Vec), (∀ t ∈ T, t = []) →
      isZero (zipWith3 (fun rc tc nu => dotQ rc tc / nu) R T N) := by
    intro R T N hT q hq
    obtain ⟨a, _, b, hb, _, _, hab⟩ := mem_zipWith3 hq
    rw [hab, hT b hb, dotQ_nil_right]
    simp
  have hdn : ∀ (P : Cols) (t : Vec), t ∈ diagCols [] P → t = [] :=
    fun P t ht => mem_diagCols_nil ht
  have happ : ∀ (a b : Vec), isZero a → isZero b → isZero (a ++ b) := by
    intro a b ha hb q hq
    rcases List.mem_append.mp hq with hq | hq
    · exact ha q hq
    · exact hb q hq
  simp only [cgBodyTrace]
  refine List.forall_mem_append.mpr ⟨List.forall_mem_append.mpr ⟨?_, ?_⟩, ?_⟩
  · intro red hred
    by_cases hc : o.variantGS = 2 ∧ 0 < st.i
    · rw [if_pos hc, List.mem_singleton] at hred
      rw [hred]
      exact z1 _ _ _ htr
    · rw [if_neg hc] at hred
      cases hred
  · intro red hred
    by_cases hi : 0 < st.i
    · rw [if_pos hi, List.mem_singleton] at hred
      rw [hred]
      exact z1 _ _ _ (hdn _)
    · rw [if_neg hi] at hred
      cases hred
  · refine List.forall_mem_cons.mpr ⟨?_, List.forall_mem_singleton.mpr ?_⟩
    · exact happ _ _ (z3 _ _ htr) (z3 _ _ (hdn _))
    · exact happ _ _ (z3 _ _ (hdn _)) (z4 _ _ _ (hdn _))

theorem cgBody_trash_nil (o : Opts) (st : CGState) :
    ∀ t ∈ (cgBody o [] [] [] st).1.trash, t = [] := by
  intro t ht
  exact mem_diagCols_nil ht

theorem cgInit_trash_nil (b x : Cols) :
    ∀ t ∈ (cgInit [] [] [] b x).trash, t = [] := by
  intro t ht
  exact mem_diagCols_nil ht

theorem cgInitTrace_zero (mu : ℕ) (b x : Cols) :
    ∀ red ∈ cgInitTrace [] [] [] mu b x, isZero red.contrib := by
  intro red hred
  simp only [cgInitTrace, List.mem_singleton] at hred
  rw [hred]
  intro q hq
  obtain ⟨a, ha, c, _, hac⟩ := mem_zipWithQ hq
  rw [hac, cgInit_trash_nil b x a ha, dotQ_nil_left]

theorem pcgBodyTrace_shape (op op' : PCGOp) (st st' : PCGState) (h : st.i = st'.i) :
    (pcgBodyTrace op true st).map redShape =
      (pcgBodyTrace op' false st').map redShape := by
  simp [pcgBodyTrace, redShape, h]

theorem pcgBodyTrace_zero (op : PCGOp) (st : PCGState) :
    ∀ red ∈ pcgBodyTrace op true st, red.contrib = List.replicate red.len 0 := by
  intro red hred
  simp only [pcgBodyTrace, if_true, List.mem_cons, List.mem_singleton,
    List.not_mem_nil, or_false] at hred
  rcases hred with rfl | rfl
  · rfl
  · rfl

/-- Claim C5: a rank running with `excluded = true` issues the same ordered
sequence of `MPI_Allreduce` calls (same element counts, same datatypes) as a
rank running `excluded = false` at the same iteration of the same
configuration, and each of its contributions is zero: for the Arnoldi kernel
(both Gram-Schmidt variants), for the CG loop body and setup (whose local
data, operator, preconditioner and scaling are empty, `n = 0`, a property the
body preserves), and for the PCG loop body. -/
theorem excluded_rank_reductions :
    (∀ (gs : ℕ) (variant : Char) (m i mu n n' : ℕ)
      (gmv prec gmv' prec' : FArr → FArr) (sq sq' : ℚ → ℚ) (st st' : ArnSt),
      ((arnoldiStep true gs variant m i mu n gmv prec sq st).2).map redShape =
        ((arnoldiStep false gs variant m i mu n' gmv' prec' sq' st').2).map redShape ∧
      ∀ red ∈ (arnoldiStep true gs variant m i mu n gmv prec sq st).2,
        red.contrib = List.replicate red.len 0) ∧
    (∀ (o : Opts) (A M A' M' : Mat) (d d' : Vec) (mu : ℕ) (st st' : CGState),
      st.i = st'.i →
      (cgBodyTrace o A M d mu st).map redShape =
        (cgBodyTrace o A' M' d' mu st').map redShape) ∧
    (∀ (o : Opts) (mu : ℕ) (st : CGState), (∀ t ∈ st.trash, t = []) →
      (∀ red ∈ cgBodyTrace o [] [] [] mu st, isZero red.contrib) ∧
      (∀ t ∈ (cgBody o [] [] [] st).1.trash, t = [])) ∧
    (∀ (mu : ℕ) (b x : Cols),
      (∀ red ∈ cgInitTrace [] [] [] mu b x, isZero red.contrib) ∧
      (∀ t ∈ (cgInit [] [] [] b x).trash, t = [])) ∧
    (∀ (op op' : PCGOp) (st st' : PCGState), st.i = st'.i →
      (pcgBodyTrace op true st).map redShape =
        (pcgBodyTrace op' false st').map redShape) ∧
    (∀ (op : PCGOp) (st : PCGState),
      ∀ red ∈ pcgBodyTrace op true st, red.contrib = List.replicate red.len 0) := by
  refine ⟨?_, ?_, ?_, ?_, ?_, ?_⟩
  · intro gs variant m i mu n n' gmv prec gmv' prec' sq sq' st st'
    constructor
    · rw [arnoldiStep_trace_excl, arnoldiStep_shape_nonexcl]
      by_cases hgs : gs = 1 <;> simp [hgs, redShape, Nat.mul_comm]
    · rw [arnoldiStep_trace_excl]
      intro red hred
      by_cases hgs : gs = 1
      · simp only [hgs, if_true, List.mem_append, List.mem_map, List.mem_range,
          List.mem_singleton] at hred
        rcases hred with ⟨_, _, rfl⟩ | rfl <;> rfl
      · simp only [hgs, if_false, List.mem_append, List.mem_singleton,
          List.mem_cons, List.not_mem_nil, or_false] at hred
        rcases hred with rfl | rfl <;> rfl
  · exact cgBodyTrace_shape
  · intro o mu st htr
    exact ⟨cgBodyTrace_zero o mu st htr, cgBody_trash_nil o st⟩
  · intro mu b x
    exact ⟨cgInitTrace_zero mu b x, cgInit_trash_nil b x⟩
  · exact pcgBodyTrace_shape
  · exact pcgBodyTrace_zero

/-- Witness for C5 at concrete states: one Arnoldi step at `i = 1`, the CG
body at the empty-data state produced by `cgInit`, and a PCG body at its
initial state. -/
theorem excluded_rank_reductions_witness :
    (((arnoldiStep true 1 'L' 2 1 1 0 id id id stArn).2).map redShape =
      ((arnoldiStep false 1 'L' 2 1 1 3 id id id stArn).2).map redShape) ∧
    ((cgBodyTrace oPlain [] [] [] 1
        (cgInit [] [] [] (emptyCols 1) (emptyCols 1))).map redShape =
      (cgBodyTrace oPlain [[2]] [[1]] [1] 1
        (cgInit [[2]] [[1]] [1] [[1]] [[0]])).map redShape) ∧
    (∀ red ∈ cgBodyTrace oPlain [] [] [] 1
        (cgInit [] [] [] (emptyCols 1) (emptyCols 1)), isZero red.contrib) ∧
    (∀ red ∈ cgInitTrace [] [] [] 1 (emptyCols 1) (emptyCols 1),
      isZero red.contrib) ∧
    ((pcgBodyTrace idOp true
        { x := [0], r := [0], zs := [[0]], ps := [[]], aHist := [], resLog := [],
          log := [], i := 1, steps := 0 }).map redShape =
      (pcgBodyTrace idOp false
        { x := [0], r := [0], zs := [[0]], ps := [[]], aHist := [], resLog := [],
          log := [], i := 1, steps := 0 }).map redShape) ∧
    (∀ red ∈ pcgBodyTrace idOp true
        { x := [0], r := [0], zs := [[0]], ps := [[]], aHist := [], resLog := [],
          log := [], i := 1, steps := 0 },
      red.contrib = List.replicate red.len 0) := by
  refine ⟨?_, ?_, ?_, ?_, ?_, ?_⟩
  · exact (excluded_rank_reductions.1 1 'L' 2 1 1 0 3 id id id id id id
      stArn stArn).1
  · exact excluded_rank_reductions.2.1 oPlain [] [] [[2]] [[1]] [] [1] 1
      (cgInit [] [] [] (emptyCols 1) (emptyCols 1))
      (cgInit [[2]] [[1]] [1] [[1]] [[0]]) rfl
  · exact (excluded_rank_reductions.2.2.1 oPlain 1
      (cgInit [] [] [] (emptyCols 1) (emptyCols 1))
      (cgInit_trash_nil (emptyCols 1) (emptyCols 1))).1
  · exact (excluded_rank_reductions.2.2.2.1 1 (emptyCols 1) (emptyCols 1)).1
  · exact excluded_rank_reductions.2.2.2.2.1 idOp idOp _ _ rfl
  · exact excluded_rank_reductions.2.2.2.2.2 idOp _

theorem arnoldiStep_H_frame (excluded : Bool) (gs : ℕ) (variant : Char)
    (m i mu n : ℕ) (gmv prec : FArr → FArr) (sq : ℚ → ℚ) (st : ArnSt)
    {k : ℕ} (hk : k ≠ i) :
    (arnoldiStep excluded gs variant m i mu n gmv prec sq st).1.H k = st.H k := by
  simp only [arnoldiStep]
  exact upd1_ne hk

theorem arnoldiStep_sn_frame (excluded : Bool) (gs : ℕ) (variant : Char)
    (m i mu n : ℕ) (gmv prec : FArr → FArr) (sq : ℚ → ℚ) (st : ArnSt)
    {j : ℕ} (hj : j < i * mu) :
    (arnoldiStep excluded gs variant m i mu n gmv prec sq st).1.sn j = st.sn j := by
  cases excluded <;>
    · simp only [arnoldiStep, Bool.false_eq_true, if_false, if_true]
      rw [updR_below hj, updR_below hj]

theorem blockArnoldiStep_H_frame (gs : ℕ) (variant : Char) (m i mu n : ℕ)
    (gmv prec : FArr → FArr) (kb : BlockK) (st : BArnSt) {k : ℕ} (hk : k ≠ i) :
    (blockArnoldiStep gs variant m i mu n gmv prec kb st).H k = st.H k := by
  simp only [blockArnoldiStep]
  exact upd1_ne hk

theorem blockArnoldiStep_tau_frame (gs : ℕ) (variant : Char) (m i mu n : ℕ)
    (gmv prec : FArr → FArr) (kb : BlockK) (st : BArnSt) {j : ℕ}
    (hj : j < i * (2 * mu)) :
    (blockArnoldiStep gs variant m i mu n gmv prec kb st).tau j = st.tau j := by
  simp only [blockArnoldiStep]
  exact updR_below hj

theorem blockArnoldiStep_s_frame (gs : ℕ) (variant : Char) (m i mu n : ℕ)
    (gmv prec : FArr → FArr) (kb : BlockK) (st : BArnSt) {j : ℕ}
    (hj : j % (mu * (m + 1)) < i * mu) :
    (blockArnoldiStep gs variant m i mu n gmv prec kb st).s j = st.s j := by
  simp only [blockArnoldiStep]
  rw [if_neg]
  omega

/-- Claim C7: the Arnoldi step producing basis vector `i+1` writes only the
newest Hessenberg column `H[i]` and the rotation data of step `i`: every
other column `H[k]` and all Givens data `sn[k*mu+nu]` of earlier steps are
left untouched.  Likewise the Block-Arnoldi step writes only `H[i]`, the
reflector scalars `tau` of step `i` and the rows of the least-squares block
from `i*mu` on. -/
theorem arnoldi_column_immutability :
    (∀ (excluded : Bool) (gs : ℕ) (variant : Char) (m i mu n : ℕ)
      (gmv prec : FArr → FArr) (sq : ℚ → ℚ) (st : ArnSt) (k j : ℕ),
      k ≠ i → j < i * mu →
      (arnoldiStep excluded gs variant m i mu n gmv prec sq st).1.H k = st.H k ∧
      (arnoldiStep excluded gs variant m i mu n gmv prec sq st).1.sn j = st.sn j) ∧
    (∀ (gs : ℕ) (variant : Char) (m i mu n : ℕ) (gmv prec : FArr → FArr)
      (kb : BlockK) (st : BArnSt) (k j j' : ℕ),
      k ≠ i → j < i * (2 * mu) → j' % (mu * (m + 1)) < i * mu →
      (blockArnoldiStep gs variant m i mu n gmv prec kb st).H k = st.H k ∧
      (blockArnoldiStep gs variant m i mu n gmv prec kb st).tau j = st.tau j ∧
      (blockArnoldiStep gs variant m i mu n gmv prec kb st).s j' = st.s j') := by
  constructor
  · intro excluded gs variant m i mu n gmv prec sq st k j hk hj
    exact ⟨arnoldiStep_H_frame excluded gs variant m i mu n gmv prec sq st hk,
      arnoldiStep_sn_frame excluded gs variant m i mu n gmv prec sq st hj⟩
  · intro gs variant m i mu n gmv prec kb st k j j' hk hj hj'
    exact ⟨blockArnoldiStep_H_frame gs variant m i mu n gmv prec kb st hk,
      blockArnoldiStep_tau_frame gs variant m i mu n gmv prec kb st hj,
      blockArnoldiStep_s_frame gs variant m i mu n gmv prec kb st hj'⟩

/-- Witness for C7 at step `i = 1`, checking column 0 and the Givens/reflector
data of step 0. -/
theorem arnoldi_column_immutability_witness :
    ((0 : ℕ) ≠ 1 ∧ (0 : ℕ) < 1 * 1) ∧
    ((arnoldiStep false 1 'L' 2 1 1 1 id id id stArn).1.H 0 = stArn.H 0 ∧
      (arnoldiStep false 1 'L' 2 1 1 1 id id id stArn).1.sn 0 = stArn.sn 0) ∧
    ((blockArnoldiStep 1 'L' 2 1 1 1 id id kBlock stBArn).H 0 = stBArn.H 0 ∧
      (blockArnoldiStep 1 'L' 2 1 1 1 id id kBlock stBArn).tau 0 = stBArn.tau 0 ∧
      (blockArnoldiStep 1 'L' 2 1 1 1 id id kBlock stBArn).s 0 = stBArn.s 0) := by
  refine ⟨⟨by decide, by decide⟩, ?_, ?_⟩
  · exact arnoldi_column_immutability.1 false 1 'L' 2 1 1 1 id id id stArn 0 0
      (by decide) (by decide)
  · exact arnoldi_column_immutability.2 1 'L' 2 1 1 1 id id kBlock stBArn 0 0 0
      (by decide) (by decide) (by decide)

theorem cgBody_steps (o : Opts) (A M : Mat) (d : Vec) (st : CGState) :
    (cgBody o A M d st).1.steps = st.steps + 1 := rfl

theorem cgBody_i (o : Opts) (A M : Mat) (d : Vec) (st : CGState) :
    (cgBody o A M d st).1.i =
      (if (cgBody o A M d st).2 then st.i else st.i + 1) := by
  dsimp only [cgBody]
  split <;> rename_i h <;> simp [h]

theorem cgLoop_count (o : Opts) (A M : Mat) (d : Vec) :
    ∀ (fuel : ℕ) (st : CGState), st.i = st.steps →
    ((cgLoop o A M d fuel st).1.steps ≤ st.steps + fuel) ∧
    (if (cgLoop o A M d fuel st).2
     then (cgLoop o A M d fuel st).1.i + 1 = (cgLoop o A M d fuel st).1.steps
     else (cgLoop o A M d fuel st).1.i = (cgLoop o A M d fuel st).1.steps ∧
          (cgLoop o A M d fuel st).1.steps = st.steps + fuel) := by
  intro fuel
  induction fuel with
  | zero =>
    intro st h
    simp only [cgLoop, Bool.false_eq_true, if_false]
    omega
  | succ n ih =>
    intro st h
    simp only [cgLoop]
    by_cases hb : (cgBody o A M d st).2 = true
    · simp only [hb, if_true]
      have hs := cgBody_steps o A M d st
      have hi := cgBody_i o A M d st
      rw [hb, if_pos rfl] at hi
      omega
    · simp only [hb, if_false]
      have hb' : (cgBody o A M d st).2 = false := by
        cases h2 : (cgBody o A M d st).2
        · rfl
        · exact absurd h2 hb
      simp only [hb', Bool.false_eq_true, if_false]
      have hs := cgBody_steps o A M d st
      have hi := cgBody_i o A M d st
      rw [hb', if_neg (by simp)] at hi
      have hinv : (cgBody o A M d st).1.i = (cgBody o A M d st).1.steps := by
        omega
      have := ih (cgBody o A M d st).1 hinv
      rcases this with ⟨h1, h2⟩
      constructor
      · omega
      · by_cases hl : (cgLoop o A M d n (cgBody o A M d st).1).2 = true
        · simp only [hl, if_true] at h2 ⊢
          exact h2
        · have hl' : (cgLoop o A M d n (cgBody o A M d st).1).2 = false := by
            cases h3 : (cgLoop o A M d n (cgBody o A M d st).1).2
            · rfl
            · exact absurd h3 hl
          simp only [hl', Bool.false_eq_true, if_false] at h2 ⊢
          omega

theorem bcgBody_conv (k : DenseK) (o : Opts) (A M : Mat) (d : Vec) (e : Bool)
    (mu : ℕ) (st st' : BCGState) (h : bcgBody k o A M d e mu st = .conv st') :
    st'.i = st.i ∧ st'.steps = st.steps + 1 := by
  simp only [bcgBody] at h
  repeat' split at h
  all_goals first
    | (cases h; exact ⟨rfl, rfl⟩)
    | cases h

theorem bcgBody_next (k : DenseK) (o : Opts) (A M : Mat) (d : Vec) (e : Bool)
    (mu : ℕ) (st st' : BCGState) (h : bcgBody k o A M d e mu st = .next st') :
    st'.i = st.i + 1 ∧ st'.steps = st.steps + 1 := by
  simp only [bcgBody] at h
  repeat' split at h
  all_goals first
    | (cases h; exact ⟨rfl, rfl⟩)
    | cases h

theorem bcgLoop_count (k : DenseK) (o : Opts) (A M : Mat) (d : Vec) (e : Bool)
    (mu : ℕ) :
    ∀ (fuel : ℕ) (st : BCGState), fuel + st.steps = o.it → st.i = st.steps + 1 →
    ∀ (c : ℕ) (st' : BCGState) (e' : Bool),
      bcgLoop k o A M d e mu fuel st = .out c st' e' →
      c = st'.steps ∧ c ≤ o.it := by
  intro fuel
  induction fuel with
  | zero =>
    intro st hf hi c st' e' h
    simp only [bcgLoop] at h
    cases h
    constructor
    · omega
    · omega
  | succ n ih =>
    intro st hf hi c st' e' h
    simp only [bcgLoop] at h
    split at h
    · cases h
    · rename_i x st1 heq
      rw [BRes.out.injEq] at h
      obtain ⟨hc, hst, he⟩ := h
      obtain ⟨h1, h2⟩ := bcgBody_conv k o A M d e mu st st1 heq
      subst hst
      constructor
      · omega
      · omega
    · rename_i x st1 heq
      obtain ⟨h1, h2⟩ := bcgBody_next k o A M d e mu st st1 heq
      exact ih st1 (by omega) (by omega) c st' e' h

/-- Counterexample for C3: on the 1×1 system `A = [1]`, `b = [1]`, `x0 = [0]`
with `tol = 1`, `it = 3`, CG converges during its first loop-body execution
(`steps = 1`, early break taken), yet the returned value
`std::min(i, it)` is 0 — one less than the number of iterations executed,
because CG.hpp:134 decrements `i` before breaking. -/
theorem cg_count_decrement_cex :
    (cgRun oPlain [[1]] [[1]] [1] [[1]] [[0]]).2 = true ∧
    (cgRun oPlain [[1]] [[1]] [1] [[1]] [[0]]).1.steps = 1 ∧
    min (cgRun oPlain [[1]] [[1]] [1] [[1]] [[0]]).1.i oPlain.it = 0 ∧
    (CG oPlain [[1]] [[1]] [1] false gmresStub 1 [[1]] [[0]]).count ≠ 1 := by
  refine ⟨?_, ?_, ?_, ?_⟩ <;> with_unfolding_all decide

/-- Claim C3 (amended): the CG and BCG loop bodies execute at most `it`
(resp. `m[0]`) times and the returned value never exceeds the cap; BCG's
return value equals the number of loop-body executions, while CG's equals
that number on cap exhaustion but is one less when the loop exits through the
early all-columns-converged break (CG.hpp:133-136 decrements `i` before
breaking). -/
theorem iteration_count_capped :
    (∀ (o : Opts) (A M : Mat) (d : Vec) (b x : Cols),
      (cgRun o A M d b x).1.steps ≤ o.it ∧
      min (cgRun o A M d b x).1.i o.it =
        (if (cgRun o A M d b x).2 then (cgRun o A M d b x).1.steps - 1
         else (cgRun o A M d b x).1.steps)) ∧
    (∀ (o : Opts) (A M : Mat) (d : Vec) (excluded : Bool) (g : GmresK)
      (mu : ℕ) (b x : Cols), bypassToGMRES o = false →
      (CG o A M d excluded g mu b x).count =
        min (cgRun o (if excluded then [] else A) (if excluded then [] else M)
          (if excluded then [] else d) (if excluded then emptyCols mu else b)
          (if excluded then emptyCols mu else x)).1.i o.it) ∧
    (∀ (k : DenseK) (o : Opts) (A M : Mat) (d : Vec) (e : Bool) (mu : ℕ)
      (b x : Cols) (c : ℕ) (st : BCGState) (e' : Bool),
      bcgCore k o A M d e mu b x = .out c st e' →
      c = st.steps ∧ c ≤ o.it) := by
  refine ⟨?_, ?_, ?_⟩
  · intro o A M d b x
    have h := cgLoop_count o A M d o.it (cgInit A M d b x) rfl
    have hinit : (cgInit A M d b x).steps = 0 := rfl
    rw [hinit] at h
    rcases h with ⟨h1, h2⟩
    simp only [cgRun]
    constructor
    · omega
    · by_cases hb : (cgLoop o A M d o.it (cgInit A M d b x)).2 = true
      · simp only [hb, if_true] at h2 ⊢
        omega
      · have hb' : (cgLoop o A M d o.it (cgInit A M d b x)).2 = false := by
          cases h3 : (cgLoop o A M d o.it (cgInit A M d b x)).2
          · rfl
          · exact absurd h3 hb
        simp only [hb', Bool.false_eq_true, if_false] at h2 ⊢
        omega
  · intro o A M d excluded g mu b x hbp
    simp only [CG, hbp, Bool.false_eq_true, if_false]
  · intro k o A M d e mu b x c st e' h
    simp only [bcgCore] at h
    split at h
    · cases h
    · rename_i pg heq
      refine bcgLoop_count k o _ _ _ e mu o.it _ ?_ ?_ c st e' h
      · rfl
      · rfl

/-- Witness for C3 (amended) at concrete runs: the 1×1 CG run above and a
1×1 BCG run whose dense kernels never fail. -/
theorem iteration_count_capped_witness :
    ((cgRun oPlain [[1]] [[1]] [1] [[1]] [[0]]).1.steps ≤ oPlain.it) ∧
    ((CG oPlain [[1]] [[1]] [1] false gmresStub 1 [[1]] [[0]]).count =
      min (cgRun oPlain [[1]] [[1]] [1] [[1]] [[0]]).1.i oPlain.it) ∧
    (bresCount (bcgCore kDetect oPlain [[1]] [[1]] [1] false 1 [[1]] [[0]]) =
      bresSteps (bcgCore kDetect oPlain [[1]] [[1]] [1] false 1 [[1]] [[0]]) ∧
     bresCount (bcgCore kDetect oPlain [[1]] [[1]] [1] false 1 [[1]] [[0]]) ≤
      oPlain.it) := by
  refine ⟨(iteration_count_capped.1 oPlain [[1]] [[1]] [1] [[1]] [[0]]).1, ?_, ?_⟩
  · have h := iteration_count_capped.2.1 oPlain [[1]] [[1]] [1] false gmresStub 1
      [[1]] [[0]] (by with_unfolding_all decide)
    simpa using h
  · have hout : isOut (bcgCore kDetect oPlain [[1]] [[1]] [1] false 1 [[1]] [[0]])
        = true := by with_unfolding_all decide
    cases hR : bcgCore kDetect oPlain [[1]] [[1]] [1] false 1 [[1]] [[0]] with
    | fb xx rr =>
      rw [hR] at hout
      simp [isOut] at hout
    | out c0 st0 e0 =>
      have h := iteration_count_capped.2.2 kDetect oPlain [[1]] [[1]] [1] false 1
        [[1]] [[0]] c0 st0 e0 hR
      simp only [bresCount, bresSteps]
      exact h

theorem bcgFailLoop_eq (k : DenseK) (o : Opts) (A M : Mat) (d : Vec) (e : Bool)
    (mu : ℕ) : ∀ (fuel : ℕ) (st : BCGState),
    bcgFailLoop k o A M d e mu fuel st =
      !(isOut (bcgLoop k o A M d e mu fuel st)) := by
  intro fuel
  induction fuel with
  | zero => intro st; rfl
  | succ n ih =>
    intro st
    cases hB : bcgBody k o A M d e mu st with
    | fail x r => simp only [bcgFailLoop, bcgLoop, hB, isOut, Bool.not_false]
    | conv st1 => simp only [bcgFailLoop, bcgLoop, hB, isOut, Bool.not_true]
    | next st1 =>
      simp only [bcgFailLoop, bcgLoop, hB]
      exact ih st1

theorem bcgFails_eq (k : DenseK) (o : Opts) (A M : Mat) (d : Vec) (e : Bool)
    (mu : ℕ) (b x : Cols) :
    bcgFails k o A M d e mu b x = !(isOut (bcgCore k o A M d e mu b x)) := by
  simp only [bcgFails, bcgCore]
  split
  · rfl
  · exact bcgFailLoop_eq k o _ _ _ e mu o.it _

/-- Claim C1: whenever the dense symmetric-positive-definite block solve
(`ppsv`/`posv`) or the QR re-orthogonalization inside BCG reports a nonzero
failure code — and exactly then — the block iteration is abandoned and BCG
returns exactly the value of `CG<excluded>(A, b, x, mu, comm)` on the same
operator, right-hand sides and communicator, with `x` holding its in-place
contents at the point of breakdown; the breakdown is never surfaced to the
caller, whose only signal is CG's returned count. -/
theorem bcg_breakdown_falls_back_to_cg :
    (∀ (k : DenseK) (o : Opts) (A M : Mat) (d : Vec) (e : Bool) (mu : ℕ)
      (b x : Cols),
      (∃ xc rc, bcgCore k o A M d e mu b x = .fb xc rc) ↔
        bcgFails k o A M d e mu b x = true) ∧
    (∀ (k : DenseK) (o : Opts) (A M : Mat) (d : Vec) (e : Bool) (g : GmresK)
      (mu : ℕ) (b x xc rc : Cols),
      bypassToGMRES o = false → o.variant ≠ 2 →
      bcgCore k o A M d e mu b x = .fb xc rc →
      BCG k o A M d e g mu b x = CG o A M d e g mu b xc) := by
  constructor
  · intro k o A M d e mu b x
    rw [bcgFails_eq]
    cases hR : bcgCore k o A M d e mu b x with
    | out c st e' => simp [isOut]
    | fb xc rc => simp [isOut]
  · intro k o A M d e g mu b x xc rc hbp hv h
    simp only [BCG, hbp, Bool.false_eq_true, if_false, if_neg hv, h]

/-- Witness for C1: with kernels that always report failure, BCG on a 1×1
system falls back at the initial QR and returns exactly CG's value on the
untouched `x`. -/
theorem bcg_breakdown_falls_back_to_cg_witness :
    (∃ xc rc, bcgCore kNone oPlain [[2]] [[1]] [1] false 1 [[1]] [[0]] =
      .fb xc rc) ∧
    bypassToGMRES oPlain = false ∧ oPlain.variant ≠ 2 ∧
    bcgCore kNone oPlain [[2]] [[1]] [1] false 1 [[1]] [[0]] =
      .fb [[0]] [[1]] ∧
    BCG kNone oPlain [[2]] [[1]] [1] false gmresStub 1 [[1]] [[0]] =
      CG oPlain [[2]] [[1]] [1] false gmresStub 1 [[1]] [[0]] := by
  refine ⟨?_, by with_unfolding_all decide, by with_unfolding_all decide,
    by with_unfolding_all decide, ?_⟩
  · exact (bcg_breakdown_falls_back_to_cg.1 kNone oPlain [[2]] [[1]] [1] false 1
      [[1]] [[0]]).mpr (by with_unfolding_all decide)
  · exact bcg_breakdown_falls_back_to_cg.2 kNone oPlain [[2]] [[1]] [1] false
      gmresStub 1 [[1]] [[0]] [[0]] [[1]] (by with_unfolding_all decide)
      (by with_unfolding_all decide) (by with_unfolding_all decide)

theorem getD_append_left (l l2 : List ℚ) (j : ℕ) (h : j < l.length) :
    (l ++ l2).getD j 0 = l.getD j 0 := by
  simp [List.getD, List.getElem?_append_left h]

theorem getD_concat (l : List ℚ) (a : ℚ) : (l ++ [a]).getD l.length 0 = a := by
  simp [List.getD_append_right]

theorem pcgBody_fields (op : PCGOp) (tol : ℚ) (v : ℤ) (R : ℚ) (e : Bool)
    (st : PCGState) :
    (pcgBody op tol v R e st).1.steps = st.steps + 1 ∧
    (pcgBody op tol v R e st).1.resLog = st.resLog ++ [pcgRelSq op e st] ∧
    ((pcgBody op tol v R e st).2 = true ↔ pcgRelSq op e st / R ≤ tol ^ 2) ∧
    (pcgBody op tol v R e st).1.i =
      (if (pcgBody op tol v R e st).2 then st.i else st.i + 1) := by
  simp only [pcgBody, pcgRelSq]
  by_cases he : e = true <;> simp only [he, if_true, Bool.false_eq_true, if_false]
  · split <;> rename_i h <;> simp_all
  · split <;> rename_i h <;> simp_all

theorem pcgLoop_term (op : PCGOp) (tol : ℚ) (v : ℤ) (R : ℚ) (e : Bool) :
    ∀ (fuel : ℕ) (st : PCGState),
    st.i = st.steps + 1 →
    st.resLog.length = st.steps →
    (∀ j, j + 1 < st.i → ¬ (st.resLog.getD j 0 / R ≤ tol ^ 2)) →
    (pcgLoop op tol v R e fuel st).resLog.length =
      (pcgLoop op tol v R e fuel st).steps ∧
    (pcgLoop op tol v R e fuel st).steps ≤ st.steps + fuel ∧
    (pcgLoop op tol v R e fuel st).i ≤ st.steps + fuel + 1 ∧
    min (pcgLoop op tol v R e fuel st).i (st.steps + fuel) =
      (pcgLoop op tol v R e fuel st).steps ∧
    (∀ j, j + 1 < (pcgLoop op tol v R e fuel st).i →
      ¬ ((pcgLoop op tol v R e fuel st).resLog.getD j 0 / R ≤ tol ^ 2)) ∧
    ((pcgLoop op tol v R e fuel st).i ≤ st.steps + fuel →
      (pcgLoop op tol v R e fuel st).resLog.getD
        ((pcgLoop op tol v R e fuel st).steps - 1) 0 / R ≤ tol ^ 2) := by
  intro fuel
  induction fuel with
  | zero =>
    intro st hi hlen hmono
    simp only [pcgLoop]
    refine ⟨hlen, by omega, by omega, by omega, hmono, by omega⟩
  | succ n ih =>
    intro st hi hlen hmono
    obtain ⟨hs, hr, hbiff, hii⟩ := pcgBody_fields op tol v R e st
    have hcat : (st.resLog ++ [pcgRelSq op e st]).getD st.steps 0 =
        pcgRelSq op e st := by
      rw [← hlen]
      exact getD_concat _ _
    simp only [pcgLoop]
    by_cases hb : (pcgBody op tol v R e st).2 = true
    · simp only [hb, if_true]
      rw [hb, if_pos rfl] at hii
      have hrel := hbiff.mp hb
      refine ⟨?_, by omega, by omega, by omega, ?_, ?_⟩
      · rw [hr, hs]
        simp [hlen]
      · intro j hj
        rw [hii, hi] at hj
        rw [hr, getD_append_left _ _ j (by omega)]
        exact hmono j (by omega)
      · intro _
        rw [hr, hs]
        simp only [Nat.add_sub_cancel]
        rw [← hlen, getD_concat]
        exact hrel
    · have hb' : (pcgBody op tol v R e st).2 = false := by
        cases h2 : (pcgBody op tol v R e st).2
        · rfl
        · exact absurd h2 hb
      simp only [hb', Bool.false_eq_true, if_false]
      rw [hb', if_neg (by simp)] at hii
      have hrel : ¬ (pcgRelSq op e st / R ≤ tol ^ 2) := by
        intro hc
        rw [← hbiff] at hc
        exact hb hc
      have hmono' : ∀ j, j + 1 < (pcgBody op tol v R e st).1.i →
          ¬ ((pcgBody op tol v R e st).1.resLog.getD j 0 / R ≤ tol ^ 2) := by
        intro j hj
        rw [hii, hi] at hj
        rw [hr]
        by_cases hlt : j < st.steps
        · rw [getD_append_left _ _ j (by omega)]
          exact hmono j (by omega)
        · have hje : j = st.steps := by omega
          rw [hje, hcat]
          exact hrel
      have := ih (pcgBody op tol v R e st).1 (by omega) (by rw [hr, hs]; simp [hlen])
        hmono'
      rcases this with ⟨c1, c2, c3, c4, c5, c6⟩
      rw [hs] at c2 c3 c4 c6
      refine ⟨c1, by omega, by omega, by omega, c5, fun h => c6 (by omega)⟩

/-- Claim C4: PCG exits its iteration loop as soon as the ratio of the
current to the initial residual norm is at most the configured tolerance
(embedded on squared norms: `relSq / resInitSq ≤ tol^2`), or after at most
`it` iterations, whichever happens first, and the returned value is the
minimum of the iteration counter and `it`: the returned count equals
`min i it`, which equals the number of body executions; the body executes
at most `it` times; every residual recorded before the final one fails the
tolerance test (so no earlier exit was missed); and when the loop exits
before exhausting `it` iterations, the last recorded residual passes the
test. -/
theorem pcg_termination (op : PCGOp) (o : Opts) (excluded : Bool)
    (f r0 x0 : Vec) :
    (PCG op o excluded f r0 x0).count =
      min (pcgRun op o excluded r0 x0).i o.it ∧
    (PCG op o excluded f r0 x0).count = (pcgRun op o excluded r0 x0).steps ∧
    (pcgRun op o excluded r0 x0).steps ≤ o.it ∧
    (pcgRun op o excluded r0 x0).resLog.length =
      (pcgRun op o excluded r0 x0).steps ∧
    (∀ j, j + 1 < (pcgRun op o excluded r0 x0).i →
      ¬ ((pcgRun op o excluded r0 x0).resLog.getD j 0 /
          pcgResInitSq op excluded r0 ≤ o.tol ^ 2)) ∧
    ((pcgRun op o excluded r0 x0).i ≤ o.it →
      (pcgRun op o excluded r0 x0).resLog.getD
        ((pcgRun op o excluded r0 x0).steps - 1) 0 /
        pcgResInitSq op excluded r0 ≤ o.tol ^ 2) := by
  have hrun : pcgRun op o excluded r0 x0 =
      pcgLoop op o.tol o.verbosity (pcgResInitSq op excluded r0) excluded o.it
        { x := x0, r := r0, zs := [if excluded then [] else op.M r0],
          ps := [[]], aHist := [], resLog := [], log := [], i := 1,
          steps := 0 } := rfl
  have h := pcgLoop_term op o.tol o.verbosity
      (pcgResInitSq op excluded r0) excluded o.it
      { x := x0, r := r0, zs := [if excluded then [] else op.M r0],
        ps := [[]], aHist := [], resLog := [], log := [], i := 1,
        steps := 0 }
      rfl rfl (by intro j hj; have hj1 : j + 1 < 1 := hj; omega)
  have hst0 : ({ x := x0, r := r0,
                 zs := [if excluded then [] else op.M r0],
                 ps := [[]], aHist := [], resLog := [], log := [], i := 1,
                 steps := 0 } : PCGState).steps = 0 := rfl
  rw [hst0, Nat.zero_add, ← hrun] at h
  obtain ⟨hL, hS, _, hM, hMono, hLast⟩ := h
  exact ⟨rfl, hM, hS, hL, hMono, hLast⟩

theorem pcg_termination_witness :
    (PCG idOp oPlain false [] [1] [0]).count =
      (pcgRun idOp oPlain false [1] [0]).steps ∧
    (pcgRun idOp oPlain false [1] [0]).i ≤ oPlain.it ∧
    (pcgRun idOp oPlain false [1] [0]).resLog.getD
      ((pcgRun idOp oPlain false [1] [0]).steps - 1) 0 /
      pcgResInitSq idOp false [1] ≤ oPlain.tol ^ 2 :=
  ⟨(pcg_termination idOp oPlain false [] [1] [0]).2.1,
   by with_unfolding_all decide,
   (pcg_termination idOp oPlain false [] [1] [0]).2.2.2.2.2
     (by with_unfolding_all decide)⟩

theorem fadd_nan_right (a : FD) : fadd a .nan = .nan := by cases a <;> rfl

theorem fadd_nan_left (a : FD) : fadd .nan a = .nan := by cases a <;> rfl

theorem fmul_nan_right (a : FD) : fmul a .nan = .nan := by cases a <;> rfl

theorem fmul_nan_left (a : FD) : fmul .nan a = .nan := by cases a <;> rfl

theorem fneg_nan : fneg .nan = .nan := rfl

theorem fdiv_nan_left (b : FD) : fdiv .nan b = .nan := by cases b <;> rfl

theorem fle_nan_left (b : FD) : fle .nan b = false := by cases b <;> rfl

theorem fdiv_zero_zero : fdiv (.fin 0) (.fin 0) = .nan := by
  simp [fdiv]

theorem fadd_zero_zero : fadd (.fin 0) (.fin 0) = .fin 0 := by
  simp [fadd]

theorem fmul_fin_zero (a : ℚ) : fmul (.fin a) (.fin 0) = .fin 0 := by
  simp [fmul]

theorem fmul_zero_fin (a : ℚ) : fmul (.fin 0) (.fin a) = .fin 0 := by
  simp [fmul]

theorem fsub_zero_zero : fsub (.fin 0) (.fin 0) = .fin 0 := by
  simp [fsub, fneg, fadd]

theorem sumF_all_zero {l : List FD} (h : ∀ q ∈ l, q = .fin 0) :
    sumF l = .fin 0 := by
  induction l with
  | nil => rfl
  | cons a t ih =>
    have ha := h a (by simp)
    simp only [sumF, List.foldl_cons, ha, fadd_zero_zero]
    exact ih (fun q hq => h q (by simp [hq]))

theorem foldl_fadd_nan : ∀ l : List FD, l.foldl fadd .nan = .nan := by
  intro l
  induction l with
  | nil => rfl
  | cons a t ih => simp only [List.foldl_cons, fadd_nan_left]; exact ih

theorem foldl_fadd_mem_nan : ∀ (l : List FD) (acc : FD), FD.nan ∈ l →
    l.foldl fadd acc = .nan := by
  intro l
  induction l with
  | nil => intro acc h; cases h
  | cons a t ih =>
    intro acc h
    rcases List.mem_cons.mp h with ha | ht
    · simp only [List.foldl_cons, ← ha, fadd_nan_right]
      exact foldl_fadd_nan t
    · simp only [List.foldl_cons]
      exact ih _ ht

theorem sumF_mem_nan {l : List FD} (h : FD.nan ∈ l) : sumF l = .nan :=
  foldl_fadd_mem_nan l _ h

theorem zipWith_ne_nil {α β γ : Type} {f : α → β → γ} {a : List α}
    {b : List β} (ha : a ≠ []) (hb : b ≠ []) : List.zipWith f a b ≠ [] := by
  cases a with
  | nil => exact absurd rfl ha
  | cons u us =>
    cases b with
    | nil => exact absurd rfl hb
    | cons w ws => simp

theorem dotF_nan_right {a v : VecF} (ha : a ≠ []) (hv : v ≠ [])
    (h : ∀ q ∈ v, q = .nan) : dotF a v = .nan := by
  cases a with
  | nil => exact absurd rfl ha
  | cons u us =>
    cases v with
    | nil => exact absurd rfl hv
    | cons w ws =>
      apply sumF_mem_nan
      have hw : w = FD.nan := h w (by simp)
      simp only [List.zipWith_cons_cons]
      exact List.mem_cons.mpr (Or.inl (by rw [hw, fmul_nan_right]))

theorem dotF_nan_left {a v : VecF} (ha : a ≠ []) (hv : v ≠ [])
    (h : ∀ q ∈ a, q = .nan) : dotF a v = .nan := by
  cases a with
  | nil => exact absurd rfl ha
  | cons u us =>
    cases v with
    | nil => exact absurd rfl hv
    | cons w ws =>
      apply sumF_mem_nan
      have hu : u = FD.nan := h u (by simp)
      simp only [List.zipWith_cons_cons]
      exact List.mem_cons.mpr (Or.inl (by rw [hu, fmul_nan_left]))

theorem dotF_all_zero {a v : VecF} (ha : ∀ q ∈ a, q = .fin 0)
    (hv : ∀ q ∈ v, q = .fin 0) : dotF a v = .fin 0 := by
  apply sumF_all_zero
  intro q hq
  obtain ⟨u, hu, w, hw, hq'⟩ := mem_zipWithQ hq
  rw [hq', ha u hu, hv w hw, fmul_fin_zero]

theorem allNan_ne_nil {v : VecF} (h : allNan v) : v ≠ [] := h.1

theorem allNanC_ne {P : ColsF} (h : allNanC P) : neColsF P :=
  ⟨h.1, fun v hv => (h.2 v hv).1⟩

theorem allZ_ne_nil {v : VecF} (h : allZ v) : v ≠ [] := h.1

theorem allZC_ne {P : ColsF} (h : allZC P) : neColsF P :=
  ⟨h.1, fun v hv => (h.2 v hv).1⟩

theorem axpyF_absorb {a : FD} {xs ys : VecF} (hx : xs ≠ []) (hy : allNan ys) :
    allNan (axpyF a xs ys) := by
  refine ⟨zipWith_ne_nil hx hy.1, ?_⟩
  intro q hq
  obtain ⟨u, _, w, hw, hq'⟩ := mem_zipWithQ hq
  rw [hq', hy.2 w hw, fadd_nan_right]

theorem axpyF_nan_coef {a : FD} (ha : a = .nan) {xs ys : VecF} (hx : xs ≠ [])
    (hy : ys ≠ []) : allNan (axpyF a xs ys) := by
  refine ⟨zipWith_ne_nil hx hy, ?_⟩
  intro q hq
  obtain ⟨u, _, w, _, hq'⟩ := mem_zipWithQ hq
  rw [hq', ha, fmul_nan_left, fadd_nan_left]

theorem axpyF_ne_nil {a : FD} {xs ys : VecF} (hx : xs ≠ []) (hy : ys ≠ []) :
    axpyF a xs ys ≠ [] := zipWith_ne_nil hx hy

theorem matVecF_allNan {A : Mat} {v : VecF} (hA : A ≠ [])
    (hAr : ∀ row ∈ A, row ≠ []) (hv : allNan v) : allNan (matVecF A v) := by
  constructor
  · simp only [matVecF]
    exact fun h => hA (List.map_eq_nil_iff.mp h)
  · intro q hq
    simp only [matVecF, List.mem_map] at hq
    obtain ⟨row, hrow, hq'⟩ := hq
    rw [← hq']
    exact dotF_nan_right (by simpa using hAr row hrow) hv.1 hv.2

theorem dotF_fin_zero {a v : VecF} (ha : ∀ q ∈ a, ∃ c, q = FD.fin c)
    (hv : ∀ q ∈ v, q = .fin 0) : dotF a v = .fin 0 := by
  apply sumF_all_zero
  intro q hq
  obtain ⟨u, hu, w, hw, hq'⟩ := mem_zipWithQ hq
  obtain ⟨c, hc⟩ := ha u hu
  rw [hq', hc, hv w hw, fmul_fin_zero]

theorem matVecF_allZ {A : Mat} {v : VecF} (hA : A ≠ [])
    (hv : ∀ q ∈ v, q = .fin 0) : allZ (matVecF A v) := by
  constructor
  · simp only [matVecF]
    exact fun h => hA (List.map_eq_nil_iff.mp h)
  · intro q hq
    simp only [matVecF, List.mem_map] at hq
    obtain ⟨row, _, hq'⟩ := hq
    rw [← hq']
    apply dotF_fin_zero _ hv
    intro u hu
    simp only [List.mem_map] at hu
    obtain ⟨c, _, hu'⟩ := hu
    exact ⟨c, hu'.symm⟩

theorem map_ne_nil {α β : Type} {f : α → β} {l : List α} (h : l ≠ []) :
    l.map f ≠ [] := fun hc => h (List.map_eq_nil_iff.mp hc)

theorem opColsF_allNanC {A : Mat} {P : ColsF} (hA : A ≠ [])
    (hAr : ∀ row ∈ A, row ≠ []) (hP : allNanC P) :
    allNanC (opColsF A P) := by
  refine ⟨map_ne_nil hP.1, ?_⟩
  intro v hv
  simp only [opColsF, List.mem_map] at hv
  obtain ⟨c, hc, hv'⟩ := hv
  rw [← hv']
  exact matVecF_allNan hA hAr (hP.2 c hc)

theorem opColsF_allZC {A : Mat} {P : ColsF} (hA : A ≠ []) (hP : allZC P) :
    allZC (opColsF A P) := by
  refine ⟨map_ne_nil hP.1, ?_⟩
  intro v hv
  simp only [opColsF, List.mem_map] at hv
  obtain ⟨c, hc, hv'⟩ := hv
  rw [← hv']
  exact matVecF_allZ hA (hP.2 c hc).2

theorem opColsF_ne {A : Mat} {P : ColsF} (hA : A ≠ []) (hP : P ≠ []) :
    neColsF (opColsF A P) := by
  refine ⟨map_ne_nil hP, ?_⟩
  intro v hv
  simp only [opColsF, List.mem_map] at hv
  obtain ⟨c, _, hv'⟩ := hv
  rw [← hv']
  simp only [matVecF]
  exact map_ne_nil hA

theorem hadamardF_allNan {d : Vec} {v : VecF} (hd : d ≠ []) (hv : allNan v) :
    allNan (hadamardF d v) := by
  refine ⟨zipWith_ne_nil hd hv.1, ?_⟩
  intro q hq
  obtain ⟨u, _, w, hw, hq'⟩ := mem_zipWithQ hq
  rw [hq', hv.2 w hw, fmul_nan_right]

theorem hadamardF_allZ {d : Vec} {v : VecF} (hd : d ≠ []) (hv : allZ v) :
    allZ (hadamardF d v) := by
  refine ⟨zipWith_ne_nil hd hv.1, ?_⟩
  intro q hq
  obtain ⟨u, _, w, hw, hq'⟩ := mem_zipWithQ hq
  rw [hq', hv.2 w hw, fmul_fin_zero]

theorem diagColsF_allNanC {d : Vec} {P : ColsF} (hd : d ≠ [])
    (hP : allNanC P) : allNanC (diagColsF d P) := by
  refine ⟨map_ne_nil hP.1, ?_⟩
  intro v hv
  simp only [diagColsF, List.mem_map] at hv
  obtain ⟨c, hc, hv'⟩ := hv
  rw [← hv']
  exact hadamardF_allNan hd (hP.2 c hc)

theorem diagColsF_allZC {d : Vec} {P : ColsF} (hd : d ≠ []) (hP : allZC P) :
    allZC (diagColsF d P) := by
  refine ⟨map_ne_nil hP.1, ?_⟩
  intro v hv
  simp only [diagColsF, List.mem_map] at hv
  obtain ⟨c, hc, hv'⟩ := hv
  rw [← hv']
  exact hadamardF_allZ hd (hP.2 c hc)

theorem diagColsF_ne {d : Vec} {P : ColsF} (hd : d ≠ []) (hP : neColsF P) :
    neColsF (diagColsF d P) := by
  refine ⟨map_ne_nil hP.1, ?_⟩
  intro v hv
  simp only [diagColsF, List.mem_map] at hv
  obtain ⟨c, hc, hv'⟩ := hv
  rw [← hv']
  exact zipWith_ne_nil hd (hP.2 c hc)

theorem colsSubF_allZC {P Q : ColsF} (hP : allZC P) (hQ : allZC Q) :
    allZC (colsSubF P Q) := by
  refine ⟨zipWith_ne_nil hP.1 hQ.1, ?_⟩
  intro v hv
  obtain ⟨a, ha, b, hb, hv'⟩ := mem_zipWithQ hv
  rw [hv']
  refine ⟨zipWith_ne_nil (hP.2 a ha).1 (hQ.2 b hb).1, ?_⟩
  intro q hq
  obtain ⟨u, hu, w, hw, hq'⟩ := mem_zipWithQ hq
  rw [hq', (hP.2 a ha).2 u hu, (hQ.2 b hb).2 w hw, fsub_zero_zero]

theorem colsDotF_allZ {P Q : ColsF} (hP : allZC P) (hQ : allZC Q) :
    allZ (colsDotF P Q) := by
  refine ⟨zipWith_ne_nil hP.1 hQ.1, ?_⟩
  intro q hq
  obtain ⟨a, ha, b, hb, hq'⟩ := mem_zipWithQ hq
  rw [hq']
  exact dotF_all_zero (hP.2 a ha).2 (hQ.2 b hb).2

theorem colsDotF_nan_right {P Q : ColsF} (hP : neColsF P) (hQ : allNanC Q) :
    allNan (colsDotF P Q) := by
  refine ⟨zipWith_ne_nil hP.1 hQ.1, ?_⟩
  intro q hq
  obtain ⟨a, ha, b, hb, hq'⟩ := mem_zipWithQ hq
  rw [hq']
  exact dotF_nan_right (hP.2 a ha) (hQ.2 b hb).1 (hQ.2 b hb).2

theorem colsDotF_nan_left {P Q : ColsF} (hP : allNanC P) (hQ : neColsF Q) :
    allNan (colsDotF P Q) := by
  refine ⟨zipWith_ne_nil hP.1 hQ.1, ?_⟩
  intro q hq
  obtain ⟨a, ha, b, hb, hq'⟩ := mem_zipWithQ hq
  rw [hq']
  exact dotF_nan_left (hP.2 a ha).1 (hQ.2 b hb) (hP.2 a ha).2

theorem colsDotF_ne {P Q : ColsF} (hP : P ≠ []) (hQ : Q ≠ []) :
    colsDotF P Q ≠ [] := zipWith_ne_nil hP hQ

theorem zipWith3_ne_nil {α β γ δ : Type} {f : α → β → γ → δ} {a : List α}
    {b : List β} {c : List γ} (ha : a ≠ []) (hb : b ≠ []) (hc : c ≠ []) :
    zipWith3 f a b c ≠ [] := by
  cases a with
  | nil => exact absurd rfl ha
  | cons u us =>
    cases b with
    | nil => exact absurd rfl hb
    | cons v vs =>
      cases c with
      | nil => exact absurd rfl hc
      | cons w ws => simp [zipWith3]

theorem zipWith4_ne_nil {α β γ δ ε : Type} {f : α → β → γ → δ → ε}
    {a : List α} {b : List β} {c : List γ} {d : List δ} (ha : a ≠ [])
    (hb : b ≠ []) (hc : c ≠ []) (hd : d ≠ []) :
    zipWith4 f a b c d ≠ [] := by
  cases a with
  | nil => exact absurd rfl ha
  | cons u us =>
    cases b with
    | nil => exact absurd rfl hb
    | cons v vs =>
      cases c with
      | nil => exact absurd rfl hc
      | cons w ws =>
        cases d with
        | nil => exact absurd rfl hd
        | cons t ts => simp [zipWith4]

theorem colsAxpyF_ne {c : VecF} {P acc : ColsF} (hc : c ≠ [])
    (hP : neColsF P) (hacc : neColsF acc) : neColsF (colsAxpyF c P acc) := by
  refine ⟨zipWith3_ne_nil hc hP.1 hacc.1, ?_⟩
  intro v hv
  obtain ⟨a, _, p, hp, q, hq, hv'⟩ := mem_zipWith3 hv
  rw [hv']
  exact zipWith_ne_nil (hP.2 p hp) (hacc.2 q hq)

theorem foldl_colsAxpyF_ne {l : List (VecF × ColsF)}
    (hl : ∀ ch ∈ l, ch.1 ≠ [] ∧ neColsF ch.2) :
    ∀ {acc : ColsF}, neColsF acc →
      neColsF (l.foldl (fun acc ch => colsAxpyF ch.1 ch.2 acc) acc) := by
  induction l with
  | nil => intro acc hacc; exact hacc
  | cons ch t ih =>
    intro acc hacc
    have h0 := hl ch (by simp)
    exact ih (fun c hc => hl c (by simp [hc])) (colsAxpyF_ne h0.1 h0.2 hacc)

theorem zipWith4_nan {f : Option ℕ → FD → VecF → VecF → VecF}
    (hf : ∀ c a pc xc, pc ≠ [] → allNan xc → allNan (f c a pc xc))
    {conv : List (Option ℕ)} {al : VecF} {P Q : ColsF} (hconv : conv ≠ [])
    (hal : al ≠ []) (hP : neColsF P) (hQ : allNanC Q) :
    allNanC (zipWith4 f conv al P Q) := by
  refine ⟨zipWith4_ne_nil hconv hal hP.1 hQ.1, ?_⟩
  intro v hv
  obtain ⟨c, _, a, _, p, hp, q, hq, hv'⟩ := mem_zipWith4 hv
  rw [hv']
  exact hf c a p q (hP.2 p hp) (hQ.2 q hq)

theorem zipWith4_nan_first {f : Option ℕ → FD → VecF → VecF → VecF}
    (hf : ∀ c a pc xc, c = none → a = FD.nan → pc ≠ [] → xc ≠ [] →
      allNan (f c a pc xc))
    {conv : List (Option ℕ)} {al : VecF} {P Q : ColsF} (hconvne : conv ≠ [])
    (hconv : ∀ c ∈ conv, c = none) (halne : al ≠ [])
    (hal : ∀ a ∈ al, a = FD.nan) (hP : neColsF P) (hQ : neColsF Q) :
    allNanC (zipWith4 f conv al P Q) := by
  refine ⟨zipWith4_ne_nil hconvne halne hP.1 hQ.1, ?_⟩
  intro v hv
  obtain ⟨c, hc, a, ha, p, hp, q, hq, hv'⟩ := mem_zipWith4 hv
  rw [hv']
  exact hf c a p q (hconv c hc) (hal a ha) (hP.2 p hp) (hQ.2 q hq)

theorem zipWith_fdiv_zero_nan {num den : VecF}
    (h1 : ∀ q ∈ num, q = .fin 0) (h2 : ∀ q ∈ den, q = .fin 0) :
    ∀ a ∈ List.zipWith fdiv num den, a = FD.nan := by
  intro a ha
  obtain ⟨u, hu, w, hw, ha'⟩ := mem_zipWithQ ha
  rw [ha', h1 u hu, h2 w hw, fdiv_zero_zero]

theorem zipWith_fdiv_nan {num den : VecF} (h1 : ∀ q ∈ num, q = FD.nan) :
    ∀ a ∈ List.zipWith fdiv num den, a = FD.nan := by
  intro a ha
  obtain ⟨u, hu, w, _, ha'⟩ := mem_zipWithQ ha
  rw [ha', h1 u hu, fdiv_nan_left]

theorem markConvergedF_all_none {tol : ℚ} {i : ℕ} {conv : List (Option ℕ)}
    {cur ini : VecF} (hconv : ∀ c ∈ conv, c = none)
    (hcur : ∀ q ∈ cur, q = FD.nan) :
    ∀ c ∈ markConvergedF tol i conv cur ini, c = none := by
  intro c hc
  obtain ⟨c0, hc0, u, hu, v, _, hc'⟩ := mem_zipWith3 hc
  rw [hc', hconv c0 hc0, hcur u hu]
  simp [fle_nan_left]

theorem markConvergedF_ne {tol : ℚ} {i : ℕ} {conv : List (Option ℕ)}
    {cur ini : VecF} (h1 : conv ≠ []) (h2 : cur ≠ []) (h3 : ini ≠ []) :
    markConvergedF tol i conv cur ini ≠ [] := zipWith3_ne_nil h1 h2 h3

theorem allSome_false {l : List (Option ℕ)} (hne : l ≠ [])
    (h : ∀ c ∈ l, c = none) : l.all (fun c => c.isSome) = false := by
  cases l with
  | nil => exact absurd rfl hne
  | cons a t =>
    have ha := h a (by simp)
    simp [ha]

theorem cgBodyF_steps (o : Opts) (A M : Mat) (d : Vec) (st : CGStateF) :
    (cgBodyF o A M d st).1.steps = st.steps + 1 := rfl

theorem cgBodyF_i (o : Opts) (A M : Mat) (d : Vec) (st : CGStateF) :
    (cgBodyF o A M d st).1.i =
      (if (cgBodyF o A M d st).2 then st.i else st.i + 1) := by
  dsimp only [cgBodyF]
  split <;> rename_i h <;> simp [h]

theorem p3F_ne {Z : ColsF} {B : VecF} {P : ColsF} (hZ : neColsF Z)
    (hB : B ≠ []) (hP : neColsF P) :
    neColsF (zipWith3 (fun zc bc pc => axpbyF (.fin 1) zc bc pc) Z B P) := by
  refine ⟨zipWith3_ne_nil hZ.1 hB hP.1, ?_⟩
  intro v hv
  obtain ⟨zc, hzc, bc, _, pc, hpc, hv'⟩ := mem_zipWith3 hv
  rw [hv']
  exact zipWith_ne_nil (hZ.2 zc hzc) (hP.2 pc hpc)

theorem cgBodyF_first (o : Opts) (A M : Mat) (d : Vec) {b x : ColsF}
    (hA : A ≠ []) (_hAr : ∀ row ∈ A, row ≠ [])
    (hMm : M ≠ []) (hMr : ∀ row ∈ M, row ≠ []) (hd : d ≠ [])
    (hb : allZC b) (hx : allZC x) :
    (cgBodyF o A M d (cgInitF A M d b x)).2 = false ∧
    cgNanInv (cgBodyF o A M d (cgInitF A M d b x)).1 := by
  have hz : allZC (opColsF A x) := opColsF_allZC hA hx
  have hr : allZC (colsSubF b (opColsF A x)) := colsSubF_allZC hb hz
  have hp : allZC (opColsF M (colsSubF b (opColsF A x))) := opColsF_allZC hMm hr
  have ht : allZC (diagColsF d (opColsF M (colsSubF b (opColsF A x)))) :=
    diagColsF_allZC hd hp
  have hres : allZ (colsDotF
      (diagColsF d (opColsF M (colsSubF b (opColsF A x))))
      (opColsF M (colsSubF b (opColsF A x)))) := colsDotF_allZ ht hp
  have hcne : List.replicate
      (opColsF M (colsSubF b (opColsF A x))).length (none : Option ℕ) ≠ [] := by
    intro hc
    rw [List.replicate_eq_nil_iff] at hc
    exact hp.1 (List.length_eq_zero.mp hc)
  have hcall : ∀ c ∈ List.replicate
      (opColsF M (colsSubF b (opColsF A x))).length (none : Option ℕ),
      c = none := fun c hc => List.eq_of_mem_replicate hc
  have hz2 : allZC (opColsF A (opColsF M (colsSubF b (opColsF A x)))) :=
    opColsF_allZC hA hp
  have htr2 : allZC (diagColsF d (opColsF M (colsSubF b (opColsF A x)))) := ht
  have halnan : ∀ a ∈ List.zipWith fdiv
      (colsDotF (colsSubF b (opColsF A x))
        (diagColsF d (opColsF M (colsSubF b (opColsF A x)))))
      (colsDotF (opColsF A (opColsF M (colsSubF b (opColsF A x))))
        (diagColsF d (opColsF M (colsSubF b (opColsF A x))))),
      a = FD.nan :=
    zipWith_fdiv_zero_nan (colsDotF_allZ hr ht).2 (colsDotF_allZ hz2 ht).2
  have halne : List.zipWith fdiv
      (colsDotF (colsSubF b (opColsF A x))
        (diagColsF d (opColsF M (colsSubF b (opColsF A x)))))
      (colsDotF (opColsF A (opColsF M (colsSubF b (opColsF A x))))
        (diagColsF d (opColsF M (colsSubF b (opColsF A x))))) ≠ [] :=
    zipWith_ne_nil (colsDotF_ne hr.1 ht.1) (colsDotF_ne hz2.1 ht.1)
  have hfx : ∀ (c : Option ℕ) (a : FD) (pc xc : VecF), c = none →
      a = FD.nan → pc ≠ [] → xc ≠ [] →
      allNan (if c = none then axpyF a pc xc else xc) := by
    intro c a pc xc hc ha hpc hxc
    subst hc
    rw [if_pos rfl]
    exact axpyF_nan_coef ha hpc hxc
  have hfr : ∀ (c : Option ℕ) (a : FD) (pc xc : VecF), c = none →
      a = FD.nan → pc ≠ [] → xc ≠ [] →
      allNan (if c = none then axpyF (fneg a) pc xc else xc) := by
    intro c a pc xc hc ha hpc hxc
    subst hc
    rw [if_pos rfl]
    exact axpyF_nan_coef (by rw [ha]; rfl) hpc hxc
  have hx1 := zipWith4_nan_first hfx hcne hcall halne halnan
    (allZC_ne hp) (allZC_ne hx)
  have hr1 := zipWith4_nan_first hfr hcne hcall halne halnan
    (allZC_ne hz2) (allZC_ne hr)
  have hz3 := opColsF_allNanC hMm hMr hr1
  have ht3 := diagColsF_allNanC hd hz3
  have hnorm := colsDotF_nan_right (allNanC_ne hz3) ht3
  dsimp only [cgBodyF, cgInitF, cgNanInv]
  rw [if_neg (show ¬(o.variantGS = 2 ∧ 0 < 0) from fun h => absurd h.2 (by omega)),
      if_neg (show ¬(0 < 0) by omega)]
  refine ⟨allSome_false (markConvergedF_ne hcne hnorm.1 hres.1)
      (markConvergedF_all_none hcall hnorm.2), hx1, hr1, ?_, allNanC_ne hz3,
    allNanC_ne ht3, hres.1,
    markConvergedF_ne hcne hnorm.1 hres.1,
    markConvergedF_all_none hcall hnorm.2, ?_, ?_, ?_⟩
  · by_cases hv : o.variantGS ≠ 2
    · rw [if_pos hv]
      exact p3F_ne (allNanC_ne hz3)
        (zipWith3_ne_nil hr1.1 ht3.1 (colsDotF_ne hr.1 ht.1)) (allZC_ne hp)
    · rw [if_neg hv]
      exact allZC_ne hp
  · intro P hP
    simp only [List.nil_append, List.mem_singleton] at hP
    rw [hP]
    exact allZC_ne hp
  · by_cases hv : o.variantGS = 2
    · rw [if_pos hv]
      intro P hP
      simp only [List.nil_append, List.mem_singleton] at hP
      rw [hP]
      exact allZC_ne hz2
    · rw [if_neg hv]
      intro P hP
      cases hP
  · intro w hw
    simp only [List.nil_append, List.mem_singleton] at hw
    rw [hw]
    exact colsDotF_ne hz2.1 ht.1

theorem cgBodyF_tail (o : Opts) (A M : Mat) (d : Vec) (st : CGStateF)
    (hMm : M ≠ []) (hMr : ∀ row ∈ M, row ≠ []) (hd : d ≠ []) (hA : A ≠ [])
    (hx : allNanC st.x) (hr : allNanC st.r) (ht0 : st.trash ≠ [])
    (hres : st.resSq ≠ []) (hcne : st.conv ≠ [])
    (hcall : ∀ c ∈ st.conv, c = none)
    (hhp : ∀ Pb ∈ st.histP, neColsF Pb)
    (hhz : ∀ Pb ∈ st.histZ, neColsF Pb)
    (hhd : ∀ w ∈ st.histDen, w ≠ [])
    (P : ColsF) (hP : neColsF P) :
    ((markConvergedF o.tol (st.i + 1) st.conv
        (colsDotF
          (opColsF M
            (zipWith4
              (fun c a zc rc => if c = none then axpyF (fneg a) zc rc else rc)
              st.conv
              (List.zipWith fdiv (colsDotF st.r st.trash)
                (colsDotF (opColsF A P) (diagColsF d P)))
              (opColsF A P) st.r))
          (diagColsF d
            (opColsF M
              (zipWith4
                (fun c a zc rc => if c = none then axpyF (fneg a) zc rc else rc)
                st.conv
                (List.zipWith fdiv (colsDotF st.r st.trash)
                  (colsDotF (opColsF A P) (diagColsF d P)))
                (opColsF A P) st.r))))
        st.resSq).all (fun c => c.isSome)) = false ∧
    allNanC
      (zipWith4 (fun c a pc xc => if c = none then axpyF a pc xc else xc)
        st.conv
        (List.zipWith fdiv (colsDotF st.r st.trash)
          (colsDotF (opColsF A P) (diagColsF d P)))
        P st.x) ∧
    allNanC
      (zipWith4 (fun c a zc rc => if c = none then axpyF (fneg a) zc rc else rc)
        st.conv
        (List.zipWith fdiv (colsDotF st.r st.trash)
          (colsDotF (opColsF A P) (diagColsF d P)))
        (opColsF A P) st.r) ∧
    neColsF
      (if o.variantGS ≠ 2 then
        zipWith3 (fun zc bc pc => axpbyF (FD.fin 1) zc bc pc)
          (opColsF M
            (zipWith4
              (fun c a zc rc => if c = none then axpyF (fneg a) zc rc else rc)
              st.conv
              (List.zipWith fdiv (colsDotF st.r st.trash)
                (colsDotF (opColsF A P) (diagColsF d P)))
              (opColsF A P) st.r))
          (zipWith3 (fun rc tc nu => fdiv (dotF rc tc) nu)
            (zipWith4
              (fun c a zc rc => if c = none then axpyF (fneg a) zc rc else rc)
              st.conv
              (List.zipWith fdiv (colsDotF st.r st.trash)
                (colsDotF (opColsF A P) (diagColsF d P)))
              (opColsF A P) st.r)
            (diagColsF d
              (opColsF M
                (zipWith4
                  (fun c a zc rc =>
                    if c = none then axpyF (fneg a) zc rc else rc)
                  st.conv
                  (List.zipWith fdiv (colsDotF st.r st.trash)
                    (colsDotF (opColsF A P) (diagColsF d P)))
                  (opColsF A P) st.r)))
            (colsDotF st.r st.trash))
          P
      else P) ∧
    neColsF
      (opColsF M
        (zipWith4
          (fun c a zc rc => if c = none then axpyF (fneg a) zc rc else rc)
          st.conv
          (List.zipWith fdiv (colsDotF st.r st.trash)
            (colsDotF (opColsF A P) (diagColsF d P)))
          (opColsF A P) st.r)) ∧
    neColsF
      (diagColsF d
        (opColsF M
          (zipWith4
            (fun c a zc rc => if c = none then axpyF (fneg a) zc rc else rc)
            st.conv
            (List.zipWith fdiv (colsDotF st.r st.trash)
              (colsDotF (opColsF A P) (diagColsF d P)))
            (opColsF A P) st.r))) ∧
    st.resSq ≠ [] ∧
    markConvergedF o.tol (st.i + 1) st.conv
      (colsDotF
        (opColsF M
          (zipWith4
            (fun c a zc rc => if c = none then axpyF (fneg a) zc rc else rc)
            st.conv
            (List.zipWith fdiv (colsDotF st.r st.trash)
              (colsDotF (opColsF A P) (diagColsF d P)))
            (opColsF A P) st.r))
        (diagColsF d
          (opColsF M
            (zipWith4
              (fun c a zc rc => if c = none then axpyF (fneg a) zc rc else rc)
              st.conv
              (List.zipWith fdiv (colsDotF st.r st.trash)
                (colsDotF (opColsF A P) (diagColsF d P)))
              (opColsF A P) st.r))))
      st.resSq ≠ [] ∧
    (∀ c ∈ markConvergedF o.tol (st.i + 1) st.conv
        (colsDotF
          (opColsF M
            (zipWith4
              (fun c a zc rc => if c = none then axpyF (fneg a) zc rc else rc)
              st.conv
              (List.zipWith fdiv (colsDotF st.r st.trash)
                (colsDotF (opColsF A P) (diagColsF d P)))
              (opColsF A P) st.r))
          (diagColsF d
            (opColsF M
              (zipWith4
                (fun c a zc rc => if c = none then axpyF (fneg a) zc rc else rc)
                st.conv
                (List.zipWith fdiv (colsDotF st.r st.trash)
                  (colsDotF (opColsF A P) (diagColsF d P)))
                (opColsF A P) st.r))))
        st.resSq, c = none) ∧
    (∀ Pb ∈ st.histP ++ [P], neColsF Pb) ∧
    (∀ Pb ∈ (if o.variantGS = 2 then st.histZ ++ [opColsF A P] else st.histZ),
      neColsF Pb) ∧
    (∀ w ∈ st.histDen ++ [colsDotF (opColsF A P) (diagColsF d P)],
      w ≠ []) := by
  have hz2 : neColsF (opColsF A P) := opColsF_ne hA hP.1
  have htr2ne : diagColsF d P ≠ [] := map_ne_nil hP.1
  have hnum : colsDotF st.r st.trash ≠ [] := colsDotF_ne hr.1 ht0
  have halne : List.zipWith fdiv (colsDotF st.r st.trash)
      (colsDotF (opColsF A P) (diagColsF d P)) ≠ [] :=
    zipWith_ne_nil hnum (colsDotF_ne hz2.1 htr2ne)
  have hfx : ∀ (c : Option ℕ) (a : FD) (pc xc : VecF), pc ≠ [] →
      allNan xc → allNan (if c = none then axpyF a pc xc else xc) := by
    intro c a pc xc hpc hxc
    by_cases hc : c = none
    · rw [if_pos hc]; exact axpyF_absorb hpc hxc
    · rw [if_neg hc]; exact hxc
  have hfr : ∀ (c : Option ℕ) (a : FD) (zc rc : VecF), zc ≠ [] →
      allNan rc → allNan (if c = none then axpyF (fneg a) zc rc else rc) := by
    intro c a zc rc hzc hrc
    by_cases hc : c = none
    · rw [if_pos hc]; exact axpyF_absorb hzc hrc
    · rw [if_neg hc]; exact hrc
  have hx1 := zipWith4_nan hfx hcne halne hP hx
  have hr1 := zipWith4_nan hfr hcne halne hz2 hr
  have hz3 := opColsF_allNanC hMm hMr hr1
  have ht3 := diagColsF_allNanC hd hz3
  have hnorm := colsDotF_nan_right (allNanC_ne hz3) ht3
  refine ⟨allSome_false (markConvergedF_ne hcne hnorm.1 hres)
      (markConvergedF_all_none hcall hnorm.2),
    hx1, hr1, ?_, allNanC_ne hz3, allNanC_ne ht3, hres,
    markConvergedF_ne hcne hnorm.1 hres,
    markConvergedF_all_none hcall hnorm.2, ?_, ?_, ?_⟩
  · by_cases hv : o.variantGS ≠ 2
    · rw [if_pos hv]
      exact p3F_ne (allNanC_ne hz3)
        (zipWith3_ne_nil hr1.1 ht3.1 hnum) hP
    · rw [if_neg hv]
      exact hP
  · intro Pb hPb
    rcases List.mem_append.mp hPb with h | h
    · exact hhp Pb h
    · rw [List.mem_singleton.mp h]
      exact hP
  · by_cases hv : o.variantGS = 2
    · rw [if_pos hv]
      intro Pb hPb
      rcases List.mem_append.mp hPb with h | h
      · exact hhz Pb h
      · rw [List.mem_singleton.mp h]
        exact hz2
    · rw [if_neg hv]
      exact hhz
  · intro w hw
    rcases List.mem_append.mp hw with h | h
    · exact hhd w h
    · rw [List.mem_singleton.mp h]
      exact colsDotF_ne hz2.1 htr2ne

theorem cgBodyF_nan (o : Opts) (A M : Mat) (d : Vec) (st : CGStateF)
    (hA : A ≠ []) (hMm : M ≠ []) (hMr : ∀ row ∈ M, row ≠ []) (hd : d ≠ [])
    (hI : cgNanInv st) :
    (cgBodyF o A M d st).2 = false ∧ cgNanInv (cgBodyF o A M d st).1 := by
  obtain ⟨hx, hr, hp, hz, ht, hres, hcne, hcall, hhp, hhz, hhd⟩ := hI
  have hpairs : ∀ {L1 : List ColsF} {L2 : List VecF} {HP : List ColsF}
      (T : ColsF), T ≠ [] → (∀ Pb ∈ L1, neColsF Pb) → (∀ w ∈ L2, w ≠ []) →
      (∀ Pb ∈ HP, neColsF Pb) →
      ∀ ch ∈ List.zipWith (fun c Hp => (c, Hp))
        (List.zipWith (fun Hz den => zipWith3
          (fun t hz dv => fdiv (fneg (dotF t hz)) dv) T Hz den) L1 L2) HP,
        ch.1 ≠ [] ∧ neColsF ch.2 := by
    intro L1 L2 HP T hT hL1 hL2 hHP ch hch
    obtain ⟨c, hc, Hp, hHp, hch'⟩ := mem_zipWithQ hch
    obtain ⟨Hz, hHz, den, hden, hc'⟩ := mem_zipWithQ hc
    rw [hch']
    exact ⟨by rw [hc']; exact zipWith3_ne_nil hT (hL1 Hz hHz).1 (hL2 den hden),
      hHP Hp hHp⟩
  dsimp only [cgBodyF, cgNanInv]
  by_cases hi : 0 < st.i
  · by_cases hg2 : o.variantGS = 2
    · rw [if_pos (show o.variantGS = 2 ∧ 0 < st.i from ⟨hg2, hi⟩), if_pos hi]
      refine cgBodyF_tail o A M d st hMm hMr hd hA hx hr ht.1 hres hcne hcall
        hhp hhz hhd _ ?_
      exact foldl_colsAxpyF_ne
        (hpairs _
          (map_ne_nil (map_ne_nil
            (foldl_colsAxpyF_ne (hpairs _ ht.1 hhz hhd hhp) hz).1))
          hhp hhd hhp)
        (foldl_colsAxpyF_ne (hpairs _ ht.1 hhz hhd hhp) hz)
    · rw [if_neg (show ¬(o.variantGS = 2 ∧ 0 < st.i) from fun h => hg2 h.1),
          if_pos hi]
      refine cgBodyF_tail o A M d st hMm hMr hd hA hx hr ht.1 hres hcne hcall
        hhp hhz hhd _ ?_
      exact foldl_colsAxpyF_ne
        (hpairs _ (map_ne_nil (map_ne_nil hp.1)) hhp hhd hhp) hp
  · rw [if_neg (show ¬(o.variantGS = 2 ∧ 0 < st.i) from fun h => absurd h.2 hi),
        if_neg hi]
    exact cgBodyF_tail o A M d st hMm hMr hd hA hx hr ht.1 hres hcne hcall
      hhp hhz hhd _ hp

theorem cgLoopF_nan (o : Opts) (A M : Mat) (d : Vec) (hA : A ≠ [])
    (hMm : M ≠ []) (hMr : ∀ row ∈ M, row ≠ []) (hd : d ≠ []) :
    ∀ (fuel : ℕ) (st : CGStateF), cgNanInv st →
    (cgLoopF o A M d fuel st).2 = false ∧
    cgNanInv (cgLoopF o A M d fuel st).1 ∧
    (cgLoopF o A M d fuel st).1.i = st.i + fuel ∧
    (cgLoopF o A M d fuel st).1.steps = st.steps + fuel := by
  intro fuel
  induction fuel with
  | zero =>
    intro st h
    simp only [cgLoopF]
    exact ⟨by trivial, h, by omega, by omega⟩
  | succ n ih =>
    intro st h
    obtain ⟨hb, hI⟩ := cgBodyF_nan o A M d st hA hMm hMr hd h
    simp only [cgLoopF, hb, Bool.false_eq_true, if_false]
    have hii := cgBodyF_i o A M d st
    rw [hb, if_neg (by simp)] at hii
    have hs := cgBodyF_steps o A M d st
    obtain ⟨c1, c2, c3, c4⟩ := ih (cgBodyF o A M d st).1 hI
    exact ⟨c1, c2, by omega, by omega⟩

theorem CGF_nan (o : Opts) (A M : Mat) (d : Vec) (gmres : GmresKF) (mu : ℕ)
    {b x : ColsF} (hit : 0 < o.it) (hby : bypassToGMRES o = false)
    (hA : A ≠ []) (hAr : ∀ row ∈ A, row ≠ [])
    (hMm : M ≠ []) (hMr : ∀ row ∈ M, row ≠ []) (hd : d ≠ [])
    (hb : allZC b) (hx : allZC x) :
    (CGF o A M d false gmres mu b x).count = o.it ∧
    allNanC (CGF o A M d false gmres mu b x).x ∧
    allNanC (CGF o A M d false gmres mu b x).r := by
  simp only [CGF, hby, Bool.false_eq_true, if_false]
  dsimp only [cgRunF]
  cases hitv : o.it with
  | zero => omega
  | succ n =>
    simp only [cgLoopF]
    obtain ⟨hb0, hI0⟩ := cgBodyF_first o A M d hA hAr hMm hMr hd hb hx
    simp only [hb0, Bool.false_eq_true, if_false]
    obtain ⟨c1, c2, c3, c4⟩ := cgLoopF_nan o A M d hA hMm hMr hd n _ hI0
    have hii := cgBodyF_i o A M d (cgInitF A M d b x)
    rw [hb0, if_neg (by simp)] at hii
    have hinit_i : (cgInitF A M d b x).i = 0 := rfl
    refine ⟨?_, c2.1, c2.2.1⟩
    omega

theorem BCGF_nan (k : DenseKF) (o : Opts) (A M : Mat) (d : Vec)
    (gmres : GmresKF) (mu : ℕ) {b x : ColsF}
    (hit : 0 < o.it) (hby : bypassToGMRES o = false)
    (hqr : ∀ (dv : Vec) (P : ColsF), (∀ v ∈ P, ∀ q ∈ v, q = FD.fin 0) →
      k.qr dv P = none)
    (hA : A ≠ []) (hAr : ∀ row ∈ A, row ≠ [])
    (hMm : M ≠ []) (hMr : ∀ row ∈ M, row ≠ []) (hd : d ≠ [])
    (hb : allZC b) (hx : allZC x) :
    (BCGF k o A M d false gmres mu b x).count = o.it ∧
    allNanC (BCGF k o A M d false gmres mu b x).x ∧
    allNanC (BCGF k o A M d false gmres mu b x).r := by
  simp only [BCGF, hby, Bool.false_eq_true, if_false]
  by_cases hv : o.variant = 2
  · rw [if_pos hv]
    exact CGF_nan o A M d gmres mu hit hby hA hAr hMm hMr hd hb hx
  · rw [if_neg hv]
    have hp : allZC (opColsF M (colsSubF b (opColsF A x))) :=
      opColsF_allZC hMm (colsSubF_allZC hb (opColsF_allZC hA hx))
    have hcore : bcgCoreF k o A M d false mu b x =
        .fb x (colsSubF b (opColsF A x)) := by
      simp only [bcgCoreF, Bool.false_eq_true, if_false,
        hqr _ _ (fun v hv' q hq => (hp.2 v hv').2 q hq)]
    rw [hcore]
    exact CGF_nan o A M d gmres mu hit hby hA hAr hMm hMr hd hb hx

theorem set_ne_nil {α : Type} {l : List α} (h : l ≠ []) (n : ℕ) (a : α) :
    l.set n a ≠ [] := by
  intro hc
  apply h
  have hlen := congrArg List.length hc
  rw [List.length_set] at hlen
  exact List.length_eq_zero.mp hlen

theorem getLast?_set {α : Type} {l : List α} {n : ℕ} (h : n + 1 < l.length)
    (a : α) : (l.set n a).getLast? = l.getLast? := by
  rw [List.getLast?_eq_getElem?, List.getLast?_eq_getElem?, List.length_set]
  rw [List.getElem?_set_ne]
  omega

theorem getLast?_append_two {α : Type} (l : List α) (a b : α) :
    (l ++ [a, b]).getLast? = some b := by
  have h : l ++ [a, b] = (l ++ [a]) ++ [b] := by simp
  rw [h, List.getLast?_concat]

theorem foldl_axpyF_nan {l : List (FD × FD × VecF)}
    (hl : ∀ t ∈ l, t.2.2 ≠ []) :
    ∀ {acc : VecF}, allNan acc →
      allNan (l.foldl (fun acc t => axpyF (fneg (fdiv t.1 t.2.1)) t.2.2 acc)
        acc) := by
  induction l with
  | nil => intro acc hacc; exact hacc
  | cons t ts ih =>
    intro acc hacc
    exact ih (fun u hu => hl u (by simp [hu]))
      (axpyF_absorb (hl t (by simp)) hacc)

theorem pcgBodyF_nan (op : PCGOpF) (tol : ℚ) (v : ℤ) (R : FD)
    (st : PCGStateF)
    (hTn : ∀ w, allNan w → allNan (op.projT w))
    (hMn : ∀ w, allNan w → allNan (op.M w))
    (hNn : ∀ w, allNan w → allNan (op.projN w))
    (hFn : ∀ w, allNan w → allNan (op.F w))
    (hI : pcgNanInv st) :
    (pcgBodyF op tol v R false st).2 = false ∧
    pcgNanInv (pcgBodyF op tol v R false st).1 ∧
    (pcgBodyF op tol v R false st).1.i = st.i + 1 ∧
    (pcgBodyF op tol v R false st).1.steps = st.steps + 1 := by
  obtain ⟨hx, hr, hzsne, hzl, hps, hlen, hige⟩ := hI
  dsimp only [pcgBodyF]
  simp only [Bool.false_eq_true, if_false]
  generalize hPC : (zipWith3 (fun dk ak pk => (dk, ak, pk))
    (List.map (fun zk => dotF zk (op.projN ((st.zs.getLast?).getD [])))
      st.zs.dropLast) st.aHist st.ps.dropLast).foldl
    (fun acc t => axpyF (fneg (fdiv t.1 t.2.1)) t.2.2 acc)
    (op.projN ((st.zs.getLast?).getD [])) = PC
  have hpC : allNan PC := by
    rw [← hPC]
    apply foldl_axpyF_nan
    · intro t ht
      obtain ⟨dk, _, ak, _, pk, hpk, ht'⟩ := mem_zipWith3 ht
      rw [ht']
      exact hps pk hpk
    · exact hNn _ hzl
  have hzF : allNan (op.F PC) := hFn _ hpC
  have hr1 : allNan (op.projT (axpyF
      (fneg (fdiv (dotF st.r (hadamardF op.scal PC))
        (dotF (op.F PC) (hadamardF op.scal PC))))
      (op.F PC) st.r)) := hTn _ (axpyF_absorb hzF.1 hr)
  have hzN : allNan (op.M (op.projT (axpyF
      (fneg (fdiv (dotF st.r (hadamardF op.scal PC))
        (dotF (op.F PC) (hadamardF op.scal PC))))
      (op.F PC) st.r))) := hMn _ hr1
  have hx1 : allNan (axpyF
      (fdiv (dotF st.r (hadamardF op.scal PC))
        (dotF (op.F PC) (hadamardF op.scal PC)))
      PC st.x) := axpyF_absorb hpC.1 hx
  have hrel : dotF
      (op.M (op.projT (axpyF
        (fneg (fdiv (dotF st.r (hadamardF op.scal PC))
          (dotF (op.F PC) (hadamardF op.scal PC))))
        (op.F PC) st.r)))
      (op.M (op.projT (axpyF
        (fneg (fdiv (dotF st.r (hadamardF op.scal PC))
          (dotF (op.F PC) (hadamardF op.scal PC))))
        (op.F PC) st.r))) = FD.nan :=
    dotF_nan_right hzN.1 hzN.1 hzN.2
  rw [if_neg (show ¬ (fle (fdiv (dotF
      (op.M (op.projT (axpyF
        (fneg (fdiv (dotF st.r (hadamardF op.scal PC))
          (dotF (op.F PC) (hadamardF op.scal PC))))
        (op.F PC) st.r)))
      (op.M (op.projT (axpyF
        (fneg (fdiv (dotF st.r (hadamardF op.scal PC))
          (dotF (op.F PC) (hadamardF op.scal PC))))
        (op.F PC) st.r)))) R) (.fin (tol ^ 2)) = true) from by
    rw [hrel, fdiv_nan_left, fle_nan_left]
    simp)]
  have hidx : (st.i + 1 - 2) + 1 <
      (st.zs.dropLast ++
        [op.F PC,
         op.M (op.projT (axpyF
           (fneg (fdiv (dotF st.r (hadamardF op.scal PC))
             (dotF (op.F PC) (hadamardF op.scal PC))))
           (op.F PC) st.r))]).length := by
    simp only [List.length_append, List.length_dropLast, List.length_cons,
      List.length_nil]
    omega
  refine ⟨rfl, ⟨hx1, hr1, ?_, ?_, ?_, ?_, ?_⟩, rfl, rfl⟩
  · exact set_ne_nil (by simp) _ _
  · rw [getLast?_set hidx, getLast?_append_two]
    exact hzN
  · rw [List.dropLast_concat]
    intro p hp
    rcases List.mem_append.mp hp with h | h
    · exact hps p h
    · rw [List.mem_singleton.mp h]
      exact hpC.1
  · simp only [List.length_set, List.length_append, List.length_dropLast,
      List.length_cons, List.length_nil]
    omega
  · exact Nat.le_add_left 1 st.i

theorem pcgBodyF_first (op : PCGOpF) (tol : ℚ) (v : ℤ) (R : FD)
    (r0 x0 : VecF) (hscal : op.scal ≠ [])
    (hNz : ∀ w, allZ w → allZ (op.projN w))
    (hFz : ∀ w, allZ w → allZ (op.F w))
    (hMz : ∀ w, allZ w → allZ (op.M w))
    (hTn : ∀ w, allNan w → allNan (op.projT w))
    (hMn : ∀ w, allNan w → allNan (op.M w))
    (hr0 : allZ r0) (hx0 : allZ x0) :
    (pcgBodyF op tol v R false
      { x := x0, r := r0, zs := [op.M r0], ps := [[]], aHist := [],
        resLog := [], log := [], i := 1, steps := 0 }).2 = false ∧
    pcgNanInv (pcgBodyF op tol v R false
      { x := x0, r := r0, zs := [op.M r0], ps := [[]], aHist := [],
        resLog := [], log := [], i := 1, steps := 0 }).1 ∧
    (pcgBodyF op tol v R false
      { x := x0, r := r0, zs := [op.M r0], ps := [[]], aHist := [],
        resLog := [], log := [], i := 1, steps := 0 }).1.i = 2 ∧
    (pcgBodyF op tol v R false
      { x := x0, r := r0, zs := [op.M r0], ps := [[]], aHist := [],
        resLog := [], log := [], i := 1, steps := 0 }).1.steps = 1 := by
  have hz0 : allZ (op.M r0) := hMz _ hr0
  have hpC0 : allZ (op.projN (op.M r0)) := hNz _ hz0
  have hzF : allZ (op.F (op.projN (op.M r0))) := hFz _ hpC0
  have hscr : allZ (hadamardF op.scal (op.projN (op.M r0))) :=
    hadamardF_allZ hscal hpC0
  have haN : dotF (op.F (op.projN (op.M r0)))
      (hadamardF op.scal (op.projN (op.M r0))) = FD.fin 0 :=
    dotF_all_zero hzF.2 hscr.2
  have haC : dotF r0 (hadamardF op.scal (op.projN (op.M r0))) = FD.fin 0 :=
    dotF_all_zero hr0.2 hscr.2
  have hastep : fneg (fdiv
      (dotF r0 (hadamardF op.scal (op.projN (op.M r0))))
      (dotF (op.F (op.projN (op.M r0)))
        (hadamardF op.scal (op.projN (op.M r0))))) = FD.nan := by
    rw [haC, haN, fdiv_zero_zero]
    rfl
  have hrI : allNan (axpyF (fneg (fdiv
      (dotF r0 (hadamardF op.scal (op.projN (op.M r0))))
      (dotF (op.F (op.projN (op.M r0)))
        (hadamardF op.scal (op.projN (op.M r0))))))
      (op.F (op.projN (op.M r0))) r0) :=
    axpyF_nan_coef hastep hzF.1 hr0.1
  have hr1 := hTn _ hrI
  have hzN := hMn _ hr1
  have hx1 : allNan (axpyF (fdiv
      (dotF r0 (hadamardF op.scal (op.projN (op.M r0))))
      (dotF (op.F (op.projN (op.M r0)))
        (hadamardF op.scal (op.projN (op.M r0)))))
      (op.projN (op.M r0)) x0) :=
    axpyF_nan_coef (by rw [haC, haN, fdiv_zero_zero]) hpC0.1 hx0.1
  have hrel := dotF_nan_right hzN.1 hzN.1 hzN.2
  dsimp only [pcgBodyF]
  simp only [Bool.false_eq_true, if_false, List.getLast?_singleton,
    Option.getD_some, List.dropLast_single, List.map_nil, List.foldl_nil,
    zipWith3]
  rw [if_neg (by rw [hrel, fdiv_nan_left, fle_nan_left]; simp)]
  refine ⟨rfl, ⟨hx1, hr1, ?_, ?_, ?_, ?_, ?_⟩, rfl, rfl⟩
  · exact set_ne_nil (by simp) _ _
  · rw [show (1 + 1 - 2 : ℕ) = 0 by omega]
    simp only [List.set_cons_zero, List.getLast?_cons_cons,
      List.getLast?_singleton, Option.getD_some]
    exact hzN
  · simp only [List.dropLast_single, List.nil_append]
    rw [List.dropLast_concat]
    intro p hp
    rw [List.mem_singleton.mp hp]
    exact hpC0.1
  · simp only [List.length_set, List.length_cons, List.length_nil]
    rfl
  · exact Nat.le_add_left 1 1

theorem pcgLoopF_nan (op : PCGOpF) (tol : ℚ) (v : ℤ) (R : FD)
    (hTn : ∀ w, allNan w → allNan (op.projT w))
    (hMn : ∀ w, allNan w → allNan (op.M w))
    (hNn : ∀ w, allNan w → allNan (op.projN w))
    (hFn : ∀ w, allNan w → allNan (op.F w)) :
    ∀ (fuel : ℕ) (st : PCGStateF), pcgNanInv st →
    pcgNanInv (pcgLoopF op tol v R false fuel st) ∧
    (pcgLoopF op tol v R false fuel st).i = st.i + fuel ∧
    (pcgLoopF op tol v R false fuel st).steps = st.steps + fuel := by
  intro fuel
  induction fuel with
  | zero =>
    intro st h
    simp only [pcgLoopF]
    exact ⟨h, by omega, by omega⟩
  | succ n ih =>
    intro st h
    obtain ⟨hb, hI, hii, hs⟩ := pcgBodyF_nan op tol v R st hTn hMn hNn hFn h
    simp only [pcgLoopF, hb, Bool.false_eq_true, if_false]
    obtain ⟨c1, c2, c3⟩ := ih _ hI
    exact ⟨c1, by omega, by omega⟩

theorem PCGF_nan (op : PCGOpF) (o : Opts) (f r0 x0 : VecF)
    (hit : 0 < o.it) (hscal : op.scal ≠ [])
    (hNz : ∀ w, allZ w → allZ (op.projN w))
    (hFz : ∀ w, allZ w → allZ (op.F w))
    (hMz : ∀ w, allZ w → allZ (op.M w))
    (hTn : ∀ w, allNan w → allNan (op.projT w))
    (hMn : ∀ w, allNan w → allNan (op.M w))
    (hNn : ∀ w, allNan w → allNan (op.projN w))
    (hFn : ∀ w, allNan w → allNan (op.F w))
    (hSn : ∀ w, allNan w → allNan (op.sol f w))
    (hr0 : allZ r0) (hx0 : allZ x0) :
    (PCGF op o false f r0 x0).count = o.it ∧
    allNan (PCGF op o false f r0 x0).x ∧
    allNan (PCGF op o false f r0 x0).r := by
  dsimp only [PCGF, pcgRunF]
  simp only [Bool.false_eq_true, if_false]
  cases hitv : o.it with
  | zero => omega
  | succ n =>
    simp only [pcgLoopF]
    obtain ⟨hb0, hI0, hii0, hs0⟩ := pcgBodyF_first op o.tol o.verbosity
      (dotF (op.M r0) (op.M r0)) r0 x0 hscal hNz hFz hMz hTn hMn hr0 hx0
    simp only [hb0, Bool.false_eq_true, if_false]
    obtain ⟨c1, c2, c3⟩ := pcgLoopF_nan op o.tol o.verbosity
      (dotF (op.M r0) (op.M r0)) hTn hMn hNn hFn n _ hI0
    refine ⟨?_, hSn _ c1.1, c1.2.1⟩
    omega

/-- Counterexample for C6: under the IEEE scalar semantics the claim fails
on the 1×1 system `A = [1]`, `M = [1]`, `d = [1]` with `b = 0`, `x = 0`,
`tol = 1`, `it = 3`: each method computes its first step scalar as
`0.0/0.0 = NaN` (CG.hpp:115, CG.hpp:345-351), NaN propagates into `x` and
the residual, no convergence comparison with a NaN operand succeeds, and so
CG, BCG (through its fallback to CG at the rank-deficient initial QR) and
PCG all return `3 = it` — not 0 or 1 — with `x` and the residual NaN
rather than zero. -/
theorem zero_rhs_nan_cex :
    (CGF oPlain [[1]] [[1]] [1] false gmresStubF 1
      [[FD.fin 0]] [[FD.fin 0]]).count = 3 ∧
    (CGF oPlain [[1]] [[1]] [1] false gmresStubF 1
      [[FD.fin 0]] [[FD.fin 0]]).x = [[FD.nan]] ∧
    (CGF oPlain [[1]] [[1]] [1] false gmresStubF 1
      [[FD.fin 0]] [[FD.fin 0]]).r = [[FD.nan]] ∧
    (BCGF kNoneF oPlain [[1]] [[1]] [1] false gmresStubF 1
      [[FD.fin 0]] [[FD.fin 0]]).count = 3 ∧
    (BCGF kNoneF oPlain [[1]] [[1]] [1] false gmresStubF 1
      [[FD.fin 0]] [[FD.fin 0]]).x = [[FD.nan]] ∧
    (BCGF kNoneF oPlain [[1]] [[1]] [1] false gmresStubF 1
      [[FD.fin 0]] [[FD.fin 0]]).r = [[FD.nan]] ∧
    (PCGF idOpF oPlain false [FD.fin 0] [FD.fin 0] [FD.fin 0]).count = 3 ∧
    (PCGF idOpF oPlain false [FD.fin 0] [FD.fin 0] [FD.fin 0]).x =
      [FD.nan] ∧
    (PCGF idOpF oPlain false [FD.fin 0] [FD.fin 0] [FD.fin 0]).r =
      [FD.nan] := by
  refine ⟨?_, ?_, ?_, ?_, ?_, ?_, ?_, ?_, ?_⟩ <;> with_unfolding_all decide

/-- Claim C6 (amended): with an all-zero right-hand side and a zero initial
guess (at least one local unknown, at least one allowed iteration), none of
CG, BCG, PCG exits early: the first step scalar is `0.0/0.0 = NaN`
(CG.hpp:115; CG.hpp:345-351 and the test of CG.hpp:375 for PCG), NaN
propagates into the solution and the residual, every convergence comparison
against a NaN quantity is false, the loop runs the full `it` iterations,
and the returned count is `it`, with `x` and the residual NaN rather than
zero.  BCG reaches the same NaN-poisoned CG run through its breakdown
fallback when the initial QR of the all-zero direction block reports rank
deficiency (the spec-modelled kernel behaviour, hypothesis `hqr`), or
through the `variant == 2` redirection. -/
theorem zero_rhs_nan_poisoning (o : Opts) (k : DenseKF) (A M : Mat)
    (d : Vec) (gmres : GmresKF) (mu : ℕ) (b x : ColsF) (op : PCGOpF)
    (f r0 x0 : VecF)
    (hit : 0 < o.it) (hby : bypassToGMRES o = false)
    (hA : A ≠ []) (hAr : ∀ row ∈ A, row ≠ [])
    (hMm : M ≠ []) (hMr : ∀ row ∈ M, row ≠ []) (hd : d ≠ [])
    (hqr : ∀ (dv : Vec) (P : ColsF), (∀ v ∈ P, ∀ q ∈ v, q = FD.fin 0) →
      k.qr dv P = none)
    (hscal : op.scal ≠ [])
    (hNz : ∀ w, allZ w → allZ (op.projN w))
    (hFz : ∀ w, allZ w → allZ (op.F w))
    (hMz : ∀ w, allZ w → allZ (op.M w))
    (hTn : ∀ w, allNan w → allNan (op.projT w))
    (hMn : ∀ w, allNan w → allNan (op.M w))
    (hNn : ∀ w, allNan w → allNan (op.projN w))
    (hFn : ∀ w, allNan w → allNan (op.F w))
    (hSn : ∀ w, allNan w → allNan (op.sol f w))
    (hb : allZC b) (hx : allZC x) (hr0 : allZ r0) (hx0 : allZ x0) :
    ((CGF o A M d false gmres mu b x).count = o.it ∧
      allNanC (CGF o A M d false gmres mu b x).x ∧
      allNanC (CGF o A M d false gmres mu b x).r) ∧
    ((BCGF k o A M d false gmres mu b x).count = o.it ∧
      allNanC (BCGF k o A M d false gmres mu b x).x ∧
      allNanC (BCGF k o A M d false gmres mu b x).r) ∧
    ((PCGF op o false f r0 x0).count = o.it ∧
      allNan (PCGF op o false f r0 x0).x ∧
      allNan (PCGF op o false f r0 x0).r) :=
  ⟨CGF_nan o A M d gmres mu hit hby hA hAr hMm hMr hd hb hx,
   BCGF_nan k o A M d gmres mu hit hby hqr hA hAr hMm hMr hd hb hx,
   PCGF_nan op o f r0 x0 hit hscal hNz hFz hMz hTn hMn hNn hFn hSn hr0 hx0⟩

theorem zero_rhs_nan_poisoning_witness :
    (CGF oPlain [[1]] [[1]] [1] false gmresStubF 1
      [[FD.fin 0]] [[FD.fin 0]]).count = oPlain.it ∧
    (BCGF kNoneF oPlain [[1]] [[1]] [1] false gmresStubF 1
      [[FD.fin 0]] [[FD.fin 0]]).count = oPlain.it ∧
    (PCGF idOpF oPlain false [FD.fin 0] [FD.fin 0] [FD.fin 0]).count =
      oPlain.it ∧
    allNan (PCGF idOpF oPlain false [FD.fin 0] [FD.fin 0] [FD.fin 0]).x :=
  have h := zero_rhs_nan_poisoning oPlain kNoneF [[1]] [[1]] [1] gmresStubF 1
    [[FD.fin 0]] [[FD.fin 0]] idOpF [FD.fin 0] [FD.fin 0] [FD.fin 0]
    (by with_unfolding_all decide) (by with_unfolding_all decide)
    (by with_unfolding_all decide) (by with_unfolding_all decide)
    (by with_unfolding_all decide) (by with_unfolding_all decide)
    (by with_unfolding_all decide)
    (fun _ _ _ => rfl)
    (by with_unfolding_all decide)
    (fun _ h => h) (fun _ h => h) (fun _ h => h)
    (fun _ h => h) (fun _ h => h) (fun _ h => h) (fun _ h => h)
    (fun _ h => h)
    (by with_unfolding_all decide) (by with_unfolding_all decide)
    (by with_unfolding_all decide) (by with_unfolding_all decide)
  ⟨h.1.1, h.2.1.1, h.2.2.1, h.2.2.2.1⟩
